import Mathlib

/-!
# boku-engine: the minimax search of `minimax.go`

A shallow embedding of `src/minimax.go` and the properties of its tree
search.

Modelling decisions.

* Go `int` is `Int`.  The only arithmetic of the program is `line ± 1`,
  `column ± 1`, `plies - 1` and the heuristic counter (at most six steps of
  `+10`, `+20`, `-50`), all far from the 64-bit bounds on any board that
  fits in memory.
* A board `[][]int` is a list of columns, each a list of cells; the columns
  do not share storage.  Every indexing `xs[i]` is checked: an index out of
  range is the run-time panic of Go, `Fault.outOfRange`.
* `Score *int` is a pointer.  The integers pointed to are never written
  after their allocation (the program only reads `*cn.Score`), so a non-nil
  pointer is modelled by `ScoreRef`: the address together with the integer
  stored there.  `&score` in `AddTerminal` allocates a new address, taken
  from a counter that is threaded through the operations.  `==` on
  pointers compares addresses (`ptrEq`); dereferencing nil is
  `Fault.nilDeref`.
* A node owns its children; the `parent` back-reference of a child is the
  node holding it in `children` (`add` is the only place where a child is
  created, and it stores the receiver as parent).  So `cn.parent.Score`,
  for `cn` ranging over `node.children`, is the score of `node`.
* Operations that mutate their receiver or the board return the new value.
* The tree embedding has no `parent` field.  What the source does with the
  back-reference is stated on `addAt`, the method `add` on a store of nodes
  with explicit addresses.
-/

namespace Minimax

/-- Ways a run of the program can stop without completing. -/
inductive Fault where
  /-- Index out of range (Go run-time panic). -/
  | outOfRange
  /-- Dereference of a nil `*int` (Go run-time panic). -/
  | nilDeref
  /-- The recursion budget of the model ran out (no counterpart in Go). -/
  | fuel
deriving DecidableEq, Repr

/-- The board `[][]int`: `board[column][line]`. -/
abbrev Board := List (List Int)

/-- A coordinate `[2]int`: `(column, line)`. -/
abbrev Pos := Int × Int

/-- A non-nil `*int`: its address and the integer stored at that address. -/
structure ScoreRef where
  addr : Nat
  val : Int
deriving DecidableEq, Repr

/-- Pointer comparison `p == q` of two `*int`: equal addresses, or both nil. -/
def ptrEq : Option ScoreRef → Option ScoreRef → Bool
  | none, none => true
  | some p, some q => decide (p.addr = q.addr)
  | _, _ => false

/-- Type `Node` of the source: an element of the decision tree (fields
`Score`, `children`, `isOpponent`, `Movement`; `parent` is the node that
holds this one in its `children`). -/
inductive Node where
  | mk (Score : Option ScoreRef) (children : List Node) (isOpponent : Bool)
      (Movement : Pos) : Node
deriving Repr

namespace Node

/-- Field `Score`. -/
def Score : Node → Option ScoreRef
  | mk s _ _ _ => s

/-- Field `children`. -/
def children : Node → List Node
  | mk _ cs _ _ => cs

/-- Field `isOpponent`. -/
def isOpponent : Node → Bool
  | mk _ _ o _ => o

/-- Field `Movement`. -/
def Movement : Node → Pos
  | mk _ _ _ m => m

end Node

/-- Function `NewNode`: `Node{isOpponent: false}`, every other field zero. -/
def NewNode : Node := Node.mk none [] false (0, 0)

/-- Checked read `xs[i]`. -/
def indexAt {α : Type} (xs : List α) (i : Int) : Except Fault α :=
  if i < 0 then Except.error Fault.outOfRange
  else
    match xs[i.toNat]? with
    | some x => Except.ok x
    | none => Except.error Fault.outOfRange

/-- Checked write `xs[i] = v`. -/
def storeAt {α : Type} (xs : List α) (i : Int) (v : α) : Except Fault (List α) :=
  if i < 0 then Except.error Fault.outOfRange
  else if i.toNat < xs.length then Except.ok (xs.set i.toNat v)
  else Except.error Fault.outOfRange

/-- Read of `board[p[0]][p[1]]`. -/
def cellAt (board : Board) (p : Pos) : Except Fault Int := do
  let col ← indexAt board p.1
  indexAt col p.2

/-- Write `board[p[0]][p[1]] = v`. -/
def setCell (board : Board) (p : Pos) (v : Int) : Except Fault Board := do
  let col ← indexAt board p.1
  let col1 ← storeAt col p.2 v
  storeAt board p.1 col1

/-- Method `GetBestChildNode`: the first child whose `Score` pointer equals
the node's `Score` pointer, nil when there is none. -/
def Node.GetBestChildNode (node : Node) : Option Node :=
  node.children.find? (fun cn => ptrEq cn.Score node.Score)

/-- Method `add`: appends a child with the given score pointer and move and
the negated flag; returns the updated node and the child. -/
def Node.add (node : Node) (score : Option ScoreRef) (movement : Pos) : Node × Node :=
  let childNode := Node.mk score [] (!node.isOpponent) movement
  (Node.mk node.Score (node.children ++ [childNode]) node.isOpponent node.Movement,
    childNode)

/-- Method `AddTerminal`: `node.add(&score, movement)`; the parameter `score`
gets the next unused address `next`.  Returns the updated node, the child and
the next unused address. -/
def Node.AddTerminal (node : Node) (next : Nat) (score : Int) (movement : Pos) :
    (Node × Node) × Nat :=
  (node.add (some (ScoreRef.mk next score)) movement, next + 1)

/-- Method `Add`: `node.add(nil, movement)`. -/
def Node.Add (node : Node) (movement : Pos) : Node × Node :=
  node.add none movement

/-- Method `isTerminal`. -/
def Node.isTerminal (node : Node) : Bool :=
  decide (node.children.length = 0)

/-- Function `neighbors`: the adjacent coordinates of `pos`, in the order
down, left/down, left/up, up, right/up, right/down. -/
def neighbors (board : Board) : Pos → Except Fault (List Pos)
  | (column, line) => do
  let col ← indexAt board column
  let l : List Pos := []
  let l := if line < (col.length : Int) - 1 then l ++ [(column, line + 1)] else l
  let l :=
    if column ≤ (board.length : Int) - 1 ∧ column ≠ 0 then
      if line ≠ (col.length : Int) - 1 ∧ column < 6 then l ++ [(column - 1, line)]
      else if column ≥ 6 then l ++ [(column - 1, line + 1)]
      else l
    else l
  let l :=
    if column ≤ (board.length : Int) - 1 ∧ column ≠ 0 then
      if column < 6 ∧ line ≠ 0 then l ++ [(column - 1, line - 1)]
      else if column ≥ 6 then l ++ [(column - 1, line)]
      else l
    else l
  let l := if line ≠ 0 then l ++ [(column, line - 1)] else l
  let l :=
    if column < (board.length : Int) - 1 then
      if column < 5 then l ++ [(column + 1, line)]
      else if column ≥ 5 ∧ line ≠ 0 then l ++ [(column + 1, line - 1)]
      else l
    else l
  if column < (board.length : Int) - 1 then
    if column < 5 then
      pure (l ++ [(column + 1, line + 1)])
    else do
      let nxt ← indexAt board (column + 1)
      if column ≥ 5 ∧ line ≠ (nxt.length : Int) then pure (l ++ [(column + 1, line)])
      else pure l
  else pure l

/-- One iteration of the loop of `heuristic` over the neighbour `vizinho`. -/
def heuristicStep (board : Board) (counter : Int) (vizinho : Pos) : Except Fault Int := do
  let c ← cellAt board vizinho
  let counter := if c = 0 then counter + 10 else counter
  let counter := if c = 1 then counter + 20 else counter
  let counter := if c = 2 then counter - 50 else counter
  pure counter

/-- Function `heuristic`. -/
def heuristic (board : Board) (position : Pos) : Except Fault Int := do
  let v ← neighbors board position
  v.foldlM (heuristicStep board) 0

/-- Function `doMove`: `board[movement[0]][movement[1]] = player`. -/
def doMove (board : Board) (player : Int) (movement : Pos) : Except Fault Board :=
  setCell board movement player

/-- Function `undoMove`: `board[movement[0]][movement[1]] = 0`. -/
def undoMove (board : Board) (movement : Pos) : Except Fault Board :=
  setCell board movement 0

/-- Inner loop of `generateChildMoves` (`for k_cell, cell := range col`) over
the cells of column `k_col` that remain from index `k_cell` on. -/
def generateCells (board : Board) (eval : Bool) (k_col : Nat) :
    List Int → Nat → Node → Nat → Except Fault (Node × Nat)
  | [], _, node, next => pure (node, next)
  | cell :: rest, k_cell, node, next =>
    if cell = 0 then
      if eval = true then do
        let score ← heuristic board ((k_col : Int), (k_cell : Int))
        let r := node.AddTerminal next score ((k_col : Int), (k_cell : Int))
        generateCells board eval k_col rest (k_cell + 1) r.1.1 r.2
      else
        generateCells board eval k_col rest (k_cell + 1)
          (node.Add ((k_col : Int), (k_cell : Int))).1 next
    else generateCells board eval k_col rest (k_cell + 1) node next

/-- Outer loop of `generateChildMoves` (`for k_col, col := range board`) over
the columns that remain from index `k_col` on. -/
def generateCols (board : Board) (eval : Bool) :
    List (List Int) → Nat → Node → Nat → Except Fault (Node × Nat)
  | [], _, node, next => pure (node, next)
  | col :: rest, k_col, node, next => do
    let r ← generateCells board eval k_col col 0 node next
    generateCols board eval rest (k_col + 1) r.1 r.2

/-- Method `generateChildMoves`; `player` is not used by the source.  Returns
the updated node and the next unused address. -/
def Node.generateChildMoves (node : Node) (board : Board) (next : Nat) (_player : Int)
    (eval : Bool) : Except Fault (Node × Nat) :=
  generateCols board eval board 0 node next

/-- Lines 69-75 of `Evaluate`: the new value of `cn.parent.Score` given its
current value and the child `cn`. -/
def propagate (parentScore : Option ScoreRef) (cn : Node) :
    Except Fault (Option ScoreRef) :=
  match parentScore with
  | none => pure cn.Score
  | some ps =>
    match cn.Score with
    | none => Except.error Fault.nilDeref
    | some cs =>
      if cn.isOpponent = true ∧ cs.val > ps.val then pure cn.Score
      else if cn.isOpponent = false ∧ cs.val < ps.val then pure cn.Score
      else pure parentScore

/-- Lines 60-67 of `Evaluate`, for the child `cn` whose move is already on
the board: when `plies != 0` the variable `player` is overwritten with the
other player and `cn` is evaluated with it.  `recur cn board next player`
stands for `cn.Evaluate(board, plies-1, player)`.  Returns the child, the
board, the next unused address and the value of `player` after these lines. -/
def descend (recur : Node → Board → Nat → Int → Except Fault (Node × Board × Nat))
    (plies : Int) (cn : Node) (board : Board) (next : Nat) (player : Int) :
    Except Fault (Node × Board × Nat × Int) :=
  if plies ≠ 0 then do
    let player1 : Int := if player = 1 then 2 else 1
    let e ← recur cn board next player1
    pure (e.1, e.2.1, e.2.2, player1)
  else
    pure (cn, board, next, player)

/-- The loop `for _, cn := range node.children` of `Evaluate`, over the
children that remain.  The state carried from one iteration to the next is
the score of the evaluated node, the board, the next unused address and the
variable `player`, which the body overwrites.  Returns the children after
their evaluation, the node's score, the board and the next unused address. -/
def evalChildren (recur : Node → Board → Nat → Int → Except Fault (Node × Board × Nat))
    (plies : Int) :
    List Node → Option ScoreRef → Board → Nat → Int →
      Except Fault (List Node × Option ScoreRef × Board × Nat)
  | [], score, board, next, _ => pure ([], score, board, next)
  | cn :: rest, score, board, next, player => do
    let board1 ← doMove board player cn.Movement
    let r ← descend recur plies cn board1 next player
    let score1 ← propagate score r.1
    let board2 ← undoMove r.2.1 r.1.Movement
    let t ← evalChildren recur plies rest score1 board2 r.2.2.1 r.2.2.2
    pure (r.1 :: t.1, t.2)

/-- Method `Evaluate` with a recursion budget `fuel`: returns the node after
the evaluation, the board and the next unused address. -/
def EvaluateAux : Nat → Node → Board → Nat → Int → Int → Except Fault (Node × Board × Nat)
  | 0, _, _, _, _, _ => Except.error Fault.fuel
  | fuel + 1, node, board, next, plies, player => do
    let eval : Bool := decide (plies = 0)
    let g ← node.generateChildMoves board next player eval
    let t ← evalChildren (fun cn b n p => EvaluateAux fuel cn b n (plies - 1) p) plies
      g.1.children g.1.Score board g.2 player
    pure (Node.mk t.2.1 t.1 g.1.isOpponent g.1.Movement, t.2.2.1, t.2.2.2)

/-- Number of cells of the board. -/
def cellCount (board : Board) : Nat :=
  (board.map List.length).sum

/-- Method `Evaluate`; `next` is the next unused address.  The recursion is
`plies` levels deep when `0 <= plies`, so the budget `plies + cells + 2` is
not used up (`Evaluate_ne_fuel`). -/
def Node.Evaluate (node : Node) (board : Board) (next : Nat) (plies : Int) (player : Int) :
    Except Fault (Node × Board × Nat) :=
  EvaluateAux (plies.toNat + cellCount board + 2) node board next plies player

/-! ## Notions used to state the properties -/

/-- The coordinate `p` is in-bounds: `0 <= p[0] < len(board)` and
`0 <= p[1] < len(board[p[0]])`. -/
def inBounds (board : Board) (p : Pos) : Prop :=
  0 ≤ p.1 ∧ 0 ≤ p.2 ∧ p.1.toNat < board.length ∧
    p.2.toNat < (board.getD p.1.toNat []).length

instance (board : Board) (p : Pos) : Decidable (inBounds board p) := by
  unfold inBounds
  infer_instance

/-- Content of the cell `p` (0 outside the board). -/
def getCell (board : Board) (p : Pos) : Int :=
  (board.getD p.1.toNat []).getD p.2.toNat 0

/-- Coordinates of the cells holding 0 among `cells`, the cells of column
`k_col` from line `k_cell` on, by ascending line. -/
def emptyCellsCol (k_col : Nat) : List Int → Nat → List Pos
  | [], _ => []
  | cell :: rest, k_cell =>
    if cell = 0 then ((k_col : Int), (k_cell : Int)) :: emptyCellsCol k_col rest (k_cell + 1)
    else emptyCellsCol k_col rest (k_cell + 1)

/-- Coordinates of the cells holding 0 in the columns `cols`, numbered from
`k_col` on, by ascending column and then ascending line. -/
def emptyCellsFrom : List (List Int) → Nat → List Pos
  | [], _ => []
  | col :: rest, k_col => emptyCellsCol k_col col 0 ++ emptyCellsFrom rest (k_col + 1)

/-- Coordinates of the empty cells of the board in scan order. -/
def emptyCells (board : Board) : List Pos :=
  emptyCellsFrom board 0

/-- Number of empty cells of the board. -/
def countEmpty (board : Board) : Nat :=
  (board.map (fun col => col.count 0)).sum

/-- Relation `InTree n t`: `n` is a node of the tree rooted at `t`. -/
inductive Node.InTree : Node → Node → Prop
  | root (t : Node) : Node.InTree t t
  | child {n c t : Node} : c ∈ t.children → Node.InTree n c → Node.InTree n t

/-- The integer `v` is the maximum of the scores of `cs`: every score is
present and at most `v`, and one of them is `v`. -/
def IsMaxOf (v : Int) (cs : List Node) : Prop :=
  (∀ c ∈ cs, ∃ s, c.Score = some s ∧ s.val ≤ v) ∧ ∃ c ∈ cs, ∃ s, c.Score = some s ∧ s.val = v

/-- The integer `v` is the minimum of the scores of `cs`. -/
def IsMinOf (v : Int) (cs : List Node) : Prop :=
  (∀ c ∈ cs, ∃ s, c.Score = some s ∧ v ≤ s.val) ∧ ∃ c ∈ cs, ∃ s, c.Score = some s ∧ s.val = v

/-- The score of `n` is present, the children of `n` carry the negation of
its flag and, when `n` has children, its score is their maximum if the flag of
`n` is false and their minimum if it is true. -/
def Node.Propagated (n : Node) : Prop :=
  ∃ s, n.Score = some s ∧ (∀ c ∈ n.children, c.isOpponent = (!n.isOpponent)) ∧
    (n.children ≠ [] →
      (n.isOpponent = false → IsMaxOf s.val n.children) ∧
      (n.isOpponent = true → IsMinOf s.val n.children))

/-- Contribution of a neighbour holding `c` to the heuristic. -/
def contribution (c : Int) : Int :=
  if c = 0 then 10 else if c = 1 then 20 else if c = 2 then -50 else 0

/-- Column heights of the hexagonal kind: every column up to index 5 is one
cell taller than the column before it, every column after index 5 one cell
shorter. -/
def HexShaped (board : Board) : Prop :=
  ∀ c ∈ List.range (board.length - 1),
    (c < 5 → (board.getD (c + 1) []).length = (board.getD c []).length + 1) ∧
    (5 ≤ c → (board.getD (c + 1) []).length + 1 = (board.getD c []).length)

instance (board : Board) : Decidable (HexShaped board) := by
  unfold HexShaped
  infer_instance

/-- The children `kids` are as `generateChildMoves` appends them to a node
with flag `o`: no children of their own, the negated flag and, with `eval`,
the heuristic of their move stored at the addresses `lo`, `lo + 1`, ... up to
`hi` (excluded); without `eval`, no score and `hi = lo`. -/
def Generated (board : Board) (o : Bool) (eval : Bool) : Nat → List Node → Nat → Prop
  | lo, [], hi => hi = lo
  | lo, c :: rest, hi =>
    c.children = [] ∧ c.isOpponent = (!o) ∧
      if eval = true then
        (∃ v, heuristic board c.Movement = Except.ok v ∧ c.Score = some (ScoreRef.mk lo v)) ∧
          Generated board o eval (lo + 1) rest hi
      else c.Score = none ∧ Generated board o eval lo rest hi

/-- The condition under which lines 71-74 of `Evaluate` replace the parent's
score `b` by the score `a` of a child with flag `co`: strictly greater for an
opponent move, strictly lesser otherwise. -/
def Beats (co : Bool) (a b : Int) : Prop :=
  (co = true ∧ a > b) ∨ (co = false ∧ a < b)

instance (co : Bool) (a b : Int) : Decidable (Beats co a b) := by
  unfold Beats
  infer_instance

/-- Every node of the tree `t` has a propagated score, and the score of `t`
itself is stored at an address from `lo` up to `hi` (excluded). -/
def Node.Resolved (lo hi : Nat) (t : Node) : Prop :=
  (∀ x, Node.InTree x t → x.Propagated) ∧ ∃ s, t.Score = some s ∧ lo ≤ s.addr ∧ s.addr < hi

/-- The child `c` of `t` is the first child of `t`, in child order, whose
score is the maximum of the scores of the children of `t`. -/
def Node.FirstBest (t c : Node) : Prop :=
  ∃ before after s, t.children = before ++ c :: after ∧ c.Score = some s ∧
    IsMaxOf s.val t.children ∧ ∀ d ∈ before, ∃ sd, d.Score = some sd ∧ sd.val < s.val

/-- Number of occupied cells of the board. -/
def countOccupied (board : Board) : Nat :=
  (board.map (fun col => (col.filter (fun cell => decide (cell ≠ 0))).length)).sum

/-- The tree that `Evaluate` leaves on a new root for the one-column board
`[[0,0,0]]`, `plies = 1`, player 1 and first unused address 0. -/
def sampleTree : Node :=
  Node.mk (some (ScoreRef.mk 1 10))
    [Node.mk (some (ScoreRef.mk 1 10))
        [Node.mk (some (ScoreRef.mk 0 30)) [] false (0, 1),
          Node.mk (some (ScoreRef.mk 1 10)) [] false (0, 2)] true (0, 0),
      Node.mk (some (ScoreRef.mk 2 (-50)))
        [Node.mk (some (ScoreRef.mk 2 (-50))) [] false (0, 0),
          Node.mk (some (ScoreRef.mk 3 (-50))) [] false (0, 2)] true (0, 1),
      Node.mk (some (ScoreRef.mk 4 10))
        [Node.mk (some (ScoreRef.mk 4 10)) [] false (0, 0),
          Node.mk (some (ScoreRef.mk 5 30)) [] false (0, 1)] true (0, 2)]
    false (0, 0)

/-- The tree that `Evaluate` leaves on a new root for the one-column board
`[[0,0,0]]`, `plies = 0`, player 1 and first unused address 0. -/
def sampleLeaves : Node :=
  Node.mk (some (ScoreRef.mk 1 20))
    [Node.mk (some (ScoreRef.mk 0 10)) [] true (0, 0),
      Node.mk (some (ScoreRef.mk 1 20)) [] true (0, 1),
      Node.mk (some (ScoreRef.mk 2 10)) [] true (0, 2)]
    false (0, 0)

/-- Heights of the columns of the board. -/
def heights (board : Board) : List Nat :=
  board.map List.length

/-- The list that `neighbors` returns for a column index in range, as a
function of the heights `hs` of the columns: the concatenation of what each
of its six blocks appends. -/
def neighborsOf (hs : List Nat) (pos : Pos) : List Pos :=
  (if pos.2 < (hs.getD pos.1.toNat 0 : Int) - 1 then [(pos.1, pos.2 + 1)] else []) ++
  (if pos.1 ≤ (hs.length : Int) - 1 ∧ pos.1 ≠ 0 then
    (if pos.2 ≠ (hs.getD pos.1.toNat 0 : Int) - 1 ∧ pos.1 < 6 then [(pos.1 - 1, pos.2)]
     else if pos.1 ≥ 6 then [(pos.1 - 1, pos.2 + 1)] else [])
   else []) ++
  (if pos.1 ≤ (hs.length : Int) - 1 ∧ pos.1 ≠ 0 then
    (if pos.1 < 6 ∧ pos.2 ≠ 0 then [(pos.1 - 1, pos.2 - 1)]
     else if pos.1 ≥ 6 then [(pos.1 - 1, pos.2)] else [])
   else []) ++
  (if pos.2 ≠ 0 then [(pos.1, pos.2 - 1)] else []) ++
  (if pos.1 < (hs.length : Int) - 1 then
    (if pos.1 < 5 then [(pos.1 + 1, pos.2)]
     else if pos.1 ≥ 5 ∧ pos.2 ≠ 0 then [(pos.1 + 1, pos.2 - 1)] else [])
   else []) ++
  (if pos.1 < (hs.length : Int) - 1 then
    (if pos.1 < 5 then [(pos.1 + 1, pos.2 + 1)]
     else if pos.1 ≥ 5 ∧ pos.2 ≠ (hs.getD (pos.1 + 1).toNat 0 : Int) then [(pos.1 + 1, pos.2)]
     else [])
   else [])

/-- The empty hexagonal board: 11 columns of heights 5, 6, 7, 8, 9, 10, 9,
8, 7, 6, 5. -/
def hexBoard : Board :=
  [5, 6, 7, 8, 9, 10, 9, 8, 7, 6, 5].map (fun h => List.replicate h 0)

/-! ## The reference search of the specification -/

/-- Step 3b of the reference search for the child `cn` whose move is already
on the board: when not at the final ply, `cn` is evaluated with the opposing
player. -/
def descendSpec (recur : Node → Board → Nat → Int → Except Fault (Node × Board × Nat))
    (plies : Int) (cn : Node) (board : Board) (next : Nat) (player : Int) :
    Except Fault (Node × Board × Nat) :=
  if plies ≠ 0 then recur cn board next (if player = 1 then 2 else 1)
  else pure (cn, board, next)

/-- Loop of the reference search over the children that remain: every child's
move is applied for `player` and every child is evaluated with the other
player. -/
def evalChildrenSpec (recur : Node → Board → Nat → Int → Except Fault (Node × Board × Nat))
    (plies : Int) (player : Int) :
    List Node → Option ScoreRef → Board → Nat →
      Except Fault (List Node × Option ScoreRef × Board × Nat)
  | [], score, board, next => pure ([], score, board, next)
  | cn :: rest, score, board, next => do
    let board1 ← doMove board player cn.Movement
    let r ← descendSpec recur plies cn board1 next player
    let score1 ← propagate score r.1
    let board2 ← undoMove r.2.1 r.1.Movement
    let t ← evalChildrenSpec recur plies player rest score1 board2 r.2.2
    pure (r.1 :: t.1, t.2)

/-- Reference search with a recursion budget. -/
def EvaluateSpecAux : Nat → Node → Board → Nat → Int → Int → Except Fault (Node × Board × Nat)
  | 0, _, _, _, _, _ => Except.error Fault.fuel
  | fuel + 1, node, board, next, plies, player => do
    let g ← node.generateChildMoves board next player (decide (plies = 0))
    let t ← evalChildrenSpec (fun cn b n p => EvaluateSpecAux fuel cn b n (plies - 1) p) plies
      player g.1.children g.1.Score board g.2
    pure (Node.mk t.2.1 t.1 g.1.isOpponent g.1.Movement, t.2.2.1, t.2.2.2)

/-- Algorithm `Evaluate(board, plies_remaining, player_to_move)` as the
specification words it (section 4.5): generate one child per empty cell; for
each child apply its move for `player_to_move`, evaluate it, when not at the
final ply, with `plies_remaining - 1` and the opposing player, propagate its
score, revert its move. -/
def Node.EvaluateSpec (node : Node) (board : Board) (next : Nat) (plies : Int) (player : Int) :
    Except Fault (Node × Board × Nat) :=
  EvaluateSpecAux (plies.toNat + cellCount board + 2) node board next plies player


/-! ## Further notions: adjacency -/

/-- The six coordinates that `neighbors` computes for `pos`, one per direction
(down, left/down, left/up, up, right/up, right/down), before any bound is
checked. -/
def candidates (pos : Pos) : List Pos :=
  [(pos.1, pos.2 + 1),
    if pos.1 < 6 then (pos.1 - 1, pos.2) else (pos.1 - 1, pos.2 + 1),
    if pos.1 < 6 then (pos.1 - 1, pos.2 - 1) else (pos.1 - 1, pos.2),
    (pos.1, pos.2 - 1),
    if pos.1 < 5 then (pos.1 + 1, pos.2) else (pos.1 + 1, pos.2 - 1),
    if pos.1 < 5 then (pos.1 + 1, pos.2 + 1) else (pos.1 + 1, pos.2)]

/-- Heights of the columns of the hexagonal board. -/
def hexHeights : List Nat := [5, 6, 7, 8, 9, 10, 9, 8, 7, 6, 5]

/-! ## The method `add` on the level of addresses -/

/-- Type `Node` of the source with its pointers: the node stored at one
address, `parent` and `children` being addresses (nil is `none`). -/
structure Cell where
  Score : Option ScoreRef
  parent : Option Nat
  children : List Nat
  isOpponent : Bool
  Movement : Pos

/-- The nodes allocated so far; the address of a node is its index. -/
abbrev Store := List Cell

/-- Method `add` on the level of addresses, for the receiver at address
`node`: the child is allocated at the next address, with the receiver as
parent and the negated flag, and its address is appended to the receiver's
children.  Returns the new store and the address of the child. -/
def addAt (store : Store) (node : Nat) (score : Option ScoreRef) (movement : Pos) :
    Except Fault (Store × Nat) :=
  match store[node]? with
  | none => Except.error Fault.nilDeref
  | some n =>
    let childNode : Cell :=
      { Score := score, parent := some node, children := [], isOpponent := !n.isOpponent,
        Movement := movement }
    let child := store.length
    Except.ok ((store.set node { n with children := n.children ++ [child] }) ++ [childNode],
      child)

/-! ## Further notions: order, depth, leaves, reachable trees -/

/-- Scan order of the coordinates: ascending outer index and, within it,
ascending inner index. -/
def scanBefore (a b : Pos) : Prop :=
  a.1 < b.1 ∨ (a.1 = b.1 ∧ a.2 < b.2)

/-- Relation `AtDepth i n t`: `n` is a node of the tree rooted at `t`, `i`
levels below `t`. -/
inductive Node.AtDepth : Nat → Node → Node → Prop
  | root (t : Node) : Node.AtDepth 0 t t
  | child {i : Nat} {n c t : Node} : c ∈ t.children → Node.AtDepth i n c →
      Node.AtDepth (i + 1) n t

mutual
/-- Number of leaves (nodes without children) of the tree. -/
def Node.leafCount : Node → Nat
  | Node.mk _ [] _ _ => 1
  | Node.mk _ (c :: cs) _ _ => c.leafCount + leafCountList cs
/-- Number of leaves of the trees of a list. -/
def leafCountList : List Node → Nat
  | [] => 0
  | c :: cs => c.leafCount + leafCountList cs
end

/-- The tree `t` is expanded to full width over `d` further plies from a board
with `k` empty cells: every node `i <= d` levels below `t` has `k - i`
children, and the nodes `d + 1` levels below are scored leaves. -/
inductive FullWidth : Nat → Nat → Node → Prop
  | final {k : Nat} {t : Node} : t.children.length = k →
      (∀ c ∈ t.children, c.children = [] ∧ ∃ s, c.Score = some s) → FullWidth k 0 t
  | inner {k d : Nat} {t : Node} : t.children.length = k →
      (∀ c ∈ t.children, FullWidth (k - 1) d c) → FullWidth k (d + 1) t

/-- Relation `Call t u`: the tree `u` results from the tree `t` by one call
of `Add`, `AddTerminal` or `Evaluate` (that completes) on a node of `t`. -/
inductive Node.Call : Node → Node → Prop
  | add (t : Node) (movement : Pos) : Node.Call t (t.Add movement).1
  | addTerminal (t : Node) (next : Nat) (score : Int) (movement : Pos) :
      Node.Call t (t.AddTerminal next score movement).1.1
  | evaluate (t : Node) (board : Board) (next : Nat) (plies player : Int)
      (r : Node × Board × Nat) :
      t.Evaluate board next plies player = Except.ok r → Node.Call t r.1
  | inside (s : Option ScoreRef) (before : List Node) (c u : Node) (after : List Node)
      (o : Bool) (m : Pos) : Node.Call c u →
      Node.Call (Node.mk s (before ++ c :: after) o m) (Node.mk s (before ++ u :: after) o m)

/-- Trees reachable from `NewNode` by calls of `Add`, `AddTerminal` and
`Evaluate`. -/
inductive Node.Reachable : Node → Prop
  | new : Node.Reachable NewNode
  | call {t u : Node} : Node.Reachable t → Node.Call t u → Node.Reachable u

/-- Every child in the tree carries the negation of its parent's flag. -/
def Node.FlagsAlternate (t : Node) : Prop :=
  ∀ n, Node.InTree n t → ∀ c ∈ n.children, c.isOpponent = (!n.isOpponent)

/-! ## Checked indexing -/

theorem bind_eq_ok {ε α β : Type} {x : Except ε α} {f : α → Except ε β} {b : β}
    (h : (x >>= f) = Except.ok b) : ∃ a, x = Except.ok a ∧ f a = Except.ok b := by
  cases x with
  | error e => simp [bind, Except.bind] at h
  | ok a => exact ⟨a, rfl, h⟩

theorem indexAt_eq_ok {α : Type} {xs : List α} {i : Int} {x : α}
    (h : indexAt xs i = Except.ok x) : 0 ≤ i ∧ xs[i.toNat]? = some x := by
  unfold indexAt at h
  split at h
  · simp at h
  · split at h
    · rename_i y hy
      simp only [Except.ok.injEq] at h
      subst h
      exact ⟨by omega, hy⟩
    · simp at h

theorem indexAt_ok_of {α : Type} {xs : List α} {i : Int} {x : α}
    (h0 : 0 ≤ i) (hx : xs[i.toNat]? = some x) : indexAt xs i = Except.ok x := by
  unfold indexAt
  rw [if_neg (by omega), hx]

theorem storeAt_eq_ok {α : Type} {xs ys : List α} {i : Int} {v : α}
    (h : storeAt xs i v = Except.ok ys) :
    0 ≤ i ∧ i.toNat < xs.length ∧ ys = xs.set i.toNat v := by
  unfold storeAt at h
  split at h
  · simp at h
  · split at h
    · simp only [Except.ok.injEq] at h
      exact ⟨by omega, by assumption, h.symm⟩
    · simp at h

theorem storeAt_ok_of {α : Type} {xs : List α} {i : Int} (v : α)
    (h0 : 0 ≤ i) (hlt : i.toNat < xs.length) :
    storeAt xs i v = Except.ok (xs.set i.toNat v) := by
  unfold storeAt
  rw [if_neg (by omega), if_pos hlt]

theorem cellAt_eq_ok {board : Board} {p : Pos} {v : Int} (h : cellAt board p = Except.ok v) :
    ∃ col, 0 ≤ p.1 ∧ board[p.1.toNat]? = some col ∧ 0 ≤ p.2 ∧ col[p.2.toNat]? = some v := by
  unfold cellAt at h
  obtain ⟨col, hcol, hv⟩ := bind_eq_ok h
  obtain ⟨h1, h2⟩ := indexAt_eq_ok hcol
  obtain ⟨h3, h4⟩ := indexAt_eq_ok hv
  exact ⟨col, h1, h2, h3, h4⟩

theorem setCell_eq_ok {board b1 : Board} {p : Pos} {v : Int}
    (h : setCell board p v = Except.ok b1) :
    ∃ col, 0 ≤ p.1 ∧ board[p.1.toNat]? = some col ∧ 0 ≤ p.2 ∧ p.2.toNat < col.length ∧
      b1 = board.set p.1.toNat (col.set p.2.toNat v) := by
  unfold setCell at h
  obtain ⟨col, hcol, h⟩ := bind_eq_ok h
  obtain ⟨col1, hcol1, h⟩ := bind_eq_ok h
  obtain ⟨h1, h2⟩ := indexAt_eq_ok hcol
  obtain ⟨h3, h4, h5⟩ := storeAt_eq_ok hcol1
  obtain ⟨_, _, h8⟩ := storeAt_eq_ok h
  subst h5
  exact ⟨col, h1, h2, h3, h4, h8⟩

theorem setCell_ok_of {board : Board} {p : Pos} {col : List Int} (v : Int)
    (h1 : 0 ≤ p.1) (h2 : board[p.1.toNat]? = some col) (h3 : 0 ≤ p.2)
    (h4 : p.2.toNat < col.length) :
    setCell board p v = Except.ok (board.set p.1.toNat (col.set p.2.toNat v)) := by
  unfold setCell
  rw [indexAt_ok_of h1 h2]
  have hlen : p.1.toNat < board.length := by
    rcases List.getElem?_eq_some_iff.mp h2 with ⟨hl, _⟩
    exact hl
  simp only [bind, Except.bind]
  rw [storeAt_ok_of v h3 h4]
  simp only []
  rw [storeAt_ok_of _ h1 hlen]

/-- Writing a value into an empty cell and then writing 0 there gives the
board back. -/
theorem setCell_undo {board b1 b2 : Board} {p : Pos} {v : Int}
    (h0 : cellAt board p = Except.ok 0) (h1 : setCell board p v = Except.ok b1)
    (h2 : setCell b1 p 0 = Except.ok b2) : b2 = board := by
  obtain ⟨col, _, hc, _, hv⟩ := cellAt_eq_ok h0
  obtain ⟨col1, _, hc1, _, hlt, hb1⟩ := setCell_eq_ok h1
  obtain ⟨col2, _, hc2, _, _, hb2⟩ := setCell_eq_ok h2
  rw [hc] at hc1
  cases hc1
  have hlen : p.1.toNat < board.length := (List.getElem?_eq_some_iff.mp hc).1
  subst hb1
  rw [List.getElem?_set_self hlen] at hc2
  cases hc2
  subst hb2
  rw [List.set_set, List.set_set]
  have hcol : col.set p.2.toNat 0 = col := by
    apply List.ext_getElem?
    intro i
    rw [List.getElem?_set]
    split
    · rename_i hi
      subst hi
      simp [hlt, hv]
    · rfl
  rw [hcol]
  apply List.ext_getElem?
  intro i
  rw [List.getElem?_set]
  split
  · rename_i hi
    subst hi
    simp [hlen, hc]
  · rfl


/-! ## Move generation -/

theorem Node.mk_eta (n : Node) : Node.mk n.Score n.children n.isOpponent n.Movement = n := by
  cases n
  rfl

theorem Generated_append {board : Board} {o eval : Bool} :
    ∀ (xs ys : List Node) (lo mid hi : Nat), Generated board o eval lo xs mid →
      Generated board o eval mid ys hi → Generated board o eval lo (xs ++ ys) hi := by
  intro xs
  induction xs with
  | nil =>
    intro ys lo mid hi h1 h2
    simp only [Generated] at h1
    subst h1
    simpa using h2
  | cons c rest ih =>
    intro ys lo mid hi h1 h2
    simp only [Generated, List.cons_append] at h1 ⊢
    obtain ⟨hc, ho, h1⟩ := h1
    refine ⟨hc, ho, ?_⟩
    by_cases he : eval = true
    · rw [if_pos he] at h1 ⊢
      exact ⟨h1.1, ih ys _ _ _ h1.2 h2⟩
    · rw [if_neg he] at h1 ⊢
      exact ⟨h1.1, ih ys _ _ _ h1.2 h2⟩

theorem generateCells_eq_ok {board : Board} {eval : Bool} {k_col : Nat} :
    ∀ (cells : List Int) (k_cell : Nat) (node : Node) (next : Nat) (g : Node × Nat),
      generateCells board eval k_col cells k_cell node next = Except.ok g →
      ∃ kids, g.1 = Node.mk node.Score (node.children ++ kids) node.isOpponent node.Movement ∧
        kids.map Node.Movement = emptyCellsCol k_col cells k_cell ∧
        Generated board node.isOpponent eval next kids g.2 := by
  intro cells
  induction cells with
  | nil =>
    intro k_cell node next g h
    simp only [generateCells, pure, Except.pure, Except.ok.injEq] at h
    subst h
    exact ⟨[], by simp [Node.mk_eta], by simp [emptyCellsCol], by simp [Generated]⟩
  | cons cell rest ih =>
    intro k_cell node next g h
    unfold generateCells at h
    by_cases hc : cell = 0
    · rw [if_pos hc] at h
      by_cases he : eval = true
      · rw [if_pos he] at h
        obtain ⟨score, hs, h⟩ := bind_eq_ok h
        obtain ⟨kids, hg, hm, hk⟩ := ih _ _ _ _ h
        refine ⟨Node.mk (some (ScoreRef.mk next score)) [] (!node.isOpponent)
          ((k_col : Int), (k_cell : Int)) :: kids, ?_, ?_, ?_⟩
        · rw [hg]
          simp [Node.AddTerminal, Node.add, Node.Score, Node.children, Node.isOpponent,
            Node.Movement]
        · simp [emptyCellsCol, hc, hm, Node.Movement]
        · simp only [Generated, Node.children, Node.isOpponent, Node.Movement, Node.Score,
            if_pos he, true_and]
          refine ⟨⟨score, hs, rfl⟩, ?_⟩
          simpa [Node.AddTerminal, Node.add, Node.isOpponent] using hk
      · rw [if_neg he] at h
        obtain ⟨kids, hg, hm, hk⟩ := ih _ _ _ _ h
        refine ⟨Node.mk none [] (!node.isOpponent) ((k_col : Int), (k_cell : Int)) :: kids,
          ?_, ?_, ?_⟩
        · rw [hg]
          simp [Node.Add, Node.add, Node.Score, Node.children, Node.isOpponent, Node.Movement]
        · simp [emptyCellsCol, hc, hm, Node.Movement]
        · simp only [Generated, Node.children, Node.isOpponent, Node.Movement, Node.Score,
            if_neg he, true_and]
          simpa [Node.Add, Node.add, Node.isOpponent] using hk
    · rw [if_neg hc] at h
      obtain ⟨kids, hg, hm, hk⟩ := ih _ _ _ _ h
      exact ⟨kids, hg, by simp [emptyCellsCol, hc, hm], hk⟩

theorem generateCols_eq_ok {board : Board} {eval : Bool} :
    ∀ (cols : List (List Int)) (k_col : Nat) (node : Node) (next : Nat) (g : Node × Nat),
      generateCols board eval cols k_col node next = Except.ok g →
      ∃ kids, g.1 = Node.mk node.Score (node.children ++ kids) node.isOpponent node.Movement ∧
        kids.map Node.Movement = emptyCellsFrom cols k_col ∧
        Generated board node.isOpponent eval next kids g.2 := by
  intro cols
  induction cols with
  | nil =>
    intro k_col node next g h
    simp only [generateCols, pure, Except.pure, Except.ok.injEq] at h
    subst h
    exact ⟨[], by simp [Node.mk_eta], by simp [emptyCellsFrom], by simp [Generated]⟩
  | cons col rest ih =>
    intro k_col node next g h
    unfold generateCols at h
    obtain ⟨r, hr, h⟩ := bind_eq_ok h
    obtain ⟨kids1, hg1, hm1, hk1⟩ := generateCells_eq_ok _ _ _ _ _ hr
    obtain ⟨kids2, hg2, hm2, hk2⟩ := ih _ _ _ _ h
    refine ⟨kids1 ++ kids2, ?_, ?_, ?_⟩
    · rw [hg2, hg1]
      simp [Node.Score, Node.children, Node.isOpponent, Node.Movement]
    · simp [emptyCellsFrom, hm1, hm2]
    · have ho : r.1.isOpponent = node.isOpponent := by rw [hg1]; rfl
      rw [ho] at hk2
      exact Generated_append _ _ _ _ _ hk1 hk2

/-- What `generateChildMoves` does when it completes: it appends one child per
empty cell, in scan order. -/
theorem generateChildMoves_eq_ok {node : Node} {board : Board} {next : Nat} {player : Int}
    {eval : Bool} {g : Node × Nat}
    (h : node.generateChildMoves board next player eval = Except.ok g) :
    ∃ kids, g.1 = Node.mk node.Score (node.children ++ kids) node.isOpponent node.Movement ∧
      kids.map Node.Movement = emptyCells board ∧
      Generated board node.isOpponent eval next kids g.2 :=
  generateCols_eq_ok _ _ _ _ _ h

theorem generateCells_ok_of {board : Board} {eval : Bool} {k_col : Nat} :
    ∀ (cells : List Int) (k_cell : Nat) (node : Node) (next : Nat),
      (∀ p ∈ emptyCellsCol k_col cells k_cell, ∃ v, heuristic board p = Except.ok v) →
      ∃ g, generateCells board eval k_col cells k_cell node next = Except.ok g := by
  intro cells
  induction cells with
  | nil =>
    intro k_cell node next _
    exact ⟨(node, next), rfl⟩
  | cons cell rest ih =>
    intro k_cell node next hh
    unfold generateCells
    by_cases hc : cell = 0
    · rw [if_pos hc]
      have hrest : ∀ p ∈ emptyCellsCol k_col rest (k_cell + 1),
          ∃ v, heuristic board p = Except.ok v := by
        intro p hp
        exact hh p (by simp [emptyCellsCol, hc, hp])
      by_cases he : eval = true
      · rw [if_pos he]
        obtain ⟨v, hv⟩ := hh ((k_col : Int), (k_cell : Int)) (by simp [emptyCellsCol, hc])
        rw [hv]
        exact ih _ _ _ hrest
      · rw [if_neg he]
        exact ih _ _ _ hrest
    · rw [if_neg hc]
      exact ih _ _ _ (fun p hp => hh p (by simp [emptyCellsCol, hc, hp]))

theorem generateCols_ok_of {board : Board} {eval : Bool} :
    ∀ (cols : List (List Int)) (k_col : Nat) (node : Node) (next : Nat),
      (∀ p ∈ emptyCellsFrom cols k_col, ∃ v, heuristic board p = Except.ok v) →
      ∃ g, generateCols board eval cols k_col node next = Except.ok g := by
  intro cols
  induction cols with
  | nil =>
    intro k_col node next _
    exact ⟨(node, next), rfl⟩
  | cons col rest ih =>
    intro k_col node next hh
    unfold generateCols
    have hcol : ∀ p ∈ emptyCellsCol k_col col 0, ∃ v, heuristic board p = Except.ok v :=
      fun p hp => hh p (by simp [emptyCellsFrom, hp])
    obtain ⟨r, hr⟩ := generateCells_ok_of col 0 node next hcol
    rw [hr]
    exact ih _ _ _ (fun p hp => hh p (by simp [emptyCellsFrom, hp]))

theorem generateChildMoves_ok_of {board : Board} (node : Node) (next : Nat) (player : Int)
    (eval : Bool) (hh : ∀ p ∈ emptyCells board, ∃ v, heuristic board p = Except.ok v) :
    ∃ g, node.generateChildMoves board next player eval = Except.ok g :=
  generateCols_ok_of _ _ _ _ hh

/-! ## Empty cells -/

theorem mem_emptyCellsCol {k_col : Nat} :
    ∀ (cells : List Int) (k_cell : Nat) (p : Pos), p ∈ emptyCellsCol k_col cells k_cell ↔
      p.1 = (k_col : Int) ∧ ∃ i, p.2 = ((k_cell + i : Nat) : Int) ∧ cells[i]? = some 0 := by
  intro cells
  induction cells with
  | nil =>
    intro k_cell p
    simp [emptyCellsCol]
  | cons cell rest ih =>
    intro k_cell p
    have key : (∃ i, p.2 = ((k_cell + i : Nat) : Int) ∧ (cell :: rest)[i]? = some 0) ↔
        ((p.2 = (k_cell : Int) ∧ cell = 0) ∨
          ∃ i, p.2 = ((k_cell + 1 + i : Nat) : Int) ∧ rest[i]? = some 0) := by
      constructor
      · rintro ⟨i, hi, hc⟩
        cases i with
        | zero =>
          left
          simp only [List.getElem?_cons_zero, Option.some.injEq] at hc
          exact ⟨by simpa using hi, hc⟩
        | succ j =>
          right
          refine ⟨j, ?_, by simpa using hc⟩
          rw [hi]
          congr 1
          omega
      · rintro (⟨h1, h2⟩ | ⟨i, hi, hc⟩)
        · exact ⟨0, by simpa using h1, by simp [h2]⟩
        · refine ⟨i + 1, ?_, by simpa using hc⟩
          rw [hi]
          congr 1
          omega
    unfold emptyCellsCol
    by_cases hc : cell = 0
    · rw [if_pos hc, List.mem_cons, ih, key]
      constructor
      · rintro (h | ⟨h1, h2⟩)
        · subst h
          exact ⟨rfl, Or.inl ⟨rfl, hc⟩⟩
        · exact ⟨h1, Or.inr h2⟩
      · rintro ⟨h1, (⟨h2, _⟩ | h2)⟩
        · left
          exact Prod.ext h1 h2
        · exact Or.inr ⟨h1, h2⟩
    · rw [if_neg hc, ih, key]
      constructor
      · rintro ⟨h1, h2⟩
        exact ⟨h1, Or.inr h2⟩
      · rintro ⟨h1, (⟨_, h2⟩ | h2)⟩
        · exact absurd h2 hc
        · exact ⟨h1, h2⟩

theorem mem_emptyCellsFrom :
    ∀ (cols : List (List Int)) (k_col : Nat) (p : Pos), p ∈ emptyCellsFrom cols k_col ↔
      ∃ j col, p.1 = ((k_col + j : Nat) : Int) ∧ cols[j]? = some col ∧
        ∃ i, p.2 = ((i : Nat) : Int) ∧ col[i]? = some 0 := by
  intro cols
  induction cols with
  | nil =>
    intro k_col p
    simp [emptyCellsFrom]
  | cons col rest ih =>
    intro k_col p
    unfold emptyCellsFrom
    rw [List.mem_append, mem_emptyCellsCol, ih]
    constructor
    · rintro (⟨h1, i, h2, h3⟩ | ⟨j, c, h1, h2, h3⟩)
      · exact ⟨0, col, by simpa using h1, by simp, i, by simpa using h2, h3⟩
      · refine ⟨j + 1, c, ?_, by simpa using h2, h3⟩
        rw [h1]
        congr 1
        omega
    · rintro ⟨j, c, h1, h2, i, h3, h4⟩
      cases j with
      | zero =>
        left
        simp only [List.getElem?_cons_zero, Option.some.injEq] at h2
        subst h2
        exact ⟨by simpa using h1, i, by simpa using h3, h4⟩
      | succ j =>
        right
        refine ⟨j, c, ?_, by simpa using h2, i, h3, h4⟩
        rw [h1]
        congr 1
        omega

/-- The coordinates listed by `emptyCells` are exactly those of the cells
holding 0. -/
theorem mem_emptyCells {board : Board} {p : Pos} :
    p ∈ emptyCells board ↔ cellAt board p = Except.ok 0 := by
  unfold emptyCells
  rw [mem_emptyCellsFrom]
  constructor
  · rintro ⟨j, col, h1, h2, i, h3, h4⟩
    unfold cellAt
    have hj : p.1.toNat = j := by rw [h1]; simp
    have hi : p.2.toNat = i := by rw [h3]; simp
    rw [indexAt_ok_of (by rw [h1]; exact Int.natCast_nonneg _) (by rw [hj]; exact h2)]
    exact indexAt_ok_of (by rw [h3]; exact Int.natCast_nonneg _) (by rw [hi]; exact h4)
  · intro h
    obtain ⟨col, h1, h2, h3, h4⟩ := cellAt_eq_ok h
    exact ⟨p.1.toNat, col, by simp [Int.toNat_of_nonneg h1], h2, p.2.toNat,
      by simp [Int.toNat_of_nonneg h3], h4⟩


/-! ## The loop of `Evaluate`: one iteration -/

/-- One iteration of the loop of `Evaluate` that completes, step by step. -/
theorem evalChildren_cons_ok
    {recur : Node → Board → Nat → Int → Except Fault (Node × Board × Nat)} {plies : Int}
    {cn : Node} {rest : List Node} {score : Option ScoreRef} {board : Board} {next : Nat}
    {player : Int} {t : List Node × Option ScoreRef × Board × Nat}
    (h : evalChildren recur plies (cn :: rest) score board next player = Except.ok t) :
    ∃ board1 cn1 b1 n1 p1 score1 board2 t1,
      doMove board player cn.Movement = Except.ok board1 ∧
      ((plies ≠ 0 ∧ p1 = (if player = 1 then 2 else 1) ∧
          recur cn board1 next p1 = Except.ok (cn1, b1, n1)) ∨
        (plies = 0 ∧ cn1 = cn ∧ b1 = board1 ∧ n1 = next ∧ p1 = player)) ∧
      propagate score cn1 = Except.ok score1 ∧
      undoMove b1 cn1.Movement = Except.ok board2 ∧
      evalChildren recur plies rest score1 board2 n1 p1 = Except.ok t1 ∧
      t = (cn1 :: t1.1, t1.2) := by
  unfold evalChildren at h
  obtain ⟨board1, hb1, h⟩ := bind_eq_ok h
  obtain ⟨r, hr, h⟩ := bind_eq_ok h
  obtain ⟨score1, hs1, h⟩ := bind_eq_ok h
  obtain ⟨board2, hb2, h⟩ := bind_eq_ok h
  obtain ⟨t1, ht1, h⟩ := bind_eq_ok h
  simp only [pure, Except.pure, Except.ok.injEq] at h
  refine ⟨board1, r.1, r.2.1, r.2.2.1, r.2.2.2, score1, board2, t1, hb1, ?_, hs1, hb2, ht1,
    h.symm⟩
  unfold descend at hr
  by_cases hp : plies = 0
  · right
    rw [if_neg (by simpa using hp)] at hr
    simp only [pure, Except.pure, Except.ok.injEq] at hr
    subst hr
    exact ⟨hp, rfl, rfl, rfl, rfl⟩
  · left
    rw [if_pos hp] at hr
    obtain ⟨e, he, hr⟩ := bind_eq_ok hr
    simp only [pure, Except.pure, Except.ok.injEq] at hr
    subst hr
    exact ⟨hp, rfl, he⟩

/-- A call of `Evaluate` that completes, step by step. -/
theorem EvaluateAux_succ_ok {fuel : Nat} {node : Node} {board : Board} {next : Nat}
    {plies player : Int} {r : Node × Board × Nat}
    (h : EvaluateAux (fuel + 1) node board next plies player = Except.ok r) :
    ∃ g t, node.generateChildMoves board next player (decide (plies = 0)) = Except.ok g ∧
      evalChildren (fun cn b n p => EvaluateAux fuel cn b n (plies - 1) p) plies
        g.1.children g.1.Score board g.2 player = Except.ok t ∧
      r = (Node.mk t.2.1 t.1 g.1.isOpponent g.1.Movement, t.2.2.1, t.2.2.2) := by
  unfold EvaluateAux at h
  obtain ⟨g, hg, h⟩ := bind_eq_ok h
  obtain ⟨t, ht, h⟩ := bind_eq_ok h
  simp only [pure, Except.pure, Except.ok.injEq] at h
  exact ⟨g, t, hg, ht, h.symm⟩

theorem EvaluateAux_zero (node : Node) (board : Board) (next : Nat) (plies player : Int) :
    EvaluateAux 0 node board next plies player = Except.error Fault.fuel := rfl

/-! ## Backtracking: the board is restored -/

theorem Generated_children {board : Board} {o eval : Bool} :
    ∀ (kids : List Node) (lo hi : Nat), Generated board o eval lo kids hi →
      ∀ c ∈ kids, c.children = [] ∧ c.isOpponent = (!o) := by
  intro kids
  induction kids with
  | nil => intro lo hi _ c hc; simp at hc
  | cons k rest ih =>
    intro lo hi h c hc
    simp only [Generated] at h
    obtain ⟨h1, h2, h3⟩ := h
    rcases List.mem_cons.mp hc with hc | hc
    · subst hc
      exact ⟨h1, h2⟩
    · by_cases he : eval = true
      · rw [if_pos he] at h3
        exact ih _ _ h3.2 c hc
      · rw [if_neg he] at h3
        exact ih _ _ h3.2 c hc

/-- The loop of `Evaluate` gives the board back and keeps the move and the flag
of every child, when every child is childless, every move is an empty cell
and the recursive call does the same on childless nodes. -/
theorem evalChildren_frame
    {recur : Node → Board → Nat → Int → Except Fault (Node × Board × Nat)} {plies : Int}
    {board : Board}
    (hrec : ∀ cn b n p r, cn.children = [] → recur cn b n p = Except.ok r →
      r.2.1 = b ∧ r.1.Movement = cn.Movement ∧ r.1.isOpponent = cn.isOpponent) :
    ∀ (cs : List Node) (score : Option ScoreRef) (next : Nat) (player : Int)
      (t : List Node × Option ScoreRef × Board × Nat),
      (∀ c ∈ cs, c.children = [] ∧ cellAt board c.Movement = Except.ok 0) →
      evalChildren recur plies cs score board next player = Except.ok t →
      t.2.2.1 = board ∧ t.1.map Node.Movement = cs.map Node.Movement ∧
        t.1.map Node.isOpponent = cs.map Node.isOpponent := by
  intro cs
  induction cs with
  | nil =>
    intro score next player t _ h
    simp only [evalChildren, pure, Except.pure, Except.ok.injEq] at h
    subst h
    simp
  | cons cn rest ih =>
    intro score next player t hcs h
    obtain ⟨board1, cn1, b1, n1, p1, score1, board2, t1, hdo, hmid, _, hundo, hrest, ht⟩ :=
      evalChildren_cons_ok h
    obtain ⟨hcn, hcell⟩ := hcs cn (List.mem_cons_self _ _)
    have hfr : b1 = board1 ∧ cn1.Movement = cn.Movement ∧ cn1.isOpponent = cn.isOpponent := by
      rcases hmid with ⟨_, _, hr⟩ | ⟨_, h1, h2, _, _⟩
      · exact hrec _ _ _ _ _ hcn hr
      · subst h1
        exact ⟨h2, rfl, rfl⟩
    obtain ⟨hb, hm, ho⟩ := hfr
    subst hb
    rw [hm] at hundo
    have hboard2 : board2 = board := setCell_undo hcell hdo hundo
    subst hboard2
    obtain ⟨h1, h2, h3⟩ := ih score1 n1 p1 t1
      (fun c hc => hcs c (List.mem_cons_of_mem _ hc)) hrest
    subst ht
    simp [h1, h2, h3, hm, ho]

/-- A call of `Evaluate` on a childless node that completes gives the board
back and keeps the move and the flag of the node. -/
theorem EvaluateAux_frame :
    ∀ (fuel : Nat) (node : Node) (board : Board) (next : Nat) (plies player : Int)
      (r : Node × Board × Nat), node.children = [] →
      EvaluateAux fuel node board next plies player = Except.ok r →
      r.2.1 = board ∧ r.1.Movement = node.Movement ∧ r.1.isOpponent = node.isOpponent := by
  intro fuel
  induction fuel with
  | zero =>
    intro node board next plies player r _ h
    simp [EvaluateAux_zero] at h
  | succ fuel ih =>
    intro node board next plies player r hnode h
    obtain ⟨g, t, hg, ht, hr⟩ := EvaluateAux_succ_ok h
    obtain ⟨kids, hg1, hmv, hgen⟩ := generateChildMoves_eq_ok hg
    have hkids : g.1.children = kids := by rw [hg1, hnode]; rfl
    have hcs : ∀ c ∈ g.1.children, c.children = [] ∧ cellAt board c.Movement = Except.ok 0 := by
      intro c hc
      rw [hkids] at hc
      refine ⟨(Generated_children _ _ _ hgen c hc).1, ?_⟩
      apply mem_emptyCells.mp
      rw [← hmv]
      exact List.mem_map_of_mem _ hc
    obtain ⟨h1, _, _⟩ := evalChildren_frame
      (fun cn b n p r hcn hr => ih cn b n (plies - 1) p r hcn hr) _ _ _ _ _ hcs ht
    subst hr
    refine ⟨h1, ?_, ?_⟩
    · rw [hg1]; rfl
    · rw [hg1]; rfl


/-! ## Propagation of the scores -/

theorem propagate_none (cn : Node) : propagate none cn = Except.ok cn.Score := rfl

theorem propagate_some {ps cs : ScoreRef} {cn : Node} (h : cn.Score = some cs) :
    propagate (some ps) cn =
      Except.ok (if Beats cn.isOpponent cs.val ps.val then some cs else some ps) := by
  unfold propagate
  simp only [h]
  cases ho : cn.isOpponent
  · by_cases hlt : cs.val < ps.val
    · simp [Beats, hlt, pure, Except.pure]
    · simp [Beats, hlt, pure, Except.pure]
  · by_cases hgt : cs.val > ps.val
    · simp [Beats, hgt, pure, Except.pure]
    · simp [Beats, hgt, pure, Except.pure]

theorem Beats_trans {co : Bool} {a b c : Int} (h1 : Beats co a b) (h2 : Beats co b c) :
    Beats co a c := by
  unfold Beats at *
  rcases h1 with ⟨h, h1⟩ | ⟨h, h1⟩ <;> rcases h2 with ⟨h', h2⟩ <;> simp_all <;> omega

theorem Beats_of_not {co : Bool} {a b c : Int} (h1 : Beats co a b) (h2 : ¬ Beats co c b) :
    Beats co a c := by
  unfold Beats at *
  cases co <;> simp_all <;> omega

theorem not_Beats_of_not {co : Bool} {a b c : Int} (h1 : Beats co a b) (h2 : ¬ Beats co c b) :
    ¬ Beats co c a := by
  unfold Beats at *
  cases co <;> simp_all <;> omega

theorem Beats_true {a b : Int} : Beats true a b ↔ b < a := by
  simp [Beats]

theorem Beats_false {a b : Int} : Beats false a b ↔ a < b := by
  simp [Beats]

theorem not_Beats_self (co : Bool) (a : Int) : ¬ Beats co a a := by
  unfold Beats
  cases co <;> simp

/-- The loop of lines 69-75, started with a present score `s0`, over children
with flag `co` and present scores: the result is `s0` when no child beats it,
else the score of the first child that beats `s0` and every child before it
and is beaten by no child after it. -/
theorem foldlM_propagate_some {co : Bool} :
    ∀ (cs : List Node) (s0 : ScoreRef) (res : Option ScoreRef),
      (∀ c ∈ cs, c.isOpponent = co ∧ ∃ s, c.Score = some s) →
      cs.foldlM propagate (some s0) = Except.ok res →
      ∃ s, res = some s ∧
        ((s = s0 ∧ ∀ c ∈ cs, ∀ sc, c.Score = some sc → ¬ Beats co sc.val s0.val) ∨
          (∃ before c after, cs = before ++ c :: after ∧ c.Score = some s ∧
            Beats co s.val s0.val ∧
            (∀ d ∈ before, ∀ sd, d.Score = some sd → Beats co s.val sd.val) ∧
            (∀ d ∈ after, ∀ sd, d.Score = some sd → ¬ Beats co sd.val s.val))) := by
  intro cs
  induction cs with
  | nil =>
    intro s0 res _ h
    simp only [List.foldlM_nil, pure, Except.pure, Except.ok.injEq] at h
    exact ⟨s0, h.symm, Or.inl ⟨rfl, by simp⟩⟩
  | cons c rest ih =>
    intro s0 res hcs h
    rw [List.foldlM_cons] at h
    obtain ⟨s1, hs1, h⟩ := bind_eq_ok h
    obtain ⟨hco, sc, hsc⟩ := hcs c (List.mem_cons_self _ _)
    rw [propagate_some hsc, hco] at hs1
    simp only [Except.ok.injEq] at hs1
    have hrest : ∀ d ∈ rest, d.isOpponent = co ∧ ∃ s, d.Score = some s :=
      fun d hd => hcs d (List.mem_cons_of_mem _ hd)
    by_cases hb : Beats co sc.val s0.val
    · rw [if_pos hb] at hs1
      subst hs1
      obtain ⟨s, hres, hcase⟩ := ih sc res hrest h
      refine ⟨s, hres, Or.inr ?_⟩
      rcases hcase with ⟨hs, hall⟩ | ⟨before, c2, after, hsplit, hc2, hbeat, hbef, haft⟩
      · subst hs
        exact ⟨[], c, rest, rfl, hsc, hb, by simp, hall⟩
      · refine ⟨c :: before, c2, after, by simp [hsplit], hc2, Beats_trans hbeat hb, ?_, haft⟩
        intro d hd sd hsd
        rcases List.mem_cons.mp hd with hd | hd
        · subst hd
          rw [hsc] at hsd
          cases hsd
          exact hbeat
        · exact hbef d hd sd hsd
    · rw [if_neg hb] at hs1
      subst hs1
      obtain ⟨s, hres, hcase⟩ := ih s0 res hrest h
      refine ⟨s, hres, ?_⟩
      rcases hcase with ⟨hs, hall⟩ | ⟨before, c2, after, hsplit, hc2, hbeat, hbef, haft⟩
      · left
        refine ⟨hs, ?_⟩
        intro d hd sd hsd
        rcases List.mem_cons.mp hd with hd | hd
        · subst hd
          rw [hsc] at hsd
          cases hsd
          exact hb
        · exact hall d hd sd hsd
      · right
        refine ⟨c :: before, c2, after, by simp [hsplit], hc2, hbeat, ?_, haft⟩
        intro d hd sd hsd
        rcases List.mem_cons.mp hd with hd | hd
        · subst hd
          rw [hsc] at hsd
          cases hsd
          exact Beats_of_not hbeat hb
        · exact hbef d hd sd hsd

/-- The loop of lines 69-75, started without a score, over at least one child:
the result is the score of the first child that beats every child before it
and is beaten by no child after it. -/
theorem foldlM_propagate_none {co : Bool} {cs : List Node} {res : Option ScoreRef}
    (hne : cs ≠ []) (hcs : ∀ c ∈ cs, c.isOpponent = co ∧ ∃ s, c.Score = some s)
    (h : cs.foldlM propagate none = Except.ok res) :
    ∃ s before c after, res = some s ∧ cs = before ++ c :: after ∧ c.Score = some s ∧
      (∀ d ∈ before, ∀ sd, d.Score = some sd → Beats co s.val sd.val) ∧
      (∀ d ∈ after, ∀ sd, d.Score = some sd → ¬ Beats co sd.val s.val) := by
  cases cs with
  | nil => exact absurd rfl hne
  | cons c rest =>
    rw [List.foldlM_cons, propagate_none] at h
    obtain ⟨_, sc, hsc⟩ := hcs c (List.mem_cons_self _ _)
    rw [hsc] at h
    obtain ⟨s, hres, hcase⟩ := foldlM_propagate_some rest sc res
      (fun d hd => hcs d (List.mem_cons_of_mem _ hd)) h
    rcases hcase with ⟨hs, hall⟩ | ⟨before, c2, after, hsplit, hc2, hbeat, hbef, haft⟩
    · subst hs
      exact ⟨s, [], c, rest, hres, rfl, hsc, by simp, hall⟩
    · refine ⟨s, c :: before, c2, after, hres, by simp [hsplit], hc2, ?_, haft⟩
      intro d hd sd hsd
      rcases List.mem_cons.mp hd with hd | hd
      · subst hd
        rw [hsc] at hsd
        cases hsd
        exact hbeat
      · exact hbef d hd sd hsd

/-- The score that the loop of `Evaluate` leaves in the node is the result of
lines 69-75 run over the evaluated children in order. -/
theorem evalChildren_score
    {recur : Node → Board → Nat → Int → Except Fault (Node × Board × Nat)} {plies : Int} :
    ∀ (cs : List Node) (score : Option ScoreRef) (board : Board) (next : Nat) (player : Int)
      (t : List Node × Option ScoreRef × Board × Nat),
      evalChildren recur plies cs score board next player = Except.ok t →
      t.1.foldlM propagate score = Except.ok t.2.1 := by
  intro cs
  induction cs with
  | nil =>
    intro score board next player t h
    simp only [evalChildren, pure, Except.pure, Except.ok.injEq] at h
    subst h
    rfl
  | cons cn rest ih =>
    intro score board next player t h
    obtain ⟨board1, cn1, b1, n1, p1, score1, board2, t1, _, _, hprop, _, hrest, ht⟩ :=
      evalChildren_cons_ok h
    subst ht
    rw [List.foldlM_cons, hprop]
    exact ih _ _ _ _ _ hrest


/-! ## Counting the empty cells -/

theorem sum_map_set {α : Type} (f : α → Nat) :
    ∀ (l : List α) (j : Nat) (x y : α), l[j]? = some y →
      ((l.set j x).map f).sum + f y = (l.map f).sum + f x := by
  intro l
  induction l with
  | nil => intro j x y h; simp at h
  | cons a rest ih =>
    intro j x y h
    cases j with
    | zero =>
      simp only [List.getElem?_cons_zero, Option.some.injEq] at h
      subst h
      simp only [List.set_cons_zero, List.map_cons, List.sum_cons]
      omega
    | succ j =>
      simp only [List.getElem?_cons_succ] at h
      have := ih j x y h
      simp only [List.set_cons_succ, List.map_cons, List.sum_cons]
      omega

theorem count_zero_set {col : List Int} {i : Nat} {v : Int} (h : col[i]? = some 0)
    (hv : v ≠ 0) : (col.set i v).count 0 + 1 = col.count 0 := by
  obtain ⟨hlt, hget⟩ := List.getElem?_eq_some_iff.mp h
  rw [List.count_set _ _ _ _ hlt, hget]
  have hmem : (0 : Int) ∈ col := by
    rw [← hget]
    exact List.getElem_mem _
  have hpos : 0 < col.count 0 := List.count_pos_iff.mpr hmem
  simp [hv]
  omega

/-- Writing a non-zero value into an empty cell leaves one empty cell less. -/
theorem countEmpty_setCell {board b1 : Board} {p : Pos} {v : Int}
    (h0 : cellAt board p = Except.ok 0) (hv : v ≠ 0)
    (h1 : setCell board p v = Except.ok b1) : countEmpty b1 + 1 = countEmpty board := by
  obtain ⟨col, _, hc, _, hcell⟩ := cellAt_eq_ok h0
  obtain ⟨col1, _, hc1, _, _, hb1⟩ := setCell_eq_ok h1
  rw [hc] at hc1
  cases hc1
  subst hb1
  unfold countEmpty
  have h := sum_map_set (fun c : List Int => c.count 0) board p.1.toNat
    (col.set p.2.toNat v) col hc
  have h2 := count_zero_set hcell hv
  simp only at h
  omega

theorem exists_zero_of_countEmpty_pos :
    ∀ (board : Board), 0 < countEmpty board →
      ∃ (j : Nat) (col : List Int) (i : Nat), board[j]? = some col ∧ col[i]? = some 0 := by
  intro board
  induction board with
  | nil => intro h; simp [countEmpty] at h
  | cons col rest ih =>
    intro h
    by_cases hc : 0 < col.count 0
    · have hmem : (0 : Int) ∈ col := List.count_pos_iff.mp hc
      obtain ⟨i, hi⟩ := List.mem_iff_getElem?.mp hmem
      exact ⟨0, col, i, by simp, hi⟩
    · have hrest : 0 < countEmpty rest := by
        unfold countEmpty at h ⊢
        simp only [List.map_cons, List.sum_cons] at h
        omega
      obtain ⟨j, c, i, hj, hi⟩ := ih hrest
      exact ⟨j + 1, c, i, by simpa using hj, hi⟩

/-- A board with an empty cell has a non-empty list of empty cells. -/
theorem emptyCells_ne_nil {board : Board} (h : 0 < countEmpty board) :
    emptyCells board ≠ [] := by
  obtain ⟨j, col, i, hj, hi⟩ := exists_zero_of_countEmpty_pos board h
  have hmem : (((j : Nat) : Int), ((i : Nat) : Int)) ∈ emptyCells board := by
    apply mem_emptyCells.mpr
    unfold cellAt
    rw [indexAt_ok_of (Int.natCast_nonneg _) (by simpa using hj)]
    exact indexAt_ok_of (Int.natCast_nonneg _) (by simpa using hi)
  exact List.ne_nil_of_mem hmem

/-! ## Resolved trees -/

theorem InTree_leaf {x c : Node} (hc : c.children = []) (h : Node.InTree x c) : x = c := by
  cases h with
  | root => rfl
  | child hmem _ => rw [hc] at hmem; simp at hmem

theorem InTree_mk {x : Node} {s : Option ScoreRef} {cs : List Node} {o : Bool} {m : Pos}
    (h : Node.InTree x (Node.mk s cs o m)) :
    x = Node.mk s cs o m ∨ ∃ c ∈ cs, Node.InTree x c := by
  cases h with
  | root => exact Or.inl rfl
  | child hmem hx => exact Or.inr ⟨_, hmem, hx⟩

theorem Resolved_mono {lo hi lo2 hi2 : Nat} {t : Node} (h : t.Resolved lo hi)
    (h1 : lo2 ≤ lo) (h2 : hi ≤ hi2) : t.Resolved lo2 hi2 := by
  obtain ⟨ha, s, hs, h3, h4⟩ := h
  exact ⟨ha, s, hs, by omega, by omega⟩

/-- Terminal children as generated at the final ply are resolved, and their
scores are stored at strictly increasing addresses. -/
theorem Generated_resolved {board : Board} {o : Bool} :
    ∀ (kids : List Node) (lo hi : Nat), Generated board o true lo kids hi →
      lo ≤ hi ∧ (∀ c ∈ kids, c.Resolved lo hi) ∧
      kids.Pairwise (fun a b => ∀ sa sb, a.Score = some sa → b.Score = some sb →
        sa.addr < sb.addr) := by
  intro kids
  induction kids with
  | nil =>
    intro lo hi h
    simp only [Generated] at h
    subst h
    simp
  | cons k rest ih =>
    intro lo hi h
    simp only [Generated, if_true] at h
    obtain ⟨hk, _, ⟨v, _, hs⟩, hrest⟩ := h
    obtain ⟨hle, hall, hpw⟩ := ih _ _ hrest
    have hkres : k.Resolved lo hi := by
      refine ⟨?_, _, hs, le_refl _, by simp only []; omega⟩
      intro x hx
      have hxk := InTree_leaf hk hx
      subst hxk
      exact ⟨_, hs, by rw [hk]; simp, fun hne => absurd hk hne⟩
    refine ⟨by omega, ?_, ?_⟩
    · intro c hc
      rcases List.mem_cons.mp hc with hc | hc
      · subst hc
        exact hkres
      · exact Resolved_mono (hall c hc) (by omega) (le_refl _)
    · rw [List.pairwise_cons]
      refine ⟨?_, hpw⟩
      intro c hc sa sb hsa hsb
      rw [hs] at hsa
      cases hsa
      obtain ⟨_, s2, hs2, h3, _⟩ := hall c hc
      rw [hs2] at hsb
      cases hsb
      simp only []
      omega


theorem Generated_unscored {board : Board} {o : Bool} :
    ∀ (kids : List Node) (lo hi : Nat), Generated board o false lo kids hi →
      hi = lo ∧ ∀ c ∈ kids, c.Score = none := by
  intro kids
  induction kids with
  | nil =>
    intro lo hi h
    simp only [Generated] at h
    exact ⟨h, by simp⟩
  | cons k rest ih =>
    intro lo hi h
    simp only [Generated, Bool.false_eq_true, if_false] at h
    obtain ⟨_, _, hs, hrest⟩ := h
    obtain ⟨h1, h2⟩ := ih _ _ hrest
    refine ⟨h1, ?_⟩
    intro c hc
    rcases List.mem_cons.mp hc with hc | hc
    · subst hc
      exact hs
    · exact h2 c hc

/-- A node whose children are resolved, carry the negated flag and have their
scores at strictly increasing addresses, and whose score is the result of
lines 69-75 over these children, is resolved; when its flag is false,
`GetBestChildNode` returns its first child with the maximal score. -/
theorem node_resolved {lo hi : Nat} {cs : List Node} {o : Bool} {sc : Option ScoreRef}
    (m : Pos) (hne : cs ≠ [])
    (hcs : ∀ c ∈ cs, c.Resolved lo hi ∧ c.isOpponent = (!o))
    (hpw : cs.Pairwise (fun a b => ∀ sa sb, a.Score = some sa → b.Score = some sb →
      sa.addr < sb.addr))
    (hfold : cs.foldlM propagate none = Except.ok sc) :
    (Node.mk sc cs o m).Resolved lo hi ∧
      (o = false → ∃ c, (Node.mk sc cs o m).GetBestChildNode = some c ∧
        (Node.mk sc cs o m).FirstBest c) := by
  have hsome : ∀ c ∈ cs, c.isOpponent = (!o) ∧ ∃ s, c.Score = some s := by
    intro c hc
    obtain ⟨⟨_, s, hs, _⟩, ho⟩ := hcs c hc
    exact ⟨ho, s, hs⟩
  obtain ⟨s, before, c, after, hres, hsplit, hc, hbef, haft⟩ :=
    foldlM_propagate_none hne hsome hfold
  subst hres
  have hcmem : c ∈ cs := by rw [hsplit]; simp
  have hmax : o = false → IsMaxOf s.val cs := by
    intro ho
    subst ho
    refine ⟨?_, c, hcmem, s, hc, rfl⟩
    intro d hd
    obtain ⟨_, sd, hsd⟩ := hsome d hd
    refine ⟨sd, hsd, ?_⟩
    rw [hsplit] at hd
    rcases List.mem_append.mp hd with hd | hd
    · have := hbef d hd sd hsd
      simp only [Bool.not_false, Beats_true] at this
      omega
    · rcases List.mem_cons.mp hd with hd | hd
      · subst hd
        rw [hc] at hsd
        cases hsd
        exact le_refl _
      · have := haft d hd sd hsd
        simp only [Bool.not_false, Beats_true] at this
        omega
  have hmin : o = true → IsMinOf s.val cs := by
    intro ho
    subst ho
    refine ⟨?_, c, hcmem, s, hc, rfl⟩
    intro d hd
    obtain ⟨_, sd, hsd⟩ := hsome d hd
    refine ⟨sd, hsd, ?_⟩
    rw [hsplit] at hd
    rcases List.mem_append.mp hd with hd | hd
    · have := hbef d hd sd hsd
      simp only [Bool.not_true, Beats_false] at this
      omega
    · rcases List.mem_cons.mp hd with hd | hd
      · subst hd
        rw [hc] at hsd
        cases hsd
        exact le_refl _
      · have := haft d hd sd hsd
        simp only [Bool.not_true, Beats_false] at this
        omega
  refine ⟨⟨?_, s, rfl, ?_⟩, ?_⟩
  · intro x hx
    rcases InTree_mk hx with hx | ⟨d, hd, hx⟩
    · subst hx
      exact ⟨s, rfl, fun d hd => (hcs d hd).2, fun _ => ⟨hmax, hmin⟩⟩
    · exact (hcs d hd).1.1 x hx
  · obtain ⟨⟨_, s2, hs2, h1, h2⟩, _⟩ := hcs c hcmem
    rw [hc] at hs2
    cases hs2
    exact ⟨h1, h2⟩
  · intro ho
    refine ⟨c, ?_, before, after, s, hsplit, hc, hmax ho, ?_⟩
    · show List.find? (fun cn => ptrEq cn.Score (some s)) cs = some c
      rw [hsplit, List.find?_append]
      have hnone : before.find? (fun cn => ptrEq cn.Score (some s)) = none := by
        rw [List.find?_eq_none]
        intro d hd
        obtain ⟨_, sd, hsd⟩ := hsome d (by rw [hsplit]; simp [hd])
        rw [hsplit, List.pairwise_append] at hpw
        have hlt := hpw.2.2 d hd c (List.mem_cons_self _ _) sd s hsd hc
        simp only [hsd, ptrEq, decide_eq_true_eq]
        omega
      rw [hnone]
      simp [List.find?_cons, hc, ptrEq]
    · intro d hd
      obtain ⟨_, sd, hsd⟩ := hsome d (by rw [hsplit]; simp [hd])
      refine ⟨sd, hsd, ?_⟩
      have := hbef d hd sd hsd
      subst ho
      simp only [Bool.not_false, Beats_true] at this
      omega

/-- At the final ply the loop of `Evaluate` leaves the children and the next
unused address as they are. -/
theorem evalChildren_final
    {recur : Node → Board → Nat → Int → Except Fault (Node × Board × Nat)} :
    ∀ (cs : List Node) (score : Option ScoreRef) (board : Board) (next : Nat) (player : Int)
      (t : List Node × Option ScoreRef × Board × Nat),
      evalChildren recur 0 cs score board next player = Except.ok t →
      t.1 = cs ∧ t.2.2.2 = next := by
  intro cs
  induction cs with
  | nil =>
    intro score board next player t h
    simp only [evalChildren, pure, Except.pure, Except.ok.injEq] at h
    subst h
    exact ⟨rfl, rfl⟩
  | cons cn rest ih =>
    intro score board next player t h
    obtain ⟨board1, cn1, b1, n1, p1, score1, board2, t1, _, hmid, _, _, hrest, ht⟩ :=
      evalChildren_cons_ok h
    rcases hmid with ⟨hp, _⟩ | ⟨_, h1, _, h2, _⟩
    · exact absurd rfl hp
    · subst h1 h2 ht
      obtain ⟨h3, h4⟩ := ih _ _ _ _ _ hrest
      exact ⟨by simp [h3], h4⟩

/-- Below the final ply the loop of `Evaluate` leaves every child resolved, the
children's scores at strictly increasing addresses, when the recursive call
resolves every childless, unscored node on a board with one empty cell
less. -/
theorem evalChildren_resolved
    {recur : Node → Board → Nat → Int → Except Fault (Node × Board × Nat)} {plies : Int}
    {board : Board} (hp : plies ≠ 0)
    (hframe : ∀ cn b n p r, cn.children = [] → recur cn b n p = Except.ok r →
      r.2.1 = b ∧ r.1.Movement = cn.Movement ∧ r.1.isOpponent = cn.isOpponent)
    (hrec : ∀ cn b n p r, cn.children = [] → cn.Score = none →
      countEmpty b + 1 = countEmpty board → (p = 1 ∨ p = 2) →
      recur cn b n p = Except.ok r → r.1.Resolved n r.2.2) :
    ∀ (cs : List Node) (score : Option ScoreRef) (next : Nat) (player : Int)
      (t : List Node × Option ScoreRef × Board × Nat),
      (∀ c ∈ cs, c.children = [] ∧ c.Score = none ∧ cellAt board c.Movement = Except.ok 0) →
      (player = 1 ∨ player = 2) →
      evalChildren recur plies cs score board next player = Except.ok t →
      next ≤ t.2.2.2 ∧ (∀ c ∈ t.1, c.Resolved next t.2.2.2) ∧
      t.1.Pairwise (fun a b => ∀ sa sb, a.Score = some sa → b.Score = some sb →
        sa.addr < sb.addr) := by
  intro cs
  induction cs with
  | nil =>
    intro score next player t _ _ h
    simp only [evalChildren, pure, Except.pure, Except.ok.injEq] at h
    subst h
    simp
  | cons cn rest ih =>
    intro score next player t hcs hpl h
    obtain ⟨board1, cn1, b1, n1, p1, score1, board2, t1, hdo, hmid, _, hundo, hrest, ht⟩ :=
      evalChildren_cons_ok h
    obtain ⟨hcn, hsc, hcell⟩ := hcs cn (List.mem_cons_self _ _)
    rcases hmid with ⟨_, hp1, hr⟩ | ⟨h0, _⟩
    · have hp1' : p1 = 1 ∨ p1 = 2 := by
        rw [hp1]
        by_cases h1 : player = 1
        · right; simp [h1]
        · left; simp [h1]
      have hv : player ≠ 0 := by rcases hpl with h1 | h1 <;> simp [h1]
      have hcount : countEmpty board1 + 1 = countEmpty board :=
        countEmpty_setCell hcell hv hdo
      have hres := hrec _ _ _ _ _ hcn hsc hcount hp1' hr
      obtain ⟨hb, hm, _⟩ := hframe _ _ _ _ _ hcn hr
      simp only at hb hm hres
      subst hb
      rw [hm] at hundo
      have hboard2 : board2 = board := setCell_undo hcell hdo hundo
      subst hboard2
      obtain ⟨hle, hall, hpw⟩ := ih score1 n1 p1 t1
        (fun c hc => hcs c (List.mem_cons_of_mem _ hc)) hp1' hrest
      have hlt : next < n1 := by
        obtain ⟨_, s, _, h1, h2⟩ := hres
        omega
      subst ht
      refine ⟨by simp only []; omega, ?_, ?_⟩
      · intro c hc
        rcases List.mem_cons.mp hc with hc | hc
        · subst hc
          exact Resolved_mono hres (le_refl _) hle
        · exact Resolved_mono (hall c hc) (by omega) (le_refl _)
      · simp only [List.pairwise_cons]
        refine ⟨?_, hpw⟩
        intro c hc sa sb hsa hsb
        obtain ⟨_, s, hs, _, h2⟩ := hres
        rw [hs] at hsa
        cases hsa
        obtain ⟨_, s2, hs2, h3, _⟩ := hall c hc
        rw [hs2] at hsb
        cases hsb
        omega
    · exact absurd h0 hp

theorem mem_of_map_eq {α : Type} {f : Node → α} {xs ys : List Node} {v : α}
    (h : xs.map f = ys.map f) (hys : ∀ c ∈ ys, f c = v) : ∀ c ∈ xs, f c = v := by
  intro c hc
  have h1 : f c ∈ xs.map f := List.mem_map_of_mem _ hc
  rw [h] at h1
  obtain ⟨d, hd, hfd⟩ := List.mem_map.mp h1
  rw [← hfd]
  exact hys d hd

/-- A call of `Evaluate` that completes on a childless, unscored node, with
`0 <= plies`, more than `plies` empty cells and a player 1 or 2, leaves the
node resolved, with at least one child, every child carrying the negated flag,
and, when the node's flag is false, `GetBestChildNode` returning the first
child with the maximal score. -/
theorem EvaluateAux_resolved :
    ∀ (fuel : Nat) (node : Node) (board : Board) (next : Nat) (plies player : Int)
      (r : Node × Board × Nat), node.children = [] → node.Score = none →
      0 ≤ plies → plies < (countEmpty board : Int) → (player = 1 ∨ player = 2) →
      EvaluateAux fuel node board next plies player = Except.ok r →
      r.1.Resolved next r.2.2 ∧ r.1.children ≠ [] ∧
      r.1.children.map Node.Movement = emptyCells board ∧
      (∀ c ∈ r.1.children, c.isOpponent = (!node.isOpponent)) ∧
      (node.isOpponent = false → ∃ c, r.1.GetBestChildNode = some c ∧ r.1.FirstBest c) := by
  intro fuel
  induction fuel with
  | zero =>
    intro node board next plies player r _ _ _ _ _ h
    simp [EvaluateAux_zero] at h
  | succ fuel ih =>
    intro node board next plies player r hnode hscore h0 hlt hpl h
    obtain ⟨g, t, hg, ht, hr⟩ := EvaluateAux_succ_ok h
    obtain ⟨kids, hg1, hmv, hgen⟩ := generateChildMoves_eq_ok hg
    have hkids : g.1.children = kids := by rw [hg1, hnode]; rfl
    have hgs : g.1.Score = none := by rw [hg1]; exact hscore
    have hgo : g.1.isOpponent = node.isOpponent := by rw [hg1]; rfl
    rw [hkids, hgs] at ht
    have hfold := evalChildren_score _ _ _ _ _ _ ht
    have hkne : kids ≠ [] := by
      intro hk
      have : emptyCells board ≠ [] := emptyCells_ne_nil (by omega)
      rw [← hmv, hk] at this
      exact this rfl
    have hcell : ∀ c ∈ kids, cellAt board c.Movement = Except.ok 0 := by
      intro c hc
      apply mem_emptyCells.mp
      rw [← hmv]
      exact List.mem_map_of_mem _ hc
    have hfr := evalChildren_frame
      (fun cn b n p r hcn hr => EvaluateAux_frame fuel cn b n (plies - 1) p r hcn hr)
      kids none g.2 player t
      (fun c hc => ⟨(Generated_children _ _ _ hgen c hc).1, hcell c hc⟩) ht
    have hflags : ∀ c ∈ t.1, c.isOpponent = (!node.isOpponent) :=
      mem_of_map_eq hfr.2.2 (fun c hc => (Generated_children _ _ _ hgen c hc).2)
    have hmoves : t.1.map Node.Movement = emptyCells board := by rw [hfr.2.1, hmv]
    have hne : t.1 ≠ [] := by
      intro hk
      have h1 := hfr.2.1
      rw [hk] at h1
      exact hkne (List.map_eq_nil_iff.mp h1.symm)
    have key : t.2.2.2 = r.2.2 ∧ r.1 = Node.mk t.2.1 t.1 node.isOpponent g.1.Movement := by
      rw [hr, hgo]
      exact ⟨rfl, rfl⟩
    have hall : (∀ c ∈ t.1, c.Resolved next r.2.2) ∧
        t.1.Pairwise (fun a b => ∀ sa sb, a.Score = some sa → b.Score = some sb →
          sa.addr < sb.addr) := by
      rw [← key.1]
      by_cases hp : plies = 0
      · subst hp
        simp only [decide_True] at hgen
        obtain ⟨h1, h2⟩ := evalChildren_final _ _ _ _ _ _ ht
        obtain ⟨_, h4, h5⟩ := Generated_resolved _ _ _ hgen
        rw [h1, h2]
        exact ⟨h4, h5⟩
      · have hd : decide (plies = 0) = false := by simp [hp]
        rw [hd] at hgen
        obtain ⟨h1, h2⟩ := Generated_unscored _ _ _ hgen
        rw [h1] at ht
        obtain ⟨_, h4, h5⟩ := evalChildren_resolved hp
          (fun cn b n p r hcn hr => EvaluateAux_frame fuel cn b n (plies - 1) p r hcn hr)
          (fun cn b n p r hcn hsc hcount hp1 hr =>
            (ih cn b n (plies - 1) p r hcn hsc (by omega) (by omega) hp1 hr).1)
          kids none next player t
          (fun c hc => ⟨(Generated_children _ _ _ hgen c hc).1, h2 c hc, hcell c hc⟩) hpl ht
        exact ⟨h4, h5⟩
    obtain ⟨hres, hbest⟩ := node_resolved g.1.Movement hne
      (fun c hc => ⟨hall.1 c hc, hflags c hc⟩) hall.2 hfold
    rw [key.2]
    exact ⟨hres, hne, hmoves, hflags, hbest⟩


/-! ## Each empty cell is listed once -/

theorem emptyCellsCol_nodup (k_col : Nat) :
    ∀ (cells : List Int) (k_cell : Nat), (emptyCellsCol k_col cells k_cell).Nodup := by
  intro cells
  induction cells with
  | nil => intro k_cell; simp [emptyCellsCol]
  | cons cell rest ih =>
    intro k_cell
    unfold emptyCellsCol
    split
    · rw [List.nodup_cons]
      refine ⟨?_, ih _⟩
      intro hmem
      obtain ⟨_, i, hi, _⟩ := (mem_emptyCellsCol rest (k_cell + 1) _).mp hmem
      simp only at hi
      omega
    · exact ih _

theorem emptyCellsFrom_nodup :
    ∀ (cols : List (List Int)) (k_col : Nat), (emptyCellsFrom cols k_col).Nodup := by
  intro cols
  induction cols with
  | nil => intro k_col; simp [emptyCellsFrom]
  | cons col rest ih =>
    intro k_col
    unfold emptyCellsFrom
    rw [List.nodup_append]
    refine ⟨emptyCellsCol_nodup _ _ _, ih _, ?_⟩
    intro p hp1 hp2
    obtain ⟨h1, _⟩ := (mem_emptyCellsCol col 0 p).mp hp1
    obtain ⟨j, _, h2, _⟩ := (mem_emptyCellsFrom rest (k_col + 1) p).mp hp2
    rw [h1] at h2
    omega

/-- The list of the empty cells has no repetition. -/
theorem emptyCells_nodup (board : Board) : (emptyCells board).Nodup :=
  emptyCellsFrom_nodup board 0

/-! ## Properties of `Evaluate` on a new root -/

/-- The run that builds `sampleTree`. -/
theorem sampleTree_eq :
    NewNode.Evaluate [[0, 0, 0]] 0 1 1 = Except.ok (sampleTree, [[0, 0, 0]], 6) := rfl

/-- The run that builds `sampleLeaves`. -/
theorem sampleLeaves_eq :
    NewNode.Evaluate [[0, 0, 0]] 0 0 1 = Except.ok (sampleLeaves, [[0, 0, 0]], 3) := rfl

/-- C1. Backtracking restoration: whenever `Evaluate` on a new root returns
normally, the board it returns is the board it was given; every cell reads as
before the call and the number of occupied cells is unchanged.  (This holds
for every ply budget and every player.) -/
theorem Evaluate_restores_board (board : Board) (next : Nat) (plies player : Int)
    (r : Node × Board × Nat)
    (h : NewNode.Evaluate board next plies player = Except.ok r) :
    r.2.1 = board ∧ (∀ p, cellAt r.2.1 p = cellAt board p) ∧
      countOccupied r.2.1 = countOccupied board := by
  have hb : r.2.1 = board := (EvaluateAux_frame _ NewNode _ _ _ _ _ rfl h).1
  rw [hb]
  exact ⟨rfl, fun _ => rfl, rfl⟩

/-- C1 at the board `[[0,0,0]]`, `plies = 1`, player 1. -/
theorem Evaluate_restores_board_witness :
    NewNode.Evaluate [[0, 0, 0]] 0 1 1 = Except.ok (sampleTree, [[0, 0, 0]], 6) ∧
    (sampleTree, [[0, 0, 0]], 6).2.1 = ([[0, 0, 0]] : Board) ∧
      (∀ p, cellAt (sampleTree, ([[0, 0, 0]] : Board), 6).2.1 p = cellAt [[0, 0, 0]] p) ∧
      countOccupied (sampleTree, ([[0, 0, 0]] : Board), 6).2.1 = countOccupied [[0, 0, 0]] :=
  ⟨rfl, Evaluate_restores_board [[0, 0, 0]] 0 1 1 (sampleTree, [[0, 0, 0]], 6) sampleTree_eq⟩

/-- C3. Min/max propagation: after `Evaluate` completes on a new root over a
board with more than `plies` empty cells (`0 <= plies`, player 1 or 2), every
node of the tree that has children holds a score; its children carry the
negation of its flag; the score is the maximum of the children's scores when
the node's flag is false (children are opponent moves, as for the root) and
their minimum when the node's flag is true. -/
theorem Evaluate_minmax (board : Board) (next : Nat) (plies player : Int)
    (r : Node × Board × Nat) (h0 : 0 ≤ plies) (hlt : plies < (countEmpty board : Int))
    (hpl : player = 1 ∨ player = 2)
    (h : NewNode.Evaluate board next plies player = Except.ok r) :
    ∀ n, Node.InTree n r.1 → n.children ≠ [] →
      ∃ s, n.Score = some s ∧ (∀ c ∈ n.children, c.isOpponent = (!n.isOpponent)) ∧
        (n.isOpponent = false → IsMaxOf s.val n.children) ∧
        (n.isOpponent = true → IsMinOf s.val n.children) := by
  intro n hn hne
  obtain ⟨⟨hall, _⟩, _⟩ := EvaluateAux_resolved _ NewNode _ _ _ _ _ rfl rfl h0 hlt hpl h
  obtain ⟨s, hs, hflags, hmm⟩ := hall n hn
  exact ⟨s, hs, hflags, hmm hne⟩

/-- C3 at the board `[[0,0,0]]`, `plies = 1`, player 1. -/
theorem Evaluate_minmax_witness :
    NewNode.Evaluate [[0, 0, 0]] 0 1 1 = Except.ok (sampleTree, [[0, 0, 0]], 6) ∧
    ∀ n, Node.InTree n sampleTree → n.children ≠ [] →
      ∃ s, n.Score = some s ∧ (∀ c ∈ n.children, c.isOpponent = (!n.isOpponent)) ∧
        (n.isOpponent = false → IsMaxOf s.val n.children) ∧
        (n.isOpponent = true → IsMinOf s.val n.children) :=
  ⟨rfl, Evaluate_minmax [[0, 0, 0]] 0 1 1 (sampleTree, [[0, 0, 0]], 6) (by decide) (by decide)
    (Or.inl rfl) sampleTree_eq⟩

/-- C4. Chosen move and tie-break: after `Evaluate` completes on a new root
over a board with more than `plies` empty cells (`0 <= plies`, player 1 or
2), `GetBestChildNode` on the root returns a child, and that child is the
first child in generation order whose score equals the maximum of the scores
of the root's children. -/
theorem GetBestChildNode_first_best (board : Board) (next : Nat) (plies player : Int)
    (r : Node × Board × Nat) (h0 : 0 ≤ plies) (hlt : plies < (countEmpty board : Int))
    (hpl : player = 1 ∨ player = 2)
    (h : NewNode.Evaluate board next plies player = Except.ok r) :
    ∃ c, r.1.GetBestChildNode = some c ∧ r.1.FirstBest c ∧
      r.1.children.map Node.Movement = emptyCells board := by
  obtain ⟨_, _, hmv, _, hbest⟩ := EvaluateAux_resolved _ NewNode _ _ _ _ _ rfl rfl h0 hlt hpl h
  obtain ⟨c, hc, hfirst⟩ := hbest rfl
  exact ⟨c, hc, hfirst, hmv⟩

/-- C4 at the board `[[0,0,0]]`, `plies = 0`, player 1: the scores are 10,
20, 10 and the move `(0,1)` is selected; on `[[0,0]]` the scores are 10, 10
and the move `(0,0)` is selected. -/
theorem GetBestChildNode_first_best_witness :
    (∃ c, sampleLeaves.GetBestChildNode = some c ∧ sampleLeaves.FirstBest c ∧
      sampleLeaves.children.map Node.Movement = emptyCells [[0, 0, 0]]) ∧
    sampleLeaves.GetBestChildNode.map Node.Movement = some (0, 1) ∧
    (NewNode.Evaluate [[0, 0]] 0 0 1).map
      (fun r => (r.1.children.map (fun c => c.Score.map ScoreRef.val),
        r.1.GetBestChildNode.map Node.Movement)) =
      Except.ok ([some 10, some 10], some (0, 0)) :=
  ⟨GetBestChildNode_first_best [[0, 0, 0]] 0 0 1 (sampleLeaves, [[0, 0, 0]], 3) (by decide)
    (by decide) (Or.inl rfl) sampleLeaves_eq, rfl, rfl⟩

/-- C10. Score presence: after `Evaluate` completes on a new root with player 1
or 2, `0 <= plies` and a board with more than `plies` empty cells, every node
of the resulting tree, the root included, has a present score. -/
theorem Evaluate_scores_present (board : Board) (next : Nat) (plies player : Int)
    (r : Node × Board × Nat) (h0 : 0 ≤ plies) (hlt : plies < (countEmpty board : Int))
    (hpl : player = 1 ∨ player = 2)
    (h : NewNode.Evaluate board next plies player = Except.ok r) :
    ∀ n, Node.InTree n r.1 → ∃ s, n.Score = some s := by
  intro n hn
  obtain ⟨⟨hall, _⟩, _⟩ := EvaluateAux_resolved _ NewNode _ _ _ _ _ rfl rfl h0 hlt hpl h
  obtain ⟨s, hs, _⟩ := hall n hn
  exact ⟨s, hs⟩

/-- C10 at the board `[[0,0,0]]`, `plies = 1`, player 1. -/
theorem Evaluate_scores_present_witness :
    NewNode.Evaluate [[0, 0, 0]] 0 1 1 = Except.ok (sampleTree, [[0, 0, 0]], 6) ∧
    ∀ n, Node.InTree n sampleTree → ∃ s, n.Score = some s :=
  ⟨rfl, Evaluate_scores_present [[0, 0, 0]] 0 1 1 (sampleTree, [[0, 0, 0]], 6) (by decide)
    (by decide) (Or.inl rfl) sampleTree_eq⟩


/-! ## The adjacency function -/

theorem getD_heights (board : Board) (i : Nat) :
    (heights board).getD i 0 = (board.getD i []).length := by
  unfold heights
  simp only [List.getD_eq_getElem?_getD, List.getElem?_map]
  cases board[i]? <;> simp

theorem heights_length (board : Board) : (heights board).length = board.length := by
  simp [heights]

theorem ite_append_left {c : Prop} [Decidable c] (l a : List Pos) :
    (if c then l ++ a else l) = l ++ (if c then a else []) := by
  split <;> simp

theorem ite_append_both {c : Prop} [Decidable c] (l a b : List Pos) :
    (if c then l ++ a else l ++ b) = l ++ (if c then a else b) := by
  split <;> simp

theorem ite_ok {c : Prop} [Decidable c] (a b : List Pos) :
    (if c then (Except.ok a : Except Fault (List Pos)) else Except.ok b) =
      Except.ok (if c then a else b) := by
  split <;> rfl

/-- For a column index in range, `neighbors` completes and returns
`neighborsOf`. -/
theorem neighbors_eq {board : Board} {column line : Int} (h0 : 0 ≤ column)
    (hlt : column.toNat < board.length) :
    neighbors board (column, line) =
      Except.ok (neighborsOf (heights board) (column, line)) := by
  have hcol : indexAt board column = Except.ok (board.getD column.toNat []) := by
    apply indexAt_ok_of h0
    simp [List.getD_eq_getElem?_getD, List.getElem?_eq_getElem hlt]
  have hnxt : column < (board.length : Int) - 1 →
      indexAt board (column + 1) = Except.ok (board.getD (column + 1).toNat []) := by
    intro h
    have h2 : (column + 1).toNat < board.length := by omega
    apply indexAt_ok_of (by omega)
    simp [List.getD_eq_getElem?_getD, List.getElem?_eq_getElem h2]
  by_cases hr : column < (board.length : Int) - 1
  · simp -zeta only [neighbors, hcol, hnxt hr, bind, Except.bind, pure, Except.pure,
      ite_append_left, ite_append_both, ite_ok]
    simp only [neighborsOf, getD_heights, heights_length, List.nil_append, List.append_assoc]
  · simp -zeta only [neighbors, hcol, bind, Except.bind, pure, Except.pure,
      ite_append_left, ite_append_both, ite_ok, hr, if_false]
    simp only [neighborsOf, getD_heights, heights_length, List.nil_append, List.append_assoc,
      List.append_nil, hr, if_false]


theorem mem_neighborsOf {hs : List Nat} {column line : Int} {q : Pos}
    (h : q ∈ neighborsOf hs (column, line)) :
    (q.1 = column ∧ (q.2 = line + 1 ∨ q.2 = line - 1)) ∨
      ((q.1 = column - 1 ∨ q.1 = column + 1) ∧
        (q.2 = line ∨ q.2 = line + 1 ∨ q.2 = line - 1)) := by
  simp only [neighborsOf, List.mem_append] at h
  rcases h with ((((h | h) | h) | h) | h) | h <;> split_ifs at h <;>
    simp only [List.mem_singleton, List.not_mem_nil] at h <;> subst h <;> simp

/-- The coordinate itself is not among its neighbours. -/
theorem not_mem_neighborsOf_self (hs : List Nat) (pos : Pos) : pos ∉ neighborsOf hs pos := by
  intro h
  obtain ⟨column, line⟩ := pos
  rcases mem_neighborsOf h with ⟨_, h | h⟩ | ⟨h | h, _⟩ <;> simp only at h <;> omega

/-! ## The heuristic -/

theorem inBounds_iff_heights {board : Board} {q : Pos} :
    inBounds board q ↔ 0 ≤ q.1 ∧ 0 ≤ q.2 ∧ q.1.toNat < (heights board).length ∧
      q.2.toNat < (heights board).getD q.1.toNat 0 := by
  rw [getD_heights, heights_length]
  rfl

theorem cellAt_of_inBounds {board : Board} {q : Pos} (h : inBounds board q) :
    cellAt board q = Except.ok (getCell board q) := by
  obtain ⟨h1, h2, h3, h4⟩ := h
  unfold cellAt getCell
  have hcol : indexAt board q.1 = Except.ok (board.getD q.1.toNat []) := by
    apply indexAt_ok_of h1
    simp [List.getD_eq_getElem?_getD, List.getElem?_eq_getElem h3]
  rw [hcol]
  apply indexAt_ok_of h2
  rw [List.getD_eq_getElem?_getD (board.getD q.1.toNat []), List.getElem?_eq_getElem h4]
  rfl

theorem inBounds_of_cellAt {board : Board} {q : Pos} {v : Int}
    (h : cellAt board q = Except.ok v) : inBounds board q ∧ getCell board q = v := by
  obtain ⟨col, h1, h2, h3, h4⟩ := cellAt_eq_ok h
  obtain ⟨h5, h6⟩ := List.getElem?_eq_some_iff.mp h2
  obtain ⟨h7, h8⟩ := List.getElem?_eq_some_iff.mp h4
  have hcol : board.getD q.1.toNat [] = col := by
    simp [List.getD_eq_getElem?_getD, h2]
  refine ⟨⟨h1, h3, h5, by rw [hcol]; exact h7⟩, ?_⟩
  unfold getCell
  rw [hcol]
  simp [List.getD_eq_getElem?_getD, h4]

theorem heuristicStep_eq {board : Board} {q : Pos} {c : Int} (counter : Int)
    (h : cellAt board q = Except.ok c) :
    heuristicStep board counter q = Except.ok (counter + contribution c) := by
  unfold heuristicStep contribution
  rw [h]
  simp only [bind, Except.bind, pure, Except.pure, Except.ok.injEq]
  by_cases h0 : c = 0
  · subst h0
    simp
  · by_cases h1 : c = 1
    · subst h1
      simp
    · by_cases h2 : c = 2
      · subst h2
        simp
        omega
      · simp [h0, h1, h2]

theorem foldlM_heuristicStep {board : Board} :
    ∀ (nbs : List Pos) (counter : Int), (∀ q ∈ nbs, inBounds board q) →
      nbs.foldlM (heuristicStep board) counter =
        Except.ok (counter + (nbs.map (fun q => contribution (getCell board q))).sum) := by
  intro nbs
  induction nbs with
  | nil =>
    intro counter _
    simp [pure, Except.pure]
  | cons q rest ih =>
    intro counter h
    rw [List.foldlM_cons, heuristicStep_eq counter (cellAt_of_inBounds (h q (List.mem_cons_self _ _)))]
    simp only [bind, Except.bind]
    rw [ih _ (fun x hx => h x (List.mem_cons_of_mem _ hx))]
    simp only [List.map_cons, List.sum_cons, Except.ok.injEq]
    omega

/-- The heuristic is the sum of the contributions of the neighbours. -/
theorem heuristic_eq {board : Board} {pos : Pos} {nbs : List Pos}
    (hn : neighbors board pos = Except.ok nbs) (hin : ∀ q ∈ nbs, inBounds board q) :
    heuristic board pos =
      Except.ok ((nbs.map (fun q => contribution (getCell board q))).sum) := by
  unfold heuristic
  rw [hn]
  simp only [bind, Except.bind]
  rw [foldlM_heuristicStep nbs 0 hin]
  simp

/-- A write into a cell keeps the heights of the columns and the content of
every other cell. -/
theorem setCell_shape {board b1 : Board} {pos : Pos} {v : Int}
    (h : setCell board pos v = Except.ok b1) :
    heights b1 = heights board ∧
      ∀ q : Pos, 0 ≤ q.1 → 0 ≤ q.2 → q ≠ pos → getCell b1 q = getCell board q := by
  obtain ⟨col, h1, h2, h3, h4, hb⟩ := setCell_eq_ok h
  obtain ⟨h5, h6⟩ := List.getElem?_eq_some_iff.mp h2
  subst hb
  constructor
  · unfold heights
    apply List.ext_getElem?
    intro i
    simp only [List.getElem?_map, List.getElem?_set]
    by_cases hi : pos.1.toNat = i
    · subst hi
      simp [h5, h2]
    · simp [hi]
  · intro q hq1 hq2 hne
    unfold getCell
    simp only [List.getD_eq_getElem?_getD, List.getElem?_set]
    by_cases hi : pos.1.toNat = q.1.toNat
    · have hj : pos.2.toNat ≠ q.2.toNat := by
        intro hj
        apply hne
        apply Prod.ext <;> omega
      rw [if_pos hi, ← hi]
      simp [h5, h2, List.getElem?_set, hj]
    · rw [if_neg hi]


theorem inBounds_of_heights_eq {board b1 : Board} (h : heights b1 = heights board) (q : Pos) :
    inBounds b1 q ↔ inBounds board q := by
  rw [inBounds_iff_heights, inBounds_iff_heights, h]

/-- The heuristic at `pos` does not read the cell `pos`. -/
theorem heuristic_setCell {board b1 : Board} {pos : Pos} {v : Int} {nbs : List Pos}
    (hn : neighbors board pos = Except.ok nbs) (hin : ∀ q ∈ nbs, inBounds board q)
    (h : setCell board pos v = Except.ok b1) : heuristic b1 pos = heuristic board pos := by
  obtain ⟨hh, hcells⟩ := setCell_shape h
  obtain ⟨col, h1, h2, _, _, _⟩ := setCell_eq_ok h
  obtain ⟨h5, _⟩ := List.getElem?_eq_some_iff.mp h2
  obtain ⟨column, line⟩ := pos
  have hlen : b1.length = board.length := by
    rw [← heights_length b1, hh, heights_length]
  have hn0 : neighbors board (column, line) = _ := neighbors_eq h1 h5
  rw [hn0] at hn
  simp only [Except.ok.injEq] at hn
  have hn1 : neighbors b1 (column, line) = Except.ok nbs := by
    rw [neighbors_eq h1 (by rw [hlen]; exact h5), hh, hn]
  rw [heuristic_eq hn1 (fun q hq => (inBounds_of_heights_eq hh q).mpr (hin q hq)),
    heuristic_eq (by rw [hn0, hn]) hin]
  congr 2
  apply List.map_congr_left
  intro q hq
  have hq2 := hin q hq
  have hne : q ≠ (column, line) := by
    intro he
    subst he
    rw [← hn] at hq
    exact not_mem_neighborsOf_self _ _ hq
  rw [hcells q hq2.1 hq2.2.1 hne]

/-- C9. Heuristic value: when every coordinate returned by `neighbors` for
`pos` is in range, `heuristic` returns the sum over these coordinates of 10
for a cell holding 0, 20 for 1, -50 for 2 and 0 for any other value; the
result does not change when the cell `pos` itself is overwritten, and the
player to move has no influence on the generation of the scored children
(`heuristic` has no player parameter). -/
theorem heuristic_value (board : Board) (pos : Pos) (nbs : List Pos)
    (hn : neighbors board pos = Except.ok nbs) (hin : ∀ q ∈ nbs, inBounds board q) :
    heuristic board pos =
        Except.ok ((nbs.map (fun q => contribution (getCell board q))).sum) ∧
      (∀ v b1, setCell board pos v = Except.ok b1 → heuristic b1 pos = heuristic board pos) ∧
      (∀ (node : Node) (next : Nat) (p1 p2 : Int) (eval : Bool),
        node.generateChildMoves board next p1 eval =
          node.generateChildMoves board next p2 eval) :=
  ⟨heuristic_eq hn hin, fun _ _ h => heuristic_setCell hn hin h, fun _ _ _ _ _ => rfl⟩

/-- C9 at the board `[[0,1,2],[0,0,0]]` and the coordinate `(0,1)`. -/
theorem heuristic_value_witness :
    heuristic [[0, 1, 2], [0, 0, 0]] (0, 1) =
        Except.ok (([(0, 2), (0, 0), (1, 1), (1, 2)].map
          (fun q => contribution (getCell [[0, 1, 2], [0, 0, 0]] q))).sum) ∧
      (∀ v b1, setCell [[0, 1, 2], [0, 0, 0]] (0, 1) v = Except.ok b1 →
        heuristic b1 (0, 1) = heuristic [[0, 1, 2], [0, 0, 0]] (0, 1)) ∧
      (∀ (node : Node) (next : Nat) (p1 p2 : Int) (eval : Bool),
        node.generateChildMoves [[0, 1, 2], [0, 0, 0]] next p1 eval =
          node.generateChildMoves [[0, 1, 2], [0, 0, 0]] next p2 eval) :=
  heuristic_value [[0, 1, 2], [0, 0, 0]] (0, 1) [(0, 2), (0, 0), (1, 1), (1, 2)] rfl
    (by decide)

/-! ## Divergences between the code and the claims -/

/-- C2. On the board `[[0,0,0]]` with `plies = 1` and player 1 the code
writes the move of the second child as player 2 (the loop overwrites
`player`): the second child's leaves score -50, the contribution of a
neighbour holding 2, and the root selects the move `(0,0)`.  The reference
search, which writes every child's move as player 1, scores the second child
20 and selects the move `(0,1)`. -/
theorem Evaluate_overwrites_player :
    (NewNode.Evaluate [[0, 0, 0]] 0 1 1).map
        (fun r => (r.1.children.map (fun c => c.Score.map ScoreRef.val),
          r.1.GetBestChildNode.map Node.Movement)) =
      Except.ok ([some 10, some (-50), some 10], some (0, 0)) ∧
    (NewNode.EvaluateSpec [[0, 0, 0]] 0 1 1).map
        (fun r => (r.1.children.map (fun c => c.Score.map ScoreRef.val),
          r.1.GetBestChildNode.map Node.Movement)) =
      Except.ok ([some 10, some 20, some 10], some (0, 1)) :=
  ⟨rfl, rfl⟩

/-- C5. A node whose score 5 is stored at address 0 and whose only child was
added with `AddTerminal(5, ...)` (score stored at the new address 1):
`GetBestChildNode` returns nil although the child's score is equal in value
to the node's score. -/
theorem GetBestChildNode_compares_pointers :
    (((Node.mk (some (ScoreRef.mk 0 5)) [] false (0, 0)).AddTerminal 1 5 (0, 1)).1.1).GetBestChildNode
        = none ∧
      (((Node.mk (some (ScoreRef.mk 0 5)) [] false (0, 0)).AddTerminal 1 5 (0, 1)).1.1).children.map
          (fun c => c.Score.map ScoreRef.val) = [some 5] ∧
      (((Node.mk (some (ScoreRef.mk 0 5)) [] false (0, 0)).AddTerminal 1 5 (0, 1)).1.1).Score.map
          ScoreRef.val = some 5 :=
  ⟨rfl, rfl, rfl⟩

/-- C7, counterexample. On the 2x2 board the in-bounds coordinate `(0,1)` has
the neighbour `(1,2)`, which is out of bounds. -/
theorem neighbors_out_of_bounds :
    inBounds [[0, 0], [0, 0]] (0, 1) ∧
      neighbors [[0, 0], [0, 0]] (0, 1) = Except.ok [(0, 0), (1, 1), (1, 2)] ∧
      ¬ inBounds [[0, 0], [0, 0]] (1, 2) :=
  ⟨by decide, rfl, by decide⟩


/-! ## Adjacency on boards of the hexagonal kind -/

theorem HexShaped_step {board : Board} (h : HexShaped board) (c : Nat)
    (hc : c + 1 < board.length) :
    (c < 5 → (heights board).getD (c + 1) 0 = (heights board).getD c 0 + 1) ∧
      (5 ≤ c → (heights board).getD (c + 1) 0 + 1 = (heights board).getD c 0) := by
  rw [getD_heights, getD_heights]
  exact h c (List.mem_range.mpr (by omega))

/-- On a board of the hexagonal kind every neighbour of an in-bounds
coordinate is in-bounds. -/
theorem neighborsOf_inBounds {board : Board} {pos : Pos} (hhex : HexShaped board)
    (hin : inBounds board pos) : ∀ q ∈ neighborsOf (heights board) pos, inBounds board q := by
  obtain ⟨column, line⟩ := pos
  rw [inBounds_iff_heights] at hin
  obtain ⟨h1, h2, h3, h4⟩ := hin
  simp only at h1 h2 h3 h4
  obtain ⟨cn, rfl⟩ := Int.eq_ofNat_of_zero_le h1
  obtain ⟨ln, rfl⟩ := Int.eq_ofNat_of_zero_le h2
  rw [heights_length] at h3
  have e1 : ((cn : Int) + 1).toNat = cn + 1 := by omega
  have e2 : ((cn : Int) - 1).toNat = cn - 1 := by omega
  have hR := HexShaped_step hhex cn
  have hL : 1 ≤ cn →
      (cn - 1 < 5 → (heights board).getD cn 0 = (heights board).getD (cn - 1) 0 + 1) ∧
      (5 ≤ cn - 1 → (heights board).getD cn 0 + 1 = (heights board).getD (cn - 1) 0) := by
    intro hge
    have := HexShaped_step hhex (cn - 1) (by omega)
    rw [Nat.sub_add_cancel hge] at this
    exact this
  simp only [Int.toNat_natCast] at h3 h4
  intro q hq
  simp only [neighborsOf, List.mem_append, heights_length, e1, Int.toNat_natCast] at hq
  rw [inBounds_iff_heights, heights_length]
  rcases hq with ((((hq | hq) | hq) | hq) | hq) | hq <;> split_ifs at hq <;>
    simp only [List.mem_singleton, List.not_mem_nil] at hq <;> subst hq <;>
    simp only [e1, e2, Int.toNat_natCast] <;>
    refine ⟨by omega, by omega, by omega, ?_⟩ <;> omega


/-- C7, amended. On every board of the hexagonal kind (each column up to
index 5 one cell taller than the column before it, each column after index 5
one cell shorter) and for every in-bounds coordinate, `neighbors` completes
and every coordinate it returns is in-bounds. -/
theorem neighbors_inBounds_hexShaped (board : Board) (pos : Pos) (hhex : HexShaped board)
    (hin : inBounds board pos) :
    ∃ nbs, neighbors board pos = Except.ok nbs ∧ ∀ q ∈ nbs, inBounds board q := by
  obtain ⟨column, line⟩ := pos
  exact ⟨_, neighbors_eq hin.1 hin.2.2.1, neighborsOf_inBounds hhex hin⟩

/-- C7, amended, at the coordinate `(5,9)` of the hexagonal board. -/
theorem neighbors_inBounds_hexShaped_witness :
    ∃ nbs, neighbors hexBoard (5, 9) = Except.ok nbs ∧ ∀ q ∈ nbs, inBounds hexBoard q :=
  neighbors_inBounds_hexShaped hexBoard (5, 9) (by decide) (by decide)

/-! ## The final ply -/

theorem setCell_ok_of_inBounds {board : Board} {p : Pos} (v : Int) (h : inBounds board p) :
    ∃ b1, setCell board p v = Except.ok b1 := by
  obtain ⟨h1, h2, h3, h4⟩ := h
  have hcol : board[p.1.toNat]? = some (board.getD p.1.toNat []) := by
    simp [List.getD_eq_getElem?_getD, List.getElem?_eq_getElem h3]
  exact ⟨_, setCell_ok_of v h1 hcol h2 h4⟩

theorem propagate_ok_of (score : Option ScoreRef) {cn : Node} {s : ScoreRef}
    (h : cn.Score = some s) : ∃ score1, propagate score cn = Except.ok score1 := by
  cases score with
  | none => exact ⟨_, propagate_none cn⟩
  | some ps => exact ⟨_, propagate_some h⟩

/-- At the final ply the loop of `Evaluate` completes when every child has a
score and its move is an empty cell. -/
theorem evalChildren_final_ok
    (recur : Node → Board → Nat → Int → Except Fault (Node × Board × Nat)) {board : Board} :
    ∀ (cs : List Node) (score : Option ScoreRef) (next : Nat) (player : Int),
      (∀ c ∈ cs, cellAt board c.Movement = Except.ok 0 ∧ ∃ s, c.Score = some s) →
      ∃ t, evalChildren recur 0 cs score board next player = Except.ok t := by
  intro cs
  induction cs with
  | nil =>
    intro score next player _
    exact ⟨_, rfl⟩
  | cons cn rest ih =>
    intro score next player hcs
    obtain ⟨hcell, s, hs⟩ := hcs cn (List.mem_cons_self _ _)
    have hin := (inBounds_of_cellAt hcell).1
    obtain ⟨b1, hb1⟩ := setCell_ok_of_inBounds player hin
    obtain ⟨score1, hscore1⟩ := propagate_ok_of score hs
    have hin1 : inBounds b1 cn.Movement :=
      (inBounds_of_heights_eq (setCell_shape hb1).1 _).mpr hin
    obtain ⟨b2, hb2⟩ := setCell_ok_of_inBounds 0 hin1
    have hb : b2 = board := setCell_undo hcell hb1 hb2
    subst hb
    obtain ⟨t, ht⟩ := ih score1 next player (fun c hc => hcs c (List.mem_cons_of_mem _ hc))
    refine ⟨(cn :: t.1, t.2), ?_⟩
    unfold evalChildren
    simp only [doMove, undoMove, descend, ne_eq, not_true_eq_false, if_false, hb1, bind,
      Except.bind, pure, Except.pure, hscore1, hb2, ht]

theorem EvaluateAux_succ_of {fuel : Nat} {node : Node} {board : Board} {next : Nat}
    {plies player : Int} {g : Node × Nat} {t : List Node × Option ScoreRef × Board × Nat}
    (hg : node.generateChildMoves board next player (decide (plies = 0)) = Except.ok g)
    (ht : evalChildren (fun cn b n p => EvaluateAux fuel cn b n (plies - 1) p) plies
        g.1.children g.1.Score board g.2 player = Except.ok t) :
    EvaluateAux (fuel + 1) node board next plies player =
      Except.ok (Node.mk t.2.1 t.1 g.1.isOpponent g.1.Movement, t.2.2.1, t.2.2.2) := by
  unfold EvaluateAux
  simp only [hg, bind, Except.bind, ht, pure, Except.pure]

theorem Generated_scores {board : Board} {o : Bool} :
    ∀ (kids : List Node) (lo hi : Nat), Generated board o true lo kids hi →
      ∀ c ∈ kids, c.children = [] ∧
        ∃ s, c.Score = some s ∧ heuristic board c.Movement = Except.ok s.val := by
  intro kids
  induction kids with
  | nil => intro lo hi _ c hc; simp at hc
  | cons k rest ih =>
    intro lo hi h c hc
    simp only [Generated, if_true] at h
    obtain ⟨hk, _, ⟨v, hv, hs⟩, hrest⟩ := h
    rcases List.mem_cons.mp hc with hc | hc
    · subst hc
      exact ⟨hk, _, hs, hv⟩
    · exact ih _ _ hrest c hc

theorem heuristic_ok_of {board : Board} {p : Pos} (hp : inBounds board p)
    (hin : ∀ nbs, neighbors board p = Except.ok nbs → ∀ q ∈ nbs, inBounds board q) :
    ∃ v, heuristic board p = Except.ok v := by
  obtain ⟨column, line⟩ := p
  have hn : neighbors board (column, line) = _ := neighbors_eq hp.1 hp.2.2.1
  exact ⟨_, heuristic_eq hn (hin _ hn)⟩

/-- C6. Final-ply evaluation: for a new root, `plies = 0`, any player and a
board with at least one empty cell on which all neighbours of empty cells are
in range, `Evaluate` completes and gives the board back; the root has exactly
one child per empty cell, in scan order; every child is terminal and its
score is the heuristic of its cell on the input board; the root's score is
the maximum of the children's scores. -/
theorem Evaluate_final_ply (board : Board) (next : Nat) (player : Int)
    (hne : 0 < countEmpty board)
    (hin : ∀ p ∈ emptyCells board, ∀ nbs, neighbors board p = Except.ok nbs →
      ∀ q ∈ nbs, inBounds board q) :
    ∃ root next1, NewNode.Evaluate board next 0 player = Except.ok (root, board, next1) ∧
      root.children.map Node.Movement = emptyCells board ∧
      (root.children.map Node.Movement).Nodup ∧
      (∀ p, p ∈ root.children.map Node.Movement ↔ cellAt board p = Except.ok 0) ∧
      (∀ c ∈ root.children, c.children = [] ∧
        ∃ s, c.Score = some s ∧ heuristic board c.Movement = Except.ok s.val) ∧
      ∃ s, root.Score = some s ∧ IsMaxOf s.val root.children := by
  have hh : ∀ p ∈ emptyCells board, ∃ v, heuristic board p = Except.ok v := by
    intro p hp
    exact heuristic_ok_of (inBounds_of_cellAt (mem_emptyCells.mp hp)).1 (hin p hp)
  obtain ⟨g, hg⟩ := generateChildMoves_ok_of NewNode next player (decide ((0 : Int) = 0)) hh
  obtain ⟨kids, hg1, hmv, hgen⟩ := generateChildMoves_eq_ok hg
  simp only [decide_True] at hgen
  have hkids : g.1.children = kids := by rw [hg1]; rfl
  have hgs : g.1.Score = none := by rw [hg1]; rfl
  have hgo : g.1.isOpponent = false := by rw [hg1]; rfl
  have hscores := Generated_scores _ _ _ hgen
  have hcell : ∀ c ∈ kids, cellAt board c.Movement = Except.ok 0 := by
    intro c hc
    apply mem_emptyCells.mp
    rw [← hmv]
    exact List.mem_map_of_mem _ hc
  obtain ⟨t, ht⟩ := evalChildren_final_ok
    (fun cn b n p => EvaluateAux ((0 : Int).toNat + cellCount board + 1) cn b n (0 - 1) p)
    kids none g.2 player
    (fun c hc => ⟨hcell c hc, (hscores c hc).2.imp (fun _ h => h.1)⟩)
  have hfold := evalChildren_score _ _ _ _ _ _ ht
  obtain ⟨ht1, _⟩ := evalChildren_final _ _ _ _ _ _ ht
  have hfr := evalChildren_frame
    (fun cn b n p r hcn hr =>
      EvaluateAux_frame _ cn b n (0 - 1) p r hcn hr)
    kids none g.2 player t (fun c hc => ⟨(hscores c hc).1, hcell c hc⟩) ht
  have hkne : kids ≠ [] := by
    intro hk
    have : emptyCells board ≠ [] := emptyCells_ne_nil hne
    rw [← hmv, hk] at this
    exact this rfl
  obtain ⟨_, hall, hpw⟩ := Generated_resolved _ _ _ hgen
  rw [ht1] at hfold
  obtain ⟨⟨hprop, _⟩, _⟩ := @node_resolved _ _ _ false _ g.1.Movement hkne
    (fun c hc => ⟨hall c hc, (Generated_children _ _ _ hgen c hc).2⟩) hpw hfold
  obtain ⟨s, hs, _, hmax⟩ := hprop _ (Node.InTree.root _)
  rw [← hkids, ← hgs] at ht
  have hev := EvaluateAux_succ_of hg ht
  have hmoves : t.1.map Node.Movement = emptyCells board := by rw [ht1, hmv]
  refine ⟨Node.mk t.2.1 t.1 g.1.isOpponent g.1.Movement, t.2.2.2, ?_, hmoves, ?_, ?_, ?_, ?_⟩
  · have hb := hfr.1
    rw [hb] at hev
    exact hev
  · show (t.1.map Node.Movement).Nodup
    rw [hmoves]
    exact emptyCells_nodup board
  · intro p
    show p ∈ t.1.map Node.Movement ↔ _
    rw [hmoves]
    exact mem_emptyCells
  · show ∀ c ∈ t.1, _
    rw [ht1]
    exact hscores
  · refine ⟨s, hs, ?_⟩
    show IsMaxOf s.val t.1
    rw [ht1]
    exact (hmax hkne).1 rfl


/-- C6 at the board `[[0,0,0]]`, player 1: the children score 10, 20, 10 and
the root 20. -/
theorem Evaluate_final_ply_witness :
    (∃ root next1, NewNode.Evaluate [[0, 0, 0]] 0 0 1 = Except.ok (root, [[0, 0, 0]], next1) ∧
      root.children.map Node.Movement = emptyCells [[0, 0, 0]] ∧
      (root.children.map Node.Movement).Nodup ∧
      (∀ p, p ∈ root.children.map Node.Movement ↔ cellAt [[0, 0, 0]] p = Except.ok 0) ∧
      (∀ c ∈ root.children, c.children = [] ∧
        ∃ s, c.Score = some s ∧ heuristic [[0, 0, 0]] c.Movement = Except.ok s.val) ∧
      ∃ s, root.Score = some s ∧ IsMaxOf s.val root.children) ∧
    (NewNode.Evaluate [[0, 0, 0]] 0 0 1).map
        (fun r => (r.1.children.map (fun c => c.Score.map ScoreRef.val),
          r.1.Score.map ScoreRef.val)) =
      Except.ok ([some 10, some 20, some 10], some 20) := by
  refine ⟨?_, rfl⟩
  apply Evaluate_final_ply [[0, 0, 0]] 0 1 (by decide)
  intro p hp nbs h q hq
  have hp2 : p = (0, 0) ∨ p = (0, 1) ∨ p = (0, 2) := by
    simpa [emptyCells, emptyCellsFrom, emptyCellsCol] using hp
  rcases hp2 with rfl | rfl | rfl
  · have h2 : neighbors [[0, 0, 0]] (0, 0) = Except.ok [(0, 1)] := rfl
    rw [h2] at h
    cases h
    revert q
    decide
  · have h2 : neighbors [[0, 0, 0]] (0, 1) = Except.ok [(0, 2), (0, 0)] := rfl
    rw [h2] at h
    cases h
    revert q
    decide
  · have h2 : neighbors [[0, 0, 0]] (0, 2) = Except.ok [(0, 1)] := rfl
    rw [h2] at h
    cases h
    revert q
    decide

/-! ## The 2x2 board -/

/-- C8, counterexample. On the 2x2 board whose occupied cell is `(0,0)`, with
`plies = 0` and player 1, `Evaluate` stops with an out-of-range board access:
the heuristic of the empty cell `(0,1)` reads the cell `(1,2)`. -/
theorem two_by_two_out_of_range :
    NewNode.Evaluate [[1, 0], [0, 0]] 0 0 1 = Except.error Fault.outOfRange ∧
      neighbors [[1, 0], [0, 0]] (0, 1) = Except.ok [(0, 0), (1, 1), (1, 2)] ∧
      cellAt [[1, 0], [0, 0]] (1, 2) = Except.error Fault.outOfRange :=
  ⟨rfl, rfl, rfl⟩

/-- On the 2x2 boards whose only occupied cell is `(0,1)` the search
completes. -/
theorem two_by_two_completes (v player plies : Int) (next : Nat) (hv : v = 1 ∨ v = 2)
    (hpl : player = 1 ∨ player = 2) (hplies : plies = 0 ∨ plies = 1) :
    ∃ r, NewNode.Evaluate [[0, v], [0, 0]] next plies player = Except.ok r := by
  rcases hv with rfl | rfl <;> rcases hpl with rfl | rfl <;> rcases hplies with rfl | rfl <;>
    simp [Node.Evaluate, EvaluateAux, NewNode, Node.generateChildMoves, generateCols,
      generateCells, heuristic, neighbors, heuristicStep, cellAt, indexAt, evalChildren,
      doMove, undoMove, setCell, storeAt, descend, propagate, Node.AddTerminal, Node.Add,
      Node.add, Node.Score, Node.children, Node.isOpponent, Node.Movement, bind, Except.bind,
      pure, Except.pure, cellCount]

/-- C8, amended. For every 2x2 board whose only occupied cell is the cell
`(0,1)` (value 1 or 2), every player in {1,2} and a ply budget of 0 or 1,
`Evaluate` on a new root completes and gives the board back, and
`GetBestChildNode` then returns a child whose move is one of the three empty
cells `(0,0)`, `(1,0)`, `(1,1)`: the first child in scan order whose score is
the maximum of the children's scores. -/
theorem Evaluate_two_by_two (v player plies : Int) (next : Nat) (hv : v = 1 ∨ v = 2)
    (hpl : player = 1 ∨ player = 2) (hplies : plies = 0 ∨ plies = 1) :
    ∃ root next1 c,
      NewNode.Evaluate [[0, v], [0, 0]] next plies player =
        Except.ok (root, [[0, v], [0, 0]], next1) ∧
      root.GetBestChildNode = some c ∧ root.FirstBest c ∧
      root.children.map Node.Movement = [(0, 0), (1, 0), (1, 1)] ∧
      c.Movement ∈ [((0 : Int), (0 : Int)), (1, 0), (1, 1)] := by
  obtain ⟨r, hr⟩ := two_by_two_completes v player plies next hv hpl hplies
  have hv0 : v ≠ 0 := by rcases hv with rfl | rfl <;> decide
  have hcount : countEmpty [[0, v], [0, 0]] = 3 := by
    simp [countEmpty, List.count_cons, hv0]
  have hempty : emptyCells [[0, v], [0, 0]] = [(0, 0), (1, 0), (1, 1)] := by
    simp [emptyCells, emptyCellsFrom, emptyCellsCol, hv0]
  have h0 : 0 ≤ plies := by rcases hplies with rfl | rfl <;> decide
  have hlt : plies < (countEmpty [[0, v], [0, 0]] : Int) := by
    rw [hcount]
    rcases hplies with rfl | rfl <;> decide
  have hb := (EvaluateAux_frame _ NewNode _ _ _ _ _ rfl hr).1
  obtain ⟨_, _, hmv, _, hbest⟩ := EvaluateAux_resolved _ NewNode _ _ _ _ _ rfl rfl h0 hlt hpl hr
  obtain ⟨c, hc, hfirst⟩ := hbest rfl
  rw [hempty] at hmv
  refine ⟨r.1, r.2.2, c, ?_, hc, hfirst, hmv, ?_⟩
  · rw [hr, ← hb]
  · obtain ⟨before, after, _, hsplit, _⟩ := hfirst
    rw [← hmv, hsplit]
    simp

/-- C8, amended, at the board `[[0,2],[0,0]]`, `plies = 1`, player 1. -/
theorem Evaluate_two_by_two_witness :
    ∃ root next1 c,
      NewNode.Evaluate [[0, 2], [0, 0]] 0 1 1 = Except.ok (root, [[0, 2], [0, 0]], next1) ∧
      root.GetBestChildNode = some c ∧ root.FirstBest c ∧
      root.children.map Node.Movement = [(0, 0), (1, 0), (1, 1)] ∧
      c.Movement ∈ [((0 : Int), (0 : Int)), (1, 0), (1, 1)] :=
  Evaluate_two_by_two 2 1 1 0 (Or.inr rfl) (Or.inl rfl) (Or.inr rfl)


/-! ## The recursion budget suffices -/

theorem bind_ne_fuel {α β : Type} {x : Except Fault α} {f : α → Except Fault β}
    (hx : x ≠ Except.error Fault.fuel)
    (hf : ∀ a, x = Except.ok a → f a ≠ Except.error Fault.fuel) :
    (x >>= f) ≠ Except.error Fault.fuel := by
  cases x with
  | error e =>
    intro h
    apply hx
    simpa [bind, Except.bind] using h
  | ok a => exact hf a rfl

theorem indexAt_ne_fuel {α : Type} (xs : List α) (i : Int) :
    indexAt xs i ≠ Except.error Fault.fuel := by
  unfold indexAt
  split
  · simp
  · split <;> simp

theorem storeAt_ne_fuel {α : Type} (xs : List α) (i : Int) (v : α) :
    storeAt xs i v ≠ Except.error Fault.fuel := by
  unfold storeAt
  split
  · simp
  · split <;> simp

theorem cellAt_ne_fuel (board : Board) (p : Pos) : cellAt board p ≠ Except.error Fault.fuel :=
  bind_ne_fuel (indexAt_ne_fuel _ _) (fun _ _ => indexAt_ne_fuel _ _)

theorem setCell_ne_fuel (board : Board) (p : Pos) (v : Int) :
    setCell board p v ≠ Except.error Fault.fuel :=
  bind_ne_fuel (indexAt_ne_fuel _ _)
    (fun _ _ => bind_ne_fuel (storeAt_ne_fuel _ _ _) (fun _ _ => storeAt_ne_fuel _ _ _))

theorem neighbors_ne_fuel (board : Board) (pos : Pos) :
    neighbors board pos ≠ Except.error Fault.fuel := by
  obtain ⟨column, line⟩ := pos
  cases h : indexAt board column with
  | error e =>
    have he : e ≠ Fault.fuel := by
      intro hf
      subst hf
      exact indexAt_ne_fuel _ _ h
    simp only [neighbors, h, bind, Except.bind]
    simpa using he
  | ok col =>
    obtain ⟨h0, h1⟩ := indexAt_eq_ok h
    rw [neighbors_eq h0 (List.getElem?_eq_some_iff.mp h1).1]
    simp

theorem foldlM_heuristicStep_ne_fuel (board : Board) :
    ∀ (nbs : List Pos) (counter : Int),
      nbs.foldlM (heuristicStep board) counter ≠ Except.error Fault.fuel := by
  intro nbs
  induction nbs with
  | nil => intro counter; simp [pure, Except.pure]
  | cons q rest ih =>
    intro counter
    rw [List.foldlM_cons]
    refine bind_ne_fuel ?_ (fun _ _ => ih _)
    exact bind_ne_fuel (cellAt_ne_fuel _ _) (fun _ _ => by simp [pure, Except.pure])

theorem heuristic_ne_fuel (board : Board) (pos : Pos) :
    heuristic board pos ≠ Except.error Fault.fuel :=
  bind_ne_fuel (neighbors_ne_fuel _ _) (fun _ _ => foldlM_heuristicStep_ne_fuel _ _ _)

theorem generateCells_ne_fuel (board : Board) (eval : Bool) (k_col : Nat) :
    ∀ (cells : List Int) (k_cell : Nat) (node : Node) (next : Nat),
      generateCells board eval k_col cells k_cell node next ≠ Except.error Fault.fuel := by
  intro cells
  induction cells with
  | nil => intro k_cell node next; simp [generateCells, pure, Except.pure]
  | cons cell rest ih =>
    intro k_cell node next
    unfold generateCells
    split
    · split
      · exact bind_ne_fuel (heuristic_ne_fuel _ _) (fun _ _ => ih _ _ _)
      · exact ih _ _ _
    · exact ih _ _ _

theorem generateCols_ne_fuel (board : Board) (eval : Bool) :
    ∀ (cols : List (List Int)) (k_col : Nat) (node : Node) (next : Nat),
      generateCols board eval cols k_col node next ≠ Except.error Fault.fuel := by
  intro cols
  induction cols with
  | nil => intro k_col node next; simp [generateCols, pure, Except.pure]
  | cons col rest ih =>
    intro k_col node next
    unfold generateCols
    exact bind_ne_fuel (generateCells_ne_fuel _ _ _ _ _ _ _) (fun _ _ => ih _ _ _)

theorem propagate_ne_fuel (score : Option ScoreRef) (cn : Node) :
    propagate score cn ≠ Except.error Fault.fuel := by
  unfold propagate
  split
  · simp [pure, Except.pure]
  · split
    · simp
    · split_ifs <;> simp [pure, Except.pure]

theorem evalChildren_ne_fuel
    {recur : Node → Board → Nat → Int → Except Fault (Node × Board × Nat)} {plies : Int}
    (hrec : plies ≠ 0 → ∀ cn b n p, recur cn b n p ≠ Except.error Fault.fuel) :
    ∀ (cs : List Node) (score : Option ScoreRef) (board : Board) (next : Nat) (player : Int),
      evalChildren recur plies cs score board next player ≠ Except.error Fault.fuel := by
  intro cs
  induction cs with
  | nil => intro score board next player; simp [evalChildren, pure, Except.pure]
  | cons cn rest ih =>
    intro score board next player
    unfold evalChildren
    refine bind_ne_fuel (setCell_ne_fuel _ _ _) (fun board1 _ => ?_)
    refine bind_ne_fuel ?_ (fun r _ => ?_)
    · unfold descend
      split
      · rename_i hp
        exact bind_ne_fuel (hrec hp _ _ _ _) (fun _ _ => by simp [pure, Except.pure])
      · simp [pure, Except.pure]
    · refine bind_ne_fuel (propagate_ne_fuel _ _) (fun _ _ => ?_)
      refine bind_ne_fuel (setCell_ne_fuel _ _ _) (fun _ _ => ?_)
      exact bind_ne_fuel (ih _ _ _ _) (fun _ _ => by simp [pure, Except.pure])

/-- A budget larger than `plies` is never used up when `0 <= plies`. -/
theorem EvaluateAux_ne_fuel :
    ∀ (fuel : Nat) (node : Node) (board : Board) (next : Nat) (plies player : Int),
      0 ≤ plies → plies < (fuel : Int) →
      EvaluateAux fuel node board next plies player ≠ Except.error Fault.fuel := by
  intro fuel
  induction fuel with
  | zero =>
    intro node board next plies player h0 hlt
    simp only [Nat.cast_zero] at hlt
    omega
  | succ fuel ih =>
    intro node board next plies player h0 hlt
    unfold EvaluateAux
    refine bind_ne_fuel (generateCols_ne_fuel _ _ _ _ _ _) (fun g _ => ?_)
    refine bind_ne_fuel ?_ (fun _ _ => by simp [pure, Except.pure])
    apply evalChildren_ne_fuel
    intro hp cn b n p
    exact ih cn b n (plies - 1) p (by omega) (by push_cast at hlt; omega)

/-- With `0 <= plies` the budget of `Evaluate` is never used up: the call
completes or stops with a fault of the program. -/
theorem Evaluate_ne_fuel (node : Node) (board : Board) (next : Nat) (plies player : Int)
    (h0 : 0 ≤ plies) : node.Evaluate board next plies player ≠ Except.error Fault.fuel := by
  unfold Node.Evaluate
  apply EvaluateAux_ne_fuel _ _ _ _ _ _ h0
  push_cast
  omega

/-! ## Adjacency: size, exactness and symmetry -/

theorem mem_ite_one {c : Prop} [Decidable c] {x a : Pos} :
    x ∈ (if c then [a] else []) ↔ c ∧ x = a := by
  split <;> simp [*]

theorem mem_ite_two {c d : Prop} [Decidable c] [Decidable d] {x a b : Pos} :
    x ∈ (if c then [a] else if d then [b] else []) ↔ (c ∧ x = a) ∨ (¬ c ∧ d ∧ x = b) := by
  split_ifs <;> simp [*]

theorem mem_ite_list {c : Prop} [Decidable c] {x : Pos} {l : List Pos} :
    x ∈ (if c then l else []) ↔ c ∧ x ∈ l := by
  split <;> simp [*]

theorem neighborsOf_length_le (hs : List Nat) (pos : Pos) : (neighborsOf hs pos).length ≤ 6 := by
  have h1 : ∀ (c : Prop) [Decidable c] (a : Pos), (if c then [a] else []).length ≤ 1 := by
    intro c _ a
    split <;> simp
  have h2 : ∀ (c d e : Prop) [Decidable c] [Decidable d] [Decidable e] (a b : Pos),
      (if c then (if d then [a] else if e then [b] else []) else []).length ≤ 1 := by
    intro c d e _ _ _ a b
    split_ifs <;> simp
  unfold neighborsOf
  simp only [List.length_append]
  have a1 := h1 (pos.2 < (hs.getD pos.1.toNat 0 : Int) - 1) (pos.1, pos.2 + 1)
  have a2 := h2 (pos.1 ≤ (hs.length : Int) - 1 ∧ pos.1 ≠ 0)
    (pos.2 ≠ (hs.getD pos.1.toNat 0 : Int) - 1 ∧ pos.1 < 6) (pos.1 ≥ 6)
    (pos.1 - 1, pos.2) (pos.1 - 1, pos.2 + 1)
  have a3 := h2 (pos.1 ≤ (hs.length : Int) - 1 ∧ pos.1 ≠ 0)
    (pos.1 < 6 ∧ pos.2 ≠ 0) (pos.1 ≥ 6) (pos.1 - 1, pos.2 - 1) (pos.1 - 1, pos.2)
  have a4 := h1 (pos.2 ≠ 0) (pos.1, pos.2 - 1)
  have a5 := h2 (pos.1 < (hs.length : Int) - 1) (pos.1 < 5) (pos.1 ≥ 5 ∧ pos.2 ≠ 0)
    (pos.1 + 1, pos.2) (pos.1 + 1, pos.2 - 1)
  have a6 := h2 (pos.1 < (hs.length : Int) - 1) (pos.1 < 5)
    (pos.1 ≥ 5 ∧ pos.2 ≠ (hs.getD (pos.1 + 1).toNat 0 : Int))
    (pos.1 + 1, pos.2 + 1) (pos.1 + 1, pos.2)
  omega

theorem int_shift_ne (x : Int) :
    ((x = x - 1) ↔ False) ∧ ((x = x + 1) ↔ False) ∧ ((x - 1 = x) ↔ False) ∧
      ((x + 1 = x) ↔ False) ∧ ((x - 1 = x + 1) ↔ False) ∧ ((x + 1 = x - 1) ↔ False) := by
  refine ⟨?_, ?_, ?_, ?_, ?_, ?_⟩ <;> constructor <;> intro h <;> first | omega | exact h.elim

/-- On a board of the hexagonal kind a direction candidate of an in-bounds
coordinate is returned exactly when it is in-bounds. -/
theorem neighborsOf_exact {board : Board} {pos : Pos} (hhex : HexShaped board)
    (hin : inBounds board pos) :
    ∀ q ∈ candidates pos, (q ∈ neighborsOf (heights board) pos ↔ inBounds board q) := by
  obtain ⟨column, line⟩ := pos
  rw [inBounds_iff_heights] at hin
  obtain ⟨h1, h2, h3, h4⟩ := hin
  simp only at h1 h2 h3 h4
  obtain ⟨cn, rfl⟩ := Int.eq_ofNat_of_zero_le h1
  obtain ⟨ln, rfl⟩ := Int.eq_ofNat_of_zero_le h2
  rw [heights_length] at h3
  have e1 : ((cn : Int) + 1).toNat = cn + 1 := by omega
  have e2 : ((cn : Int) - 1).toNat = cn - 1 := by omega
  have hR := HexShaped_step hhex cn
  have hL : 1 ≤ cn →
      (cn - 1 < 5 → (heights board).getD cn 0 = (heights board).getD (cn - 1) 0 + 1) ∧
      (5 ≤ cn - 1 → (heights board).getD cn 0 + 1 = (heights board).getD (cn - 1) 0) := by
    intro hge
    have := HexShaped_step hhex (cn - 1) (by omega)
    rw [Nat.sub_add_cancel hge] at this
    exact this
  simp only [Int.toNat_natCast] at h3 h4
  intro q hq
  simp only [candidates, List.mem_cons, List.mem_singleton, List.not_mem_nil, or_false] at hq
  rw [inBounds_iff_heights, heights_length]
  simp only [neighborsOf, List.mem_append, mem_ite_two, mem_ite_list, List.mem_singleton,
    heights_length, e1, Int.toNat_natCast]
  rcases hq with hq | hq | hq | hq | hq | hq <;> (try split_ifs at hq) <;> subst hq <;>
    simp only [Prod.mk.injEq, e1, e2, Int.toNat_natCast, (int_shift_ne _).1,
      (int_shift_ne _).2.1, (int_shift_ne _).2.2.1, (int_shift_ne _).2.2.2.1,
      (int_shift_ne _).2.2.2.2.1, (int_shift_ne _).2.2.2.2.2, and_true, true_and, and_false,
      false_and, or_false, false_or] <;>
    constructor <;> intro h <;> omega

theorem mem_candidates_of_mem_neighborsOf {hs : List Nat} {p q : Pos}
    (h : q ∈ neighborsOf hs p) : q ∈ candidates p := by
  obtain ⟨column, line⟩ := p
  simp only [neighborsOf, List.mem_append, mem_ite_two, mem_ite_list, List.mem_singleton] at h
  simp only [candidates, List.mem_cons, List.mem_singleton, List.not_mem_nil, or_false]
  rcases h with ((((h | h) | h) | h) | h) | h
  · exact Or.inl h.2
  · rcases h.2 with h2 | h2
    · right; left
      rw [if_pos h2.1.2]
      exact h2.2
    · right; left
      rw [if_neg (by omega)]
      exact h2.2.2
  · rcases h.2 with h2 | h2
    · right; right; left
      rw [if_pos h2.1.1]
      exact h2.2
    · right; right; left
      rw [if_neg (by omega)]
      exact h2.2.2
  · exact Or.inr (Or.inr (Or.inr (Or.inl h.2)))
  · rcases h.2 with h2 | h2
    · right; right; right; right; left
      rw [if_pos h2.1]
      exact h2.2
    · right; right; right; right; left
      rw [if_neg h2.1]
      exact h2.2.2
  · rcases h.2 with h2 | h2
    · right; right; right; right; right
      rw [if_pos h2.1]
      exact h2.2
    · right; right; right; right; right
      rw [if_neg h2.1]
      exact h2.2.2

/-- The direction candidates are symmetric: a candidate of `p` has `p` among
its own candidates. -/
theorem candidates_symm {p q : Pos} (h : q ∈ candidates p) : p ∈ candidates q := by
  obtain ⟨column, line⟩ := p
  simp only [candidates, List.mem_cons, List.mem_singleton, List.not_mem_nil, or_false] at h
  rcases h with h | h | h | h | h | h <;> (try split_ifs at h) <;> subst h <;>
    simp only [candidates, List.mem_cons, List.mem_singleton, List.not_mem_nil, or_false] <;>
    split_ifs <;> simp only [Prod.mk.injEq, true_and, and_true] <;> omega

theorem HexShaped_of_heights {board : Board} (hh : heights board = hexHeights) :
    HexShaped board := by
  have hlen : board.length = 11 := by
    rw [← heights_length, hh]
    rfl
  intro c hc
  rw [hlen] at hc
  have hc2 : c < 10 := by simpa using hc
  rw [← getD_heights, ← getD_heights, hh]
  interval_cases c <;> simp [hexHeights]

/-- C13. Adjacency size and irreflexivity: for every board and every in-bounds
coordinate, `neighbors` completes, returns at most 6 coordinates, and none of
them is the input coordinate. -/
theorem neighbors_size_irreflexive (board : Board) (pos : Pos) (hin : inBounds board pos) :
    ∃ nbs, neighbors board pos = Except.ok nbs ∧ nbs.length ≤ 6 ∧ pos ∉ nbs := by
  obtain ⟨column, line⟩ := pos
  exact ⟨_, neighbors_eq hin.1 hin.2.2.1, neighborsOf_length_le _ _,
    not_mem_neighborsOf_self _ _⟩

/-- C13 at the coordinate `(5,4)` of the hexagonal board, which has six
neighbours. -/
theorem neighbors_size_irreflexive_witness :
    (∃ nbs, neighbors hexBoard (5, 4) = Except.ok nbs ∧ nbs.length ≤ 6 ∧
      ((5, 4) : Pos) ∉ nbs) ∧
    neighbors hexBoard (5, 4) =
      Except.ok [(5, 5), (4, 4), (4, 3), (5, 3), (6, 3), (6, 4)] :=
  ⟨neighbors_size_irreflexive hexBoard (5, 4) (by decide), rfl⟩

/-- C19. On every board with the column heights 5, 6, 7, 8, 9, 10, 9, 8, 7, 6,
5 and for every in-bounds coordinate, `neighbors` completes and returns each
of its six direction candidates if and only if that candidate is in-bounds;
so every returned coordinate is in-bounds and `heuristic` completes without
an out-of-range access. -/
theorem neighbors_hex_exact (board : Board) (pos : Pos) (hh : heights board = hexHeights)
    (hin : inBounds board pos) :
    ∃ nbs, neighbors board pos = Except.ok nbs ∧
      (∀ q ∈ candidates pos, (q ∈ nbs ↔ inBounds board q)) ∧
      (∀ q ∈ nbs, inBounds board q) ∧
      ∃ v, heuristic board pos = Except.ok v := by
  have hhex := HexShaped_of_heights hh
  have hall := neighborsOf_inBounds hhex hin
  have hex := neighborsOf_exact hhex hin
  obtain ⟨column, line⟩ := pos
  have hn : neighbors board (column, line) = _ := neighbors_eq hin.1 hin.2.2.1
  exact ⟨_, hn, hex, hall, _, heuristic_eq hn hall⟩

/-- C19 at the corner `(10,4)` of the hexagonal board: only three of the six
candidates are in-bounds, and these are returned. -/
theorem neighbors_hex_exact_witness :
    (∃ nbs, neighbors hexBoard (10, 4) = Except.ok nbs ∧
      (∀ q ∈ candidates (10, 4), (q ∈ nbs ↔ inBounds hexBoard q)) ∧
      (∀ q ∈ nbs, inBounds hexBoard q) ∧
      ∃ v, heuristic hexBoard (10, 4) = Except.ok v) ∧
    neighbors hexBoard (10, 4) = Except.ok [(9, 5), (9, 4), (10, 3)] ∧
    heuristic hexBoard (10, 4) = Except.ok 30 :=
  ⟨neighbors_hex_exact hexBoard (10, 4) rfl (by decide), rfl, rfl⟩

/-- C20. Adjacency is symmetric on every board with the column heights 5, 6,
7, 8, 9, 10, 9, 8, 7, 6, 5: for in-bounds `p` and `q`, `q` is among the
neighbours of `p` if and only if `p` is among the neighbours of `q`. -/
theorem neighbors_hex_symmetric (board : Board) (p q : Pos) (hh : heights board = hexHeights)
    (hp : inBounds board p) (hq : inBounds board q) :
    ∃ np nq, neighbors board p = Except.ok np ∧ neighbors board q = Except.ok nq ∧
      (q ∈ np ↔ p ∈ nq) := by
  have hhex := HexShaped_of_heights hh
  have key : ∀ a b : Pos, inBounds board a → inBounds board b →
      b ∈ neighborsOf (heights board) a → a ∈ neighborsOf (heights board) b := by
    intro a b ha hb hmem
    have hc := candidates_symm (mem_candidates_of_mem_neighborsOf hmem)
    exact (neighborsOf_exact hhex hb a hc).mpr ha
  obtain ⟨pc, pl⟩ := p
  obtain ⟨qc, ql⟩ := q
  exact ⟨_, _, neighbors_eq hp.1 hp.2.2.1, neighbors_eq hq.1 hq.2.2.1,
    key _ _ hp hq, key _ _ hq hp⟩

/-- C20 at the coordinates `(5,9)` and `(6,8)`, on either side of the pivots. -/
theorem neighbors_hex_symmetric_witness :
    (∃ np nq, neighbors hexBoard (5, 9) = Except.ok np ∧
      neighbors hexBoard (6, 8) = Except.ok nq ∧ (((6, 8) : Pos) ∈ np ↔ ((5, 9) : Pos) ∈ nq)) ∧
    neighbors hexBoard (5, 9) = Except.ok [(4, 8), (5, 8), (6, 8)] ∧
    neighbors hexBoard (6, 8) = Except.ok [(5, 9), (5, 8), (6, 7), (7, 7)] :=
  ⟨neighbors_hex_symmetric hexBoard (5, 9) (6, 8) rfl (by decide) (by decide), rfl, rfl⟩

/-! ## Applying and reverting a move -/

theorem cellAt_setCell_self {board b1 : Board} {m : Pos} {v : Int}
    (h : setCell board m v = Except.ok b1) : cellAt b1 m = Except.ok v := by
  obtain ⟨col, h1, h2, h3, h4, hb⟩ := setCell_eq_ok h
  obtain ⟨h5, _⟩ := List.getElem?_eq_some_iff.mp h2
  subst hb
  unfold cellAt
  rw [indexAt_ok_of h1 (List.getElem?_set_self h5)]
  exact indexAt_ok_of h3 (List.getElem?_set_self h4)

theorem cellAt_setCell_ne {board b1 : Board} {m q : Pos} {v : Int}
    (h : setCell board m v = Except.ok b1) (hne : q ≠ m) : cellAt b1 q = cellAt board q := by
  obtain ⟨col, h1, h2, h3, h4, hb⟩ := setCell_eq_ok h
  obtain ⟨h5, _⟩ := List.getElem?_eq_some_iff.mp h2
  subst hb
  unfold cellAt indexAt
  by_cases hq1 : q.1 < 0
  · simp [hq1, bind, Except.bind]
  · simp only [hq1, if_false]
    by_cases hj : m.1.toNat = q.1.toNat
    · rw [← hj, List.getElem?_set_self h5, h2]
      simp only [bind, Except.bind]
      by_cases hq2 : q.2 < 0
      · simp [hq2]
      · have hi : m.2.toNat ≠ q.2.toNat := by
          intro hi
          apply hne
          apply Prod.ext <;> omega
        simp only [hq2, if_false]
        rw [List.getElem?_set_ne hi]
    · rw [List.getElem?_set_ne hj]

/-- C14. Apply/revert round trip: for an in-bounds coordinate `m`, `doMove`
completes, sets the cell `m` to `player` and leaves every other cell and the
column heights unchanged; `undoMove` completes, sets the cell `m` to 0 and
leaves every other cell unchanged, on the board after the move as on the
given board; and if the cell `m` was empty, `undoMove` after `doMove` gives
the given board back. -/
theorem doMove_undoMove (board : Board) (player : Int) (m : Pos) (hin : inBounds board m) :
    ∃ b1 b2 b3,
      doMove board player m = Except.ok b1 ∧ cellAt b1 m = Except.ok player ∧
      (∀ q, q ≠ m → cellAt b1 q = cellAt board q) ∧ heights b1 = heights board ∧
      undoMove b1 m = Except.ok b2 ∧ cellAt b2 m = Except.ok 0 ∧
      (∀ q, q ≠ m → cellAt b2 q = cellAt b1 q) ∧
      undoMove board m = Except.ok b3 ∧ cellAt b3 m = Except.ok 0 ∧
      (∀ q, q ≠ m → cellAt b3 q = cellAt board q) ∧
      (cellAt board m = Except.ok 0 → b2 = board) := by
  obtain ⟨b1, hb1⟩ := setCell_ok_of_inBounds player hin
  have hin1 : inBounds b1 m := (inBounds_of_heights_eq (setCell_shape hb1).1 _).mpr hin
  obtain ⟨b2, hb2⟩ := setCell_ok_of_inBounds 0 hin1
  obtain ⟨b3, hb3⟩ := setCell_ok_of_inBounds 0 hin
  exact ⟨b1, b2, b3, hb1, cellAt_setCell_self hb1, fun q hq => cellAt_setCell_ne hb1 hq,
    (setCell_shape hb1).1, hb2, cellAt_setCell_self hb2, fun q hq => cellAt_setCell_ne hb2 hq,
    hb3, cellAt_setCell_self hb3, fun q hq => cellAt_setCell_ne hb3 hq,
    fun h0 => setCell_undo h0 hb1 hb2⟩

/-- C14 at the board `[[0,1],[0,0]]`, player 2 and the empty cell `(1,0)`. -/
theorem doMove_undoMove_witness :
    (∃ b1 b2 b3,
      doMove [[0, 1], [0, 0]] 2 (1, 0) = Except.ok b1 ∧ cellAt b1 (1, 0) = Except.ok 2 ∧
      (∀ q, q ≠ (1, 0) → cellAt b1 q = cellAt [[0, 1], [0, 0]] q) ∧
      heights b1 = heights [[0, 1], [0, 0]] ∧
      undoMove b1 (1, 0) = Except.ok b2 ∧ cellAt b2 (1, 0) = Except.ok 0 ∧
      (∀ q, q ≠ (1, 0) → cellAt b2 q = cellAt b1 q) ∧
      undoMove [[0, 1], [0, 0]] (1, 0) = Except.ok b3 ∧ cellAt b3 (1, 0) = Except.ok 0 ∧
      (∀ q, q ≠ (1, 0) → cellAt b3 q = cellAt [[0, 1], [0, 0]] q) ∧
      (cellAt [[0, 1], [0, 0]] (1, 0) = Except.ok 0 → b2 = [[0, 1], [0, 0]])) ∧
    doMove [[0, 1], [0, 0]] 2 (1, 0) = Except.ok [[0, 1], [2, 0]] ∧
    undoMove [[0, 1], [2, 0]] (1, 0) = Except.ok [[0, 1], [0, 0]] :=
  ⟨doMove_undoMove [[0, 1], [0, 0]] 2 (1, 0) (by decide), rfl, rfl⟩

/-! ## The order of generation -/

theorem emptyCellsCol_sorted (k_col : Nat) :
    ∀ (cells : List Int) (k_cell : Nat),
      (emptyCellsCol k_col cells k_cell).Pairwise scanBefore := by
  intro cells
  induction cells with
  | nil => intro k_cell; simp [emptyCellsCol]
  | cons cell rest ih =>
    intro k_cell
    unfold emptyCellsCol
    split
    · rw [List.pairwise_cons]
      refine ⟨?_, ih _⟩
      intro p hp
      obtain ⟨h1, i, hi, _⟩ := (mem_emptyCellsCol rest (k_cell + 1) p).mp hp
      right
      simp only
      constructor
      · exact h1.symm
      · rw [hi]
        push_cast
        omega
    · exact ih _

theorem emptyCellsFrom_sorted :
    ∀ (cols : List (List Int)) (k_col : Nat), (emptyCellsFrom cols k_col).Pairwise scanBefore := by
  intro cols
  induction cols with
  | nil => intro k_col; simp [emptyCellsFrom]
  | cons col rest ih =>
    intro k_col
    unfold emptyCellsFrom
    rw [List.pairwise_append]
    refine ⟨emptyCellsCol_sorted _ _ _, ih _, ?_⟩
    intro p hp q hq
    obtain ⟨h1, _⟩ := (mem_emptyCellsCol col 0 p).mp hp
    obtain ⟨j, _, h2, _⟩ := (mem_emptyCellsFrom rest (k_col + 1) q).mp hq
    left
    rw [h1, h2]
    push_cast
    omega

/-- The list of the empty cells is in scan order. -/
theorem emptyCells_sorted (board : Board) : (emptyCells board).Pairwise scanBefore :=
  emptyCellsFrom_sorted board 0

theorem generateCells_ok_false (board : Board) (k_col : Nat) :
    ∀ (cells : List Int) (k_cell : Nat) (node : Node) (next : Nat),
      ∃ g, generateCells board false k_col cells k_cell node next = Except.ok g := by
  intro cells
  induction cells with
  | nil =>
    intro k_cell node next
    exact ⟨(node, next), rfl⟩
  | cons cell rest ih =>
    intro k_cell node next
    unfold generateCells
    split
    · simp only [Bool.false_eq_true, if_false]
      exact ih _ _ _
    · exact ih _ _ _

theorem generateCols_ok_false {board : Board} :
    ∀ (cols : List (List Int)) (k_col : Nat) (node : Node) (next : Nat),
      ∃ g, generateCols board false cols k_col node next = Except.ok g := by
  intro cols
  induction cols with
  | nil =>
    intro k_col node next
    exact ⟨(node, next), rfl⟩
  | cons col rest ih =>
    intro k_col node next
    unfold generateCols
    obtain ⟨r, hr⟩ := generateCells_ok_false board k_col col 0 node next
    rw [hr]
    exact ih _ _ _

/-- Generation of unscored children always completes. -/
theorem generateChildMoves_ok_false (node : Node) (board : Board) (next : Nat) (player : Int) :
    ∃ g, node.generateChildMoves board next player false = Except.ok g :=
  generateCols_ok_false _ _ _ _

/-- The children that a completed call of `Evaluate` leaves in a childless
node have the empty cells of the board as their moves, in scan order. -/
theorem EvaluateAux_moves {fuel : Nat} {node : Node} {board : Board} {next : Nat}
    {plies player : Int} {r : Node × Board × Nat} (hnode : node.children = [])
    (h : EvaluateAux fuel node board next plies player = Except.ok r) :
    r.1.children.map Node.Movement = emptyCells board := by
  cases fuel with
  | zero => simp [EvaluateAux_zero] at h
  | succ fuel =>
    obtain ⟨g, t, hg, ht, hr⟩ := EvaluateAux_succ_ok h
    obtain ⟨kids, hg1, hmv, hgen⟩ := generateChildMoves_eq_ok hg
    have hkids : g.1.children = kids := by rw [hg1, hnode]; rfl
    rw [hkids] at ht
    have hfr := evalChildren_frame
      (fun cn b n p r hcn hr => EvaluateAux_frame fuel cn b n (plies - 1) p r hcn hr)
      kids g.1.Score g.2 player t
      (fun c hc => ⟨(Generated_children _ _ _ hgen c hc).1, by
        apply mem_emptyCells.mp
        rw [← hmv]
        exact List.mem_map_of_mem _ hc⟩) ht
    rw [hr]
    show t.1.map Node.Movement = emptyCells board
    rw [hfr.2.1, hmv]

/-- C12. Children are generated one per empty cell in scan order: when
`generateChildMoves` completes on a node without children, the moves of the
node's children are the coordinates of the cells holding 0, each once, by
ascending outer index and, within it, ascending inner index; every child has
no children of its own.  Without `eval` the generation always completes.
`Evaluate`, when it completes, leaves the same moves in the evaluated node and
gives the board back.  (Generation only reads the board.) -/
theorem generateChildMoves_scan_order (node : Node) (board : Board) (next : Nat)
    (player : Int) (eval : Bool) (g : Node × Nat) (hnode : node.children = [])
    (h : node.generateChildMoves board next player eval = Except.ok g) :
    g.1.children.map Node.Movement = emptyCells board ∧
      (∀ p, p ∈ g.1.children.map Node.Movement ↔ cellAt board p = Except.ok 0) ∧
      (g.1.children.map Node.Movement).Pairwise scanBefore ∧
      (g.1.children.map Node.Movement).Nodup ∧
      (∀ c ∈ g.1.children, c.children = []) ∧
      (∃ g0, node.generateChildMoves board next player false = Except.ok g0) ∧
      (∀ plies r, node.Evaluate board next plies player = Except.ok r →
        r.1.children.map Node.Movement = emptyCells board ∧ r.2.1 = board) := by
  obtain ⟨kids, hg1, hmv, hgen⟩ := generateChildMoves_eq_ok h
  have hkids : g.1.children = kids := by rw [hg1, hnode]; rfl
  rw [hkids, hmv]
  refine ⟨rfl, fun p => mem_emptyCells, emptyCells_sorted board, emptyCells_nodup board,
    fun c hc => (Generated_children _ _ _ hgen c hc).1,
    generateChildMoves_ok_false node board next player, ?_⟩
  intro plies r hr
  exact ⟨EvaluateAux_moves hnode hr, (EvaluateAux_frame _ _ _ _ _ _ _ hnode hr).1⟩

/-- C12 at the board `[[0,1],[0,0]]`: the moves are `(0,0)`, `(1,0)`,
`(1,1)`. -/
theorem generateChildMoves_scan_order_witness :
    ∃ g, NewNode.generateChildMoves [[0, 1], [0, 0]] 0 1 false = Except.ok g ∧
      g.1.children.map Node.Movement = [(0, 0), (1, 0), (1, 1)] ∧
      (g.1.children.map Node.Movement = emptyCells [[0, 1], [0, 0]] ∧
      (∀ p, p ∈ g.1.children.map Node.Movement ↔
        cellAt [[0, 1], [0, 0]] p = Except.ok 0) ∧
      (g.1.children.map Node.Movement).Pairwise scanBefore ∧
      (g.1.children.map Node.Movement).Nodup ∧
      (∀ c ∈ g.1.children, c.children = []) ∧
      (∃ g0, NewNode.generateChildMoves [[0, 1], [0, 0]] 0 1 false = Except.ok g0) ∧
      (∀ plies r, NewNode.Evaluate [[0, 1], [0, 0]] 0 plies 1 = Except.ok r →
        r.1.children.map Node.Movement = emptyCells [[0, 1], [0, 0]] ∧
          r.2.1 = [[0, 1], [0, 0]])) :=
  ⟨_, rfl, rfl, generateChildMoves_scan_order NewNode [[0, 1], [0, 0]] 0 1 false _ rfl rfl⟩

/-! ## Reading an absent score -/

/-- C11, counterexample. On the board `[[0]]` with `plies = 1` and player 1,
`Evaluate` reads the absent score of the root's only child in line 70 and
completes, leaving the root and the child without a score; `GetBestChildNode`
on the root then returns that child (line 38 compares pointers, see C5). -/
theorem GetBestChildNode_absent_score :
    (NewNode.Evaluate [[0]] 0 1 1).map
        (fun r => (r.1.Score, r.1.children.map Node.Score,
          r.1.GetBestChildNode.map Node.Movement)) =
      Except.ok (none, [none], some (0, 0)) :=
  rfl

theorem ptrEq_none (s : Option ScoreRef) : ptrEq s none = s.isNone := by
  cases s <;> rfl

/-- C11, amended. Only a dereference fails on an absent score, and this in the
propagation of `Evaluate` (lines 69-75): a parent without a score takes over
the child's score, present or absent, without a fault, so the loop over an
unscored child completes and leaves the parent unscored; a child without a
score under a parent with a score is dereferenced, and the loop stops with a
nil dereference as soon as the child's move is on the board. -/
theorem absent_score_propagation (ps : ScoreRef) (cn : Node) (hcn : cn.Score = none) :
    propagate none cn = Except.ok none ∧
      (∀ c, propagate none c = Except.ok c.Score) ∧
      propagate (some ps) cn = Except.error Fault.nilDeref ∧
      (∀ recur board next player, cellAt board cn.Movement = Except.ok 0 →
        evalChildren recur 0 [cn] none board next player =
          Except.ok ([cn], none, board, next)) ∧
      (∀ recur rest board next player, inBounds board cn.Movement →
        evalChildren recur 0 (cn :: rest) (some ps) board next player =
          Except.error Fault.nilDeref) := by
  have hnil : propagate (some ps) cn = Except.error Fault.nilDeref := by
    unfold propagate
    simp only [hcn]
  refine ⟨by rw [propagate_none, hcn], propagate_none, hnil, ?_, ?_⟩
  · intro recur board next player hcell
    have hin := (inBounds_of_cellAt hcell).1
    obtain ⟨b1, hb1⟩ := setCell_ok_of_inBounds player hin
    have hin1 : inBounds b1 cn.Movement :=
      (inBounds_of_heights_eq (setCell_shape hb1).1 _).mpr hin
    obtain ⟨b2, hb2⟩ := setCell_ok_of_inBounds 0 hin1
    have hb : b2 = board := setCell_undo hcell hb1 hb2
    subst hb
    simp only [evalChildren, doMove, undoMove, descend, ne_eq, not_true_eq_false, if_false,
      hb1, bind, Except.bind, pure, Except.pure, propagate_none, hcn, hb2]
  · intro recur rest board next player hin
    obtain ⟨b1, hb1⟩ := setCell_ok_of_inBounds player hin
    unfold evalChildren
    simp only [doMove, descend, ne_eq, not_true_eq_false, if_false, hb1, bind, Except.bind,
      pure, Except.pure, hnil]

/-- C11, amended, at an unscored child with the move `(0,0)` and a parent
score 5. -/
theorem absent_score_propagation_witness :
    propagate none (Node.mk none [] true (0, 0)) = Except.ok none ∧
      (∀ c, propagate none c = Except.ok c.Score) ∧
      propagate (some (ScoreRef.mk 0 5)) (Node.mk none [] true (0, 0)) =
        Except.error Fault.nilDeref ∧
      (∀ recur board next player,
        cellAt board (Node.mk none [] true (0, 0)).Movement = Except.ok 0 →
        evalChildren recur 0 [Node.mk none [] true (0, 0)] none board next player =
          Except.ok ([Node.mk none [] true (0, 0)], none, board, next)) ∧
      (∀ recur rest board next player,
        inBounds board (Node.mk none [] true (0, 0)).Movement →
        evalChildren recur 0 (Node.mk none [] true (0, 0) :: rest) (some (ScoreRef.mk 0 5))
            board next player =
          Except.error Fault.nilDeref) :=
  absent_score_propagation (ScoreRef.mk 0 5) (Node.mk none [] true (0, 0)) rfl

/-! ## Construction of nodes -/

/-- C15. Node construction: `AddTerminal(score, move)` appends at the end of
the node's children, and returns, a child holding that score (at a new
address), that move and no children; `Add(move)` does the same with an absent
score; the node's earlier children, its score, its flag and its move are
unchanged.  On the level of addresses, `add` stores the receiver's address as
the child's parent, gives the child the negated flag, appends the child's new
address to the receiver's children and changes no other node. -/
theorem add_appends_child (store : Store) (a : Nat) (n : Cell) (sc : Option ScoreRef)
    (node : Node) (next : Nat) (score : Int) (movement : Pos) (hn : store[a]? = some n) :
    (node.AddTerminal next score movement).1.1 =
        Node.mk node.Score (node.children ++ [(node.AddTerminal next score movement).1.2])
          node.isOpponent node.Movement ∧
      (node.AddTerminal next score movement).1.2 =
        Node.mk (some (ScoreRef.mk next score)) [] (!node.isOpponent) movement ∧
      (node.AddTerminal next score movement).2 = next + 1 ∧
      (node.Add movement).1 =
        Node.mk node.Score (node.children ++ [(node.Add movement).2]) node.isOpponent
          node.Movement ∧
      (node.Add movement).2 = Node.mk none [] (!node.isOpponent) movement ∧
      ∃ store1 child, addAt store a sc movement = Except.ok (store1, child) ∧
        child = store.length ∧
        store1[child]? = some
          { Score := sc, parent := some a, children := [], isOpponent := !n.isOpponent,
            Movement := movement } ∧
        store1[a]? = some { n with children := n.children ++ [child] } ∧
        ∀ b, b ≠ a → b < store.length → store1[b]? = store[b]? := by
  refine ⟨rfl, rfl, rfl, rfl, rfl, ?_⟩
  obtain ⟨ha, _⟩ := List.getElem?_eq_some_iff.mp hn
  have hadd : addAt store a sc movement =
      Except.ok ((store.set a { n with children := n.children ++ [store.length] }) ++
        [{ Score := sc, parent := some a, children := [], isOpponent := !n.isOpponent,
            Movement := movement }],
        store.length) := by
    simp only [addAt, hn]
  refine ⟨_, _, hadd, rfl, ?_, ?_, ?_⟩
  · rw [List.getElem?_append_right (by simp)]
    simp
  · rw [List.getElem?_append_left (by simpa using ha)]
    exact List.getElem?_set_self ha
  · intro b hb hlt
    rw [List.getElem?_append_left (by simpa using hlt)]
    exact List.getElem?_set_ne (Ne.symm hb)

/-- C15 at a store holding only the new root, and at the tree `NewNode`. -/
theorem add_appends_child_witness :
    (NewNode.AddTerminal 0 7 (0, 1)).1.1 =
        Node.mk NewNode.Score (NewNode.children ++ [(NewNode.AddTerminal 0 7 (0, 1)).1.2])
          NewNode.isOpponent NewNode.Movement ∧
      (NewNode.AddTerminal 0 7 (0, 1)).1.2 =
        Node.mk (some (ScoreRef.mk 0 7)) [] (!NewNode.isOpponent) (0, 1) ∧
      (NewNode.AddTerminal 0 7 (0, 1)).2 = 0 + 1 ∧
      (NewNode.Add (0, 1)).1 =
        Node.mk NewNode.Score (NewNode.children ++ [(NewNode.Add (0, 1)).2]) NewNode.isOpponent
          NewNode.Movement ∧
      (NewNode.Add (0, 1)).2 = Node.mk none [] (!NewNode.isOpponent) (0, 1) ∧
      ∃ store1 child,
        addAt [Cell.mk none none [] false (0, 0)] 0 none (0, 1) = Except.ok (store1, child) ∧
        child = [Cell.mk none none [] false (0, 0)].length ∧
        store1[child]? = some
          { Score := none, parent := some 0, children := [],
            isOpponent := !(Cell.mk none none [] false (0, 0)).isOpponent,
            Movement := (0, 1) } ∧
        store1[0]? = some { Cell.mk none none [] false (0, 0) with
          children := (Cell.mk none none [] false (0, 0)).children ++ [child] } ∧
        ∀ b, b ≠ 0 → b < [Cell.mk none none [] false (0, 0)].length →
          store1[b]? = [Cell.mk none none [] false (0, 0)][b]? :=
  add_appends_child [Cell.mk none none [] false (0, 0)] 0 (Cell.mk none none [] false (0, 0))
    none NewNode 0 7 (0, 1) rfl

/-! ## The number of empty cells -/

theorem emptyCellsCol_length (k_col : Nat) :
    ∀ (cells : List Int) (k_cell : Nat),
      (emptyCellsCol k_col cells k_cell).length = cells.count 0 := by
  intro cells
  induction cells with
  | nil => intro k_cell; simp [emptyCellsCol]
  | cons cell rest ih =>
    intro k_cell
    unfold emptyCellsCol
    by_cases hc : cell = 0
    · rw [if_pos hc, List.length_cons, ih, hc, List.count_cons_self]
    · rw [if_neg hc, ih, List.count_cons_of_ne (fun h => hc h.symm)]

theorem emptyCellsFrom_length :
    ∀ (cols : List (List Int)) (k_col : Nat),
      (emptyCellsFrom cols k_col).length = countEmpty cols := by
  intro cols
  induction cols with
  | nil => intro k_col; simp [emptyCellsFrom, countEmpty]
  | cons col rest ih =>
    intro k_col
    unfold emptyCellsFrom
    rw [List.length_append, emptyCellsCol_length, ih]
    simp [countEmpty]

/-- There are as many listed empty cells as cells holding 0. -/
theorem emptyCells_length (board : Board) : (emptyCells board).length = countEmpty board :=
  emptyCellsFrom_length board 0

/-! ## The degenerate case: no legal move before the final ply -/

/-- The loop of `Evaluate` below the final ply, when every recursive call
completes without scores: it completes, leaves the node without a score,
allocates nothing and gives the board back. -/
theorem evalChildren_degenerate
    (recur : Node → Board → Nat → Int → Except Fault (Node × Board × Nat)) {plies : Int}
    {board : Board} (hp : plies ≠ 0)
    (hrec : ∀ cn b n p, cn.children = [] → cn.Score = none →
      countEmpty b + 1 = countEmpty board → (p = 1 ∨ p = 2) →
      ∃ r, recur cn b n p = Except.ok r ∧ r.2.1 = b ∧ r.2.2 = n ∧
        r.1.Movement = cn.Movement ∧ ∀ x, Node.InTree x r.1 → x.Score = none) :
    ∀ (cs : List Node) (next : Nat) (player : Int),
      (∀ c ∈ cs, c.children = [] ∧ c.Score = none ∧ cellAt board c.Movement = Except.ok 0) →
      (player = 1 ∨ player = 2) →
      ∃ t, evalChildren recur plies cs none board next player = Except.ok t ∧
        t.2.1 = none ∧ t.2.2.1 = board ∧ t.2.2.2 = next ∧ t.1.length = cs.length ∧
        ∀ c ∈ t.1, ∀ x, Node.InTree x c → x.Score = none := by
  intro cs
  induction cs with
  | nil =>
    intro next player _ _
    exact ⟨_, rfl, rfl, rfl, rfl, rfl, by simp⟩
  | cons cn rest ih =>
    intro next player hcs hpl
    obtain ⟨hcn, hsc, hcell⟩ := hcs cn (List.mem_cons_self _ _)
    have hin := (inBounds_of_cellAt hcell).1
    obtain ⟨b1, hb1⟩ := setCell_ok_of_inBounds player hin
    have hv : player ≠ 0 := by rcases hpl with h1 | h1 <;> simp [h1]
    have hp1 : (if player = 1 then (2 : Int) else 1) = 1 ∨
        (if player = 1 then (2 : Int) else 1) = 2 := by
      by_cases h1 : player = 1
      · right; simp [h1]
      · left; simp [h1]
    obtain ⟨r, hr, hrb, hrn, hrm, hrs⟩ := hrec cn b1 next _ hcn hsc
      (countEmpty_setCell hcell hv hb1) hp1
    have hin1 : inBounds b1 cn.Movement :=
      (inBounds_of_heights_eq (setCell_shape hb1).1 _).mpr hin
    obtain ⟨b2, hb2⟩ := setCell_ok_of_inBounds 0 hin1
    have hb : b2 = board := setCell_undo hcell hb1 hb2
    subst hb
    obtain ⟨t, ht, ht1, ht2, ht3, ht4, ht5⟩ := ih next _
      (fun c hc => hcs c (List.mem_cons_of_mem _ hc)) hp1
    have hrscore : r.1.Score = none := hrs _ (Node.InTree.root _)
    refine ⟨(r.1 :: t.1, t.2), ?_, ht1, ht2, ht3, by simp [ht4], ?_⟩
    · unfold evalChildren
      simp only [doMove, undoMove, descend, hb1, bind, Except.bind, ne_eq, hp,
        not_false_eq_true, if_true, hr, pure, Except.pure, propagate_none, hrm, hrb, hb2,
        hrscore, hrn, ht]
    · intro c hc x hx
      rcases List.mem_cons.mp hc with hc | hc
      · subst hc
        exact hrs x hx
      · exact ht5 c hc x hx

/-- With no more empty cells than plies, a call of `Evaluate` on a childless,
unscored node completes, gives the board back, allocates nothing and leaves
every node without a score. -/
theorem EvaluateAux_degenerate :
    ∀ (fuel : Nat) (node : Node) (board : Board) (next : Nat) (plies player : Int),
      node.children = [] → node.Score = none → (countEmpty board : Int) ≤ plies →
      plies < (fuel : Int) → (player = 1 ∨ player = 2) →
      ∃ r, EvaluateAux fuel node board next plies player = Except.ok r ∧ r.2.1 = board ∧
        r.2.2 = next ∧ r.1.Movement = node.Movement ∧
        r.1.children.length = countEmpty board ∧
        ∀ x, Node.InTree x r.1 → x.Score = none := by
  intro fuel
  induction fuel with
  | zero =>
    intro node board next plies player _ _ hk hlt _
    simp only [Nat.cast_zero] at hlt
    omega
  | succ fuel ih =>
    intro node board next plies player hnode hscore hk hlt hpl
    by_cases hp : plies = 0
    · subst hp
      have hk0 : countEmpty board = 0 := by omega
      have hempty : emptyCells board = [] := by
        apply List.eq_nil_of_length_eq_zero
        rw [emptyCells_length, hk0]
      obtain ⟨g, hg⟩ := generateChildMoves_ok_of node next player (decide ((0 : Int) = 0))
        (fun p hp => by rw [hempty] at hp; simp at hp)
      obtain ⟨kids, hg1, hmv, hgen⟩ := generateChildMoves_eq_ok hg
      have hkids : kids = [] := by
        rw [hempty] at hmv
        exact List.map_eq_nil_iff.mp hmv
      subst hkids
      simp only [Generated] at hgen
      have hgc : g.1.children = [] := by rw [hg1, hnode]; rfl
      have hgs : g.1.Score = none := by rw [hg1]; exact hscore
      have hgm : g.1.Movement = node.Movement := by rw [hg1]; rfl
      have ht : evalChildren (fun cn b n p => EvaluateAux fuel cn b n (0 - 1) p) 0
          g.1.children g.1.Score board g.2 player = Except.ok ([], none, board, g.2) := by
        rw [hgc, hgs]
        rfl
      refine ⟨_, EvaluateAux_succ_of hg ht, rfl, hgen, hgm, ?_, ?_⟩
      · show ([] : List Node).length = countEmpty board
        rw [hk0]
        rfl
      · intro x hx
        have hx2 : x = Node.mk none [] g.1.isOpponent g.1.Movement := InTree_leaf rfl hx
        rw [hx2]
        rfl
    · have hd : decide (plies = 0) = false := by simp [hp]
      obtain ⟨g, hg⟩ := generateChildMoves_ok_false node board next player
      obtain ⟨kids, hg1, hmv, hgen⟩ := generateChildMoves_eq_ok hg
      obtain ⟨hg2, hunscored⟩ := Generated_unscored _ _ _ hgen
      have hgc : g.1.children = kids := by rw [hg1, hnode]; rfl
      have hgs : g.1.Score = none := by rw [hg1]; exact hscore
      have hgm : g.1.Movement = node.Movement := by rw [hg1]; rfl
      have hcell : ∀ c ∈ kids, cellAt board c.Movement = Except.ok 0 := by
        intro c hc
        apply mem_emptyCells.mp
        rw [← hmv]
        exact List.mem_map_of_mem _ hc
      obtain ⟨t, ht, ht1, ht2, ht3, ht4, ht5⟩ := evalChildren_degenerate
        (fun cn b n p => EvaluateAux fuel cn b n (plies - 1) p) hp
        (fun cn b n p hcn hsc hcount hp1 => by
          obtain ⟨r, hr, h1, h2, h3, _, h5⟩ := ih cn b n (plies - 1) p hcn hsc (by omega)
            (by push_cast at hlt; omega) hp1
          exact ⟨r, hr, h1, h2, h3, h5⟩)
        kids g.2 player
        (fun c hc => ⟨(Generated_children _ _ _ hgen c hc).1, hunscored c hc, hcell c hc⟩) hpl
      rw [← hgc, ← hgs] at ht
      rw [← hd] at hg
      refine ⟨_, EvaluateAux_succ_of hg ht, ht2, by rw [ht3, hg2], hgm, ?_, ?_⟩
      · show t.1.length = countEmpty board
        rw [ht4, ← emptyCells_length, ← hmv, List.length_map]
      · intro x hx
        rcases InTree_mk hx with hx | ⟨c, hc, hx⟩
        · rw [hx]
          exact ht1
        · exact ht5 c hc x hx

/-- C17. Degenerate no-legal-move case: for a board with `k` empty cells, a
ply budget `plies >= k`, a player 1 or 2 and a new root, `Evaluate` completes
(no absent score is dereferenced, no index is out of range), gives the board
back, and every node of the tree, the root included, has an absent score; the
root has `k` children, none on a full board. -/
theorem Evaluate_degenerate (board : Board) (next : Nat) (plies player : Int)
    (hk : (countEmpty board : Int) ≤ plies) (hpl : player = 1 ∨ player = 2) :
    ∃ r, NewNode.Evaluate board next plies player = Except.ok r ∧ r.2.1 = board ∧
      (∀ n, Node.InTree n r.1 → n.Score = none) ∧
      r.1.children.length = countEmpty board ∧
      (countEmpty board = 0 → r.1.children = []) := by
  obtain ⟨r, hr, h1, _, _, h4, h5⟩ := EvaluateAux_degenerate
    (plies.toNat + cellCount board + 2) NewNode board next plies player rfl rfl hk
    (by push_cast; omega) hpl
  refine ⟨r, hr, h1, h5, h4, ?_⟩
  intro h0
  apply List.eq_nil_of_length_eq_zero
  rw [h4, h0]

/-- C17 at the board `[[0,1]]` with one empty cell and `plies = 1`, and at the
full board `[[1,2]]`. -/
theorem Evaluate_degenerate_witness :
    (∃ r, NewNode.Evaluate [[0, 1]] 0 1 1 = Except.ok r ∧ r.2.1 = [[0, 1]] ∧
      (∀ n, Node.InTree n r.1 → n.Score = none) ∧
      r.1.children.length = countEmpty [[0, 1]] ∧
      (countEmpty [[0, 1]] = 0 → r.1.children = [])) ∧
    NewNode.Evaluate [[0, 1]] 0 1 1 =
      Except.ok (Node.mk none [Node.mk none [] true (0, 0)] false (0, 0), [[0, 1]], 0) ∧
    NewNode.Evaluate [[1, 2]] 0 0 1 = Except.ok (Node.mk none [] false (0, 0), [[1, 2]], 0) :=
  ⟨Evaluate_degenerate [[0, 1]] 0 1 1 (by decide) (Or.inl rfl), rfl, rfl⟩

/-! ## Full-width expansion -/

/-- Below the final ply, every child that the loop of `Evaluate` leaves has a
property `Q` that the recursive call establishes on every childless, unscored
node evaluated on a board with one empty cell less. -/
theorem evalChildren_forall
    {recur : Node → Board → Nat → Int → Except Fault (Node × Board × Nat)} {plies : Int}
    {board : Board} {Q : Node → Prop} (hp : plies ≠ 0)
    (hframe : ∀ cn b n p r, cn.children = [] → recur cn b n p = Except.ok r →
      r.2.1 = b ∧ r.1.Movement = cn.Movement ∧ r.1.isOpponent = cn.isOpponent)
    (hrec : ∀ cn b n p r, cn.children = [] → cn.Score = none →
      countEmpty b + 1 = countEmpty board → (p = 1 ∨ p = 2) →
      recur cn b n p = Except.ok r → Q r.1) :
    ∀ (cs : List Node) (score : Option ScoreRef) (next : Nat) (player : Int)
      (t : List Node × Option ScoreRef × Board × Nat),
      (∀ c ∈ cs, c.children = [] ∧ c.Score = none ∧ cellAt board c.Movement = Except.ok 0) →
      (player = 1 ∨ player = 2) →
      evalChildren recur plies cs score board next player = Except.ok t →
      t.1.length = cs.length ∧ ∀ c ∈ t.1, Q c := by
  intro cs
  induction cs with
  | nil =>
    intro score next player t _ _ h
    simp only [evalChildren, pure, Except.pure, Except.ok.injEq] at h
    subst h
    simp
  | cons cn rest ih =>
    intro score next player t hcs hpl h
    obtain ⟨board1, cn1, b1, n1, p1, score1, board2, t1, hdo, hmid, _, hundo, hrest, ht⟩ :=
      evalChildren_cons_ok h
    obtain ⟨hcn, hsc, hcell⟩ := hcs cn (List.mem_cons_self _ _)
    rcases hmid with ⟨_, hp1, hr⟩ | ⟨h0, _⟩
    · have hp2 : p1 = 1 ∨ p1 = 2 := by
        rw [hp1]
        by_cases h1 : player = 1
        · right; simp [h1]
        · left; simp [h1]
      have hv : player ≠ 0 := by rcases hpl with h1 | h1 <;> simp [h1]
      have hq := hrec _ _ _ _ _ hcn hsc (countEmpty_setCell hcell hv hdo) hp2 hr
      obtain ⟨hb, hm, _⟩ := hframe _ _ _ _ _ hcn hr
      simp only at hb hm hq
      subst hb
      rw [hm] at hundo
      have hboard2 : board2 = board := setCell_undo hcell hdo hundo
      subst hboard2
      obtain ⟨hlen, hall⟩ := ih score1 n1 p1 t1
        (fun c hc => hcs c (List.mem_cons_of_mem _ hc)) hp2 hrest
      subst ht
      refine ⟨by simp [hlen], ?_⟩
      intro c hc
      rcases List.mem_cons.mp hc with hc | hc
      · subst hc
        exact hq
      · exact hall c hc
    · exact absurd h0 hp

/-- A call of `Evaluate` that completes on a childless, unscored node with `d`
plies, more than `d` empty cells and a player 1 or 2 expands the node to full
width. -/
theorem EvaluateAux_fullWidth :
    ∀ (fuel : Nat) (d : Nat) (node : Node) (board : Board) (next : Nat) (player : Int)
      (r : Node × Board × Nat), node.children = [] → node.Score = none →
      d < countEmpty board → (player = 1 ∨ player = 2) →
      EvaluateAux fuel node board next (d : Int) player = Except.ok r →
      FullWidth (countEmpty board) d r.1 := by
  intro fuel
  induction fuel with
  | zero =>
    intro d node board next player r _ _ _ _ h
    simp [EvaluateAux_zero] at h
  | succ fuel ih =>
    intro d node board next player r hnode hscore hlt hpl h
    obtain ⟨g, t, hg, ht, hr⟩ := EvaluateAux_succ_ok h
    obtain ⟨kids, hg1, hmv, hgen⟩ := generateChildMoves_eq_ok hg
    have hkids : g.1.children = kids := by rw [hg1, hnode]; rfl
    have hgs : g.1.Score = none := by rw [hg1]; exact hscore
    rw [hkids, hgs] at ht
    have hklen : kids.length = countEmpty board := by
      rw [← emptyCells_length, ← hmv, List.length_map]
    have hcell : ∀ c ∈ kids, cellAt board c.Movement = Except.ok 0 := by
      intro c hc
      apply mem_emptyCells.mp
      rw [← hmv]
      exact List.mem_map_of_mem _ hc
    have hrc : r.1.children = t.1 := by rw [hr]; rfl
    cases d with
    | zero =>
      simp only [Nat.cast_zero, decide_True] at hgen ht
      obtain ⟨h1, _⟩ := evalChildren_final _ _ _ _ _ _ ht
      apply FullWidth.final
      · rw [hrc, h1, hklen]
      · rw [hrc, h1]
        intro c hc
        obtain ⟨hcc, s, hs, _⟩ := Generated_scores _ _ _ hgen c hc
        exact ⟨hcc, s, hs⟩
    | succ d =>
      have hp : ((d + 1 : Nat) : Int) ≠ 0 := by omega
      have hd : decide (((d + 1 : Nat) : Int) = 0) = false := decide_eq_false hp
      rw [hd] at hgen
      obtain ⟨_, hunscored⟩ := Generated_unscored _ _ _ hgen
      have hsub : ((d + 1 : Nat) : Int) - 1 = (d : Int) := by omega
      rw [hsub] at ht
      obtain ⟨hlen, hall⟩ := @evalChildren_forall _ _ _
        (fun c => FullWidth (countEmpty board - 1) d c) hp
        (fun cn b n p r hcn hr => EvaluateAux_frame fuel cn b n (d : Int) p r hcn hr)
        (fun cn b n p r hcn hsc hcount hp1 hr => by
          have := ih d cn b n p r hcn hsc (by omega) hp1 hr
          have hb : countEmpty b = countEmpty board - 1 := by omega
          rw [hb] at this
          exact this)
        kids none g.2 player t
        (fun c hc => ⟨(Generated_children _ _ _ hgen c hc).1, hunscored c hc, hcell c hc⟩)
        hpl ht
      apply FullWidth.inner
      · rw [hrc, hlen, hklen]
      · rw [hrc]
        exact hall

theorem FullWidth_length {k d : Nat} {t : Node} (h : FullWidth k d t) :
    t.children.length = k := by
  cases h with
  | final h1 _ => exact h1
  | inner h1 _ => exact h1

theorem FullWidth_atDepth {i : Nat} {n t : Node} (hn : Node.AtDepth i n t) :
    ∀ (k d : Nat), FullWidth k d t → i ≤ d → n.children.length = k - i := by
  induction hn with
  | root t =>
    intro k d h _
    simpa using FullWidth_length h
  | child hc _ ih =>
    intro k d h hle
    cases h with
    | final _ _ => omega
    | inner _ h2 =>
      rw [ih _ _ (h2 _ hc) (by omega)]
      omega

theorem FullWidth_leaves {i : Nat} {n t : Node} (hn : Node.AtDepth i n t) :
    ∀ (k d : Nat), FullWidth k d t → i = d + 1 → n.children = [] ∧ ∃ s, n.Score = some s := by
  induction hn with
  | root t =>
    intro k d _ h
    omega
  | @child i n c t hc hsub ih =>
    intro k d h hi
    cases h with
    | final _ h2 =>
      have h0 : i = 0 := by omega
      subst h0
      cases hsub with
      | root => exact h2 _ hc
    | inner _ h2 => exact ih _ _ (h2 _ hc) (by omega)

theorem leafCountList_const (m : Nat) :
    ∀ cs : List Node, (∀ c ∈ cs, c.leafCount = m) → leafCountList cs = cs.length * m := by
  intro cs
  induction cs with
  | nil => intro _; simp [leafCountList]
  | cons c rest ih =>
    intro h
    rw [leafCountList, h c (List.mem_cons_self _ _), ih (fun x hx => h x (List.mem_cons_of_mem _ hx)),
      List.length_cons]
    ring

theorem leafCount_eq_list (t : Node) (h : t.children ≠ []) :
    t.leafCount = leafCountList t.children := by
  cases t with
  | mk s cs o m =>
    cases cs with
    | nil => exact absurd rfl h
    | cons c rest => simp [Node.leafCount, leafCountList, Node.children]

theorem leafCount_leaf (t : Node) (h : t.children = []) : t.leafCount = 1 := by
  cases t with
  | mk s cs o m =>
    simp only [Node.children] at h
    subst h
    simp [Node.leafCount]

theorem FullWidth_leafCount :
    ∀ (d k : Nat) (t : Node), FullWidth k d t → d < k →
      t.leafCount = k.descFactorial (d + 1) := by
  intro d
  induction d with
  | zero =>
    intro k t h hk
    cases h with
    | final h1 h2 =>
      have hne : t.children ≠ [] := by
        intro h0
        rw [h0] at h1
        simp at h1
        omega
      rw [leafCount_eq_list t hne,
        leafCountList_const 1 _ (fun c hc => leafCount_leaf c (h2 c hc).1), h1]
      simp
  | succ d ih =>
    intro k t h hk
    cases h with
    | inner h1 h2 =>
      have hne : t.children ≠ [] := by
        intro h0
        rw [h0] at h1
        simp at h1
        omega
      rw [leafCount_eq_list t hne,
        leafCountList_const _ _ (fun c hc => ih _ c (h2 c hc) (by omega)), h1]
      obtain ⟨j, rfl⟩ : ∃ j, k = j + 1 := ⟨k - 1, by omega⟩
      rw [Nat.succ_descFactorial_succ]
      simp

/-- C18. Unpruned full-width expansion: after `Evaluate` completes on a new
root with ply budget `d`, a player 1 or 2 and a board with `k > d` empty
cells, every node at depth `i <= d` has exactly `k - i` children, every node at
depth `d + 1` is a leaf with a score, and the tree has `k (k-1) ... (k-d)`
leaves. -/
theorem Evaluate_full_width (board : Board) (next : Nat) (d : Nat) (player : Int)
    (r : Node × Board × Nat) (hlt : d < countEmpty board) (hpl : player = 1 ∨ player = 2)
    (h : NewNode.Evaluate board next (d : Int) player = Except.ok r) :
    (∀ i n, Node.AtDepth i n r.1 → i ≤ d → n.children.length = countEmpty board - i) ∧
      (∀ n, Node.AtDepth (d + 1) n r.1 → n.children = [] ∧ ∃ s, n.Score = some s) ∧
      r.1.leafCount = (countEmpty board).descFactorial (d + 1) := by
  have hfw := EvaluateAux_fullWidth _ d NewNode board next player r rfl rfl hlt hpl h
  exact ⟨fun i n hn hi => FullWidth_atDepth hn _ _ hfw hi,
    fun n hn => FullWidth_leaves hn _ _ hfw rfl, FullWidth_leafCount _ _ _ hfw hlt⟩

/-- C18 at the board `[[0,0,0]]`, `d = 1`, player 1: 3 children, 2
grandchildren each, 6 leaves. -/
theorem Evaluate_full_width_witness :
    ((∀ i n, Node.AtDepth i n sampleTree → i ≤ 1 →
        n.children.length = countEmpty [[0, 0, 0]] - i) ∧
      (∀ n, Node.AtDepth (1 + 1) n sampleTree → n.children = [] ∧ ∃ s, n.Score = some s) ∧
      sampleTree.leafCount = (countEmpty [[0, 0, 0]]).descFactorial (1 + 1)) ∧
    sampleTree.leafCount = 6 :=
  ⟨Evaluate_full_width [[0, 0, 0]] 0 1 1 (sampleTree, [[0, 0, 0]], 6) (by decide) (Or.inl rfl)
    sampleTree_eq, rfl⟩

/-! ## The mover flag -/

theorem FlagsAlternate_mk {s : Option ScoreRef} {cs : List Node} {o : Bool} {m : Pos} :
    (Node.mk s cs o m).FlagsAlternate ↔
      ∀ c ∈ cs, c.isOpponent = (!o) ∧ c.FlagsAlternate := by
  constructor
  · intro h c hc
    refine ⟨h _ (Node.InTree.root _) c hc, ?_⟩
    intro n hn
    exact h n (Node.InTree.child hc hn)
  · intro h n hn
    rcases InTree_mk hn with hn | ⟨c, hc, hn⟩
    · subst hn
      intro c hc
      exact (h c hc).1
    · exact (h c hc).2 n hn

theorem FlagsAlternate_leaf {t : Node} (h : t.children = []) : t.FlagsAlternate := by
  intro n hn c hc
  have := InTree_leaf h hn
  subst this
  rw [h] at hc
  simp at hc

/-- The loop of `Evaluate` keeps the flags of the children and the
alternation of the flags below them. -/
theorem evalChildren_flags
    {recur : Node → Board → Nat → Int → Except Fault (Node × Board × Nat)} {plies : Int}
    (hrec : ∀ cn b n p r, cn.FlagsAlternate → recur cn b n p = Except.ok r →
      r.1.FlagsAlternate ∧ r.1.isOpponent = cn.isOpponent) :
    ∀ (cs : List Node) (score : Option ScoreRef) (board : Board) (next : Nat) (player : Int)
      (t : List Node × Option ScoreRef × Board × Nat) (o : Bool),
      (∀ c ∈ cs, c.isOpponent = o ∧ c.FlagsAlternate) →
      evalChildren recur plies cs score board next player = Except.ok t →
      ∀ c ∈ t.1, c.isOpponent = o ∧ c.FlagsAlternate := by
  intro cs
  induction cs with
  | nil =>
    intro score board next player t o _ h
    simp only [evalChildren, pure, Except.pure, Except.ok.injEq] at h
    subst h
    simp
  | cons cn rest ih =>
    intro score board next player t o hcs h
    obtain ⟨board1, cn1, b1, n1, p1, score1, board2, t1, _, hmid, _, _, hrest, ht⟩ :=
      evalChildren_cons_ok h
    obtain ⟨hco, hcf⟩ := hcs cn (List.mem_cons_self _ _)
    have hcn1 : cn1.isOpponent = o ∧ cn1.FlagsAlternate := by
      rcases hmid with ⟨_, _, hr⟩ | ⟨_, h1, _⟩
      · obtain ⟨h2, h3⟩ := hrec _ _ _ _ _ hcf hr
        exact ⟨h3.trans hco, h2⟩
      · subst h1
        exact ⟨hco, hcf⟩
    have hall := ih score1 board2 n1 p1 t1 o
      (fun c hc => hcs c (List.mem_cons_of_mem _ hc)) hrest
    subst ht
    intro c hc
    rcases List.mem_cons.mp hc with hc | hc
    · subst hc
      exact hcn1
    · exact hall c hc

/-- A call of `Evaluate` that completes keeps the flag of the node and the
alternation of the flags in its tree, whatever children the node had. -/
theorem EvaluateAux_flags :
    ∀ (fuel : Nat) (node : Node) (board : Board) (next : Nat) (plies player : Int)
      (r : Node × Board × Nat), node.FlagsAlternate →
      EvaluateAux fuel node board next plies player = Except.ok r →
      r.1.FlagsAlternate ∧ r.1.isOpponent = node.isOpponent := by
  intro fuel
  induction fuel with
  | zero =>
    intro node board next plies player r _ h
    simp [EvaluateAux_zero] at h
  | succ fuel ih =>
    intro node board next plies player r hflags h
    obtain ⟨g, t, hg, ht, hr⟩ := EvaluateAux_succ_ok h
    obtain ⟨kids, hg1, _, hgen⟩ := generateChildMoves_eq_ok hg
    have hgc : g.1.children = node.children ++ kids := by rw [hg1]; rfl
    have hgo : g.1.isOpponent = node.isOpponent := by rw [hg1]; rfl
    have hnode : ∀ c ∈ node.children, c.isOpponent = (!node.isOpponent) ∧ c.FlagsAlternate := by
      apply FlagsAlternate_mk.mp
      rw [Node.mk_eta]
      exact hflags
    have hcs : ∀ c ∈ g.1.children, c.isOpponent = (!node.isOpponent) ∧ c.FlagsAlternate := by
      intro c hc
      rw [hgc] at hc
      rcases List.mem_append.mp hc with hc | hc
      · exact hnode c hc
      · obtain ⟨h1, h2⟩ := Generated_children _ _ _ hgen c hc
        exact ⟨h2, FlagsAlternate_leaf h1⟩
    have hall := evalChildren_flags
      (fun cn b n p r hcn hr => ih cn b n (plies - 1) p r hcn hr) _ _ _ _ _ _ _ hcs ht
    rw [hr, hgo]
    exact ⟨FlagsAlternate_mk.mpr hall, rfl⟩

theorem add_flags (t : Node) (score : Option ScoreRef) (movement : Pos)
    (h : t.FlagsAlternate) :
    (t.add score movement).1.FlagsAlternate ∧
      (t.add score movement).1.isOpponent = t.isOpponent := by
  refine ⟨?_, rfl⟩
  apply FlagsAlternate_mk.mpr
  have hnode : ∀ c ∈ t.children, c.isOpponent = (!t.isOpponent) ∧ c.FlagsAlternate := by
    apply FlagsAlternate_mk.mp
    rw [Node.mk_eta]
    exact h
  intro c hc
  rcases List.mem_append.mp hc with hc | hc
  · exact hnode c hc
  · simp only [List.mem_singleton] at hc
    subst hc
    exact ⟨rfl, FlagsAlternate_leaf rfl⟩

/-- One call of `Add`, `AddTerminal` or `Evaluate` on a node of the tree keeps
the flag of the root and the alternation of the flags. -/
theorem Call_flags {t u : Node} (hc : Node.Call t u) :
    t.FlagsAlternate → u.FlagsAlternate ∧ u.isOpponent = t.isOpponent := by
  induction hc with
  | add t movement => exact add_flags t none movement
  | addTerminal t next score movement => exact add_flags t _ movement
  | evaluate t board next plies player r h =>
    intro hf
    exact EvaluateAux_flags _ _ _ _ _ _ _ hf h
  | inside s before c u after o m _ ih =>
    intro hf
    refine ⟨?_, rfl⟩
    have hall := FlagsAlternate_mk.mp hf
    obtain ⟨hco, hcf⟩ := hall c (by simp)
    obtain ⟨huf, huo⟩ := ih hcf
    apply FlagsAlternate_mk.mpr
    intro x hx
    rcases List.mem_append.mp hx with hx | hx
    · exact hall x (by simp [hx])
    · rcases List.mem_cons.mp hx with hx | hx
      · subst hx
        exact ⟨huo.trans hco, huf⟩
      · exact hall x (by simp [hx])

theorem Reachable_flags {t : Node} (h : Node.Reachable t) :
    t.FlagsAlternate ∧ t.isOpponent = false := by
  induction h with
  | new => exact ⟨FlagsAlternate_leaf rfl, rfl⟩
  | call _ hc ih =>
    obtain ⟨h1, h2⟩ := Call_flags hc ih.1
    exact ⟨h1, h2.trans ih.2⟩

theorem FlagsAlternate_child {t c : Node} (h : t.FlagsAlternate) (hc : c ∈ t.children) :
    c.isOpponent = (!t.isOpponent) ∧ c.FlagsAlternate := by
  have hall : ∀ x ∈ t.children, x.isOpponent = (!t.isOpponent) ∧ x.FlagsAlternate := by
    apply FlagsAlternate_mk.mp
    rw [Node.mk_eta]
    exact h
  exact hall c hc

theorem AtDepth_flag {i : Nat} {n t : Node} (hn : Node.AtDepth i n t) :
    t.FlagsAlternate → n.isOpponent = xor t.isOpponent (decide (i % 2 = 1)) := by
  induction hn with
  | root t =>
    intro _
    simp
  | @child i n c t hc _ ih =>
    intro hf
    obtain ⟨hco, hcf⟩ := FlagsAlternate_child hf hc
    rw [ih hcf, hco]
    by_cases hi : i % 2 = 1
    · have h2 : ¬ ((i + 1) % 2 = 1) := by omega
      simp [hi, h2]
    · have h2 : (i + 1) % 2 = 1 := by omega
      simp [hi, h2]

/-- C16. Mover-flag invariant: in every tree reachable from `NewNode` by calls
of `Add`, `AddTerminal` and `Evaluate` on its nodes, the root's flag is false,
every child's flag is the negation of its parent's, and a node's flag is true
exactly when its depth below the root is odd. -/
theorem Reachable_flag_invariant (t : Node) (h : Node.Reachable t) :
    t.isOpponent = false ∧
      (∀ n, Node.InTree n t → ∀ c ∈ n.children, c.isOpponent = (!n.isOpponent)) ∧
      (∀ i n, Node.AtDepth i n t → (n.isOpponent = true ↔ i % 2 = 1)) := by
  obtain ⟨hf, h0⟩ := Reachable_flags h
  refine ⟨h0, hf, ?_⟩
  intro i n hn
  rw [AtDepth_flag hn hf, h0]
  simp

/-- The tree `sampleTree` is reachable: one call of `Evaluate` on `NewNode`. -/
theorem sampleTree_reachable : Node.Reachable sampleTree :=
  Node.Reachable.call Node.Reachable.new
    (Node.Call.evaluate NewNode [[0, 0, 0]] 0 1 1 (sampleTree, [[0, 0, 0]], 6) sampleTree_eq)

/-- C16 at the tree that `Evaluate` builds on `[[0,0,0]]` with `plies = 1`. -/
theorem Reachable_flag_invariant_witness :
    sampleTree.isOpponent = false ∧
      (∀ n, Node.InTree n sampleTree → ∀ c ∈ n.children, c.isOpponent = (!n.isOpponent)) ∧
      (∀ i n, Node.AtDepth i n sampleTree → (n.isOpponent = true ↔ i % 2 = 1)) :=
  Reachable_flag_invariant sampleTree sampleTree_reachable

end Minimax
